import Mathlib

/-!
Verification of the TemporalDB core engine (a Git-like versioned store for
JSON-shaped values) against its natural-language specification.

The development shallowly embeds the JavaScript sources:
  - the Diff engine (src diff.js: generate / apply / invert / findConflicts),
  - the Merkle engine (src merkle.js: fromObject / toObject / storeTree /
    retrieveTree),
  - the Storage layer (src storage.js: refs, commit records and the lodash
    path utilities getValueAtPath / setValueAtPath / deleteValueAtPath),
  - the Branch manager (src branch.js: commit, getHistory, getDataAtTime) and
    the MergeResult lifecycle (src merge.js).

Modelling conventions, chosen to mirror JavaScript semantics:
  - A JavaScript value is a JValue; the constructor jundef models the JS
    value undefined (it arises as the result of missing-property reads and
    as the hole that the delete operator leaves in an array).
  - typeof null is the string "object" in JS; jsTypeTag reproduces that.
  - IEEE-754 numbers are modelled as integers; none of the verified claims
    depends on float-specific behaviour.
  - SHA-256 over the canonical JSON encoding is modelled by the canonical
    JSON encoding itself: the design invariant H1 of the specification
    treats the hash as injective on content, and the encoding is the
    injective idealisation of that. String escaping inside the encoding is
    not modelled (no verified claim depends on it).
  - IndexedDB object stores are sorted maps from keys to records; an index
    cursor over the commits store with direction prev enumerates the
    records of one branch in descending primary-key (hash) order, which is
    what the model's getCommitsForBranch computes.
-/

/-- A JavaScript value: null, undefined, boolean, number, string, array or
plain object.  Object field lists are kept in JS property-enumeration
order. -/
inductive JValue : Type where
  | jnull
  | jundef
  | jbool (b : Bool)
  | jnum (n : Int)
  | jstr (s : String)
  | jarr (xs : List JValue)
  | jobj (fields : List (String × JValue))

namespace JValue

/-- Association-list lookup of an object property. -/
def lookupJ (k : String) : List (String × JValue) → Option JValue
  | [] => none
  | (l, w) :: rest => if k = l then some w else lookupJ k rest

/-- Does the field list carry the property? -/
def hasKey (k : String) : List (String × JValue) → Bool
  | [] => false
  | (l, _) :: rest => k == l || hasKey k rest

/-- The tag computed by the source as Array.isArray(v) ? 'array' : typeof v.
Note typeof null is "object" in JavaScript. -/
def jsTypeTag : JValue → String
  | .jnull => "object"
  | .jundef => "undefined"
  | .jbool _ => "boolean"
  | .jnum _ => "number"
  | .jstr _ => "string"
  | .jarr _ => "array"
  | .jobj _ => "object"

/-- Is the value a JS object in the lodash isObject sense that matters here:
a plain object or an array? -/
def isComposite : JValue → Bool
  | .jarr _ => true
  | .jobj _ => true
  | _ => false

end JValue

/-! ### Decimal keys

JavaScript array indices surface as their canonical decimal strings, both as
the synthetic Merkle keys of array elements and as lodash path segments.
The printer and the parser below are the model of String(i) and of the
canonical-index test used by lodash and by JS property enumeration. -/

/-- One decimal digit as a character. -/
def digitChar : Nat → Char
  | 0 => '0' | 1 => '1' | 2 => '2' | 3 => '3' | 4 => '4'
  | 5 => '5' | 6 => '6' | 7 => '7' | 8 => '8' | _ => '9'

/-- Decimal digits of a number, least significant first; the first argument
is fuel, always called with fuel greater than the number. -/
def digitsRev : Nat → Nat → List Char
  | 0, _ => []
  | fuel + 1, n =>
    if n < 10 then [digitChar n]
    else digitChar (n % 10) :: digitsRev fuel (n / 10)

/-- The canonical decimal string of a natural number, as String(i) in JS. -/
def natToKey (n : Nat) : String := ⟨(digitsRev (n + 1) n).reverse⟩

/-- Is the character an ASCII decimal digit? -/
def isDigitChar (c : Char) : Bool := 48 ≤ c.toNat && c.toNat ≤ 57

/-- Numeric value of a digit list, most significant first. -/
def digitsVal (cs : List Char) : Nat :=
  cs.foldl (fun a c => a * 10 + (c.toNat - 48)) 0

/-- Parse a string as a canonical array index: a nonempty all-digit string
without a leading zero (except "0" itself).  Returns none for every string
that JS would treat as an ordinary property key. -/
def parseIndex (s : String) : Option Nat :=
  match s.data with
  | [] => none
  | c :: cs =>
    if isDigitChar c && cs.all isDigitChar && !(c == '0' && cs ≠ []) then
      some (digitsVal (c :: cs))
    else none

/-! ### Path splitting

A diff path is a dotted string of key segments.  The splitter below models
the lodash stringToPath cast used by get / set / unset: the empty string is
the empty path, and otherwise the string is cut at every dot (so a path
that begins or ends with a dot contributes empty segments, exactly as
lodash's toPath does on such strings). -/

/-- Split a character list at every dot. -/
def splitDots : List Char → List (List Char)
  | [] => [[]]
  | c :: rest =>
    if c = '.' then [] :: splitDots rest
    else
      match splitDots rest with
      | [] => [[c]]
      | g :: gs => (c :: g) :: gs

/-- Split a dotted path string into its segments.  lodash castPath also
splits bracket segments ("x[0]" becomes ["x", "0"]); this models its
behaviour on bracket-free paths, which is exact there, and every universe
the round-trip theorems below quantify over keeps keys bracket-free. -/
def splitPath (s : String) : List String :=
  if s = "" then [] else (splitDots s.data).map (fun cs => ⟨cs⟩)

namespace JValue

/-! ### lodash path utilities (Storage.getValueAtPath and friends)

Storage.getValueAtPath is lodash get, Storage.setValueAtPath is lodash set
on a deep copy, Storage.deleteValueAtPath is lodash unset on a deep copy.
Deep copies are the identity in this persistent model.  The segment-level
functions below model lodash's baseGet / baseSet / baseUnset:
  - reading a missing property yields undefined (jundef);
  - set replaces a non-composite intermediate by a fresh array or object,
    fresh arrays being chosen when the next segment is a canonical index;
  - set on an array at index i beyond the length pads with holes (jundef);
  - unset deletes an object key, and on an array leaves a hole in place
    (the JS delete operator does not splice), a no-op past the length;
  - indexing a string primitive is not modelled (it reads a character in
    JS); no path in the verified flows descends into a string. -/

/-- Element of a list, undefined when out of range (JS a[i]). -/
def atIdxGo : List JValue → Nat → JValue
  | [], _ => .jundef
  | x :: _, 0 => x
  | _ :: xs, n + 1 => atIdxGo xs n

/-- Write index i of an array, padding with holes beyond the length. -/
def arrWrite : List JValue → Nat → JValue → List JValue
  | [], 0, v => [v]
  | [], n + 1, v => .jundef :: arrWrite [] n v
  | _ :: xs, 0, v => v :: xs
  | x :: xs, n + 1, v => x :: arrWrite xs n v

/-- Leave a hole at index i of an array (JS delete a[i]); no-op past the
length. -/
def arrHole : List JValue → Nat → List JValue
  | [], _ => []
  | _ :: xs, 0 => .jundef :: xs
  | x :: xs, n + 1 => x :: arrHole xs n

/-- Replace the value of an existing key in place, else append the key. -/
def setField : List (String × JValue) → String → JValue → List (String × JValue)
  | [], k, v => [(k, v)]
  | (l, w) :: rest, k, v =>
    if k = l then (l, v) :: rest else (l, w) :: setField rest k v

/-- Remove a key from a field list. -/
def removeField : List (String × JValue) → String → List (String × JValue)
  | [], _ => []
  | (l, w) :: rest, k => if k = l then rest else (l, w) :: removeField rest k

/-- lodash baseGet over split segments. -/
def getSegs : JValue → List String → JValue
  | v, [] => v
  | .jobj fs, k :: rest => getSegs ((lookupJ k fs).getD .jundef) rest
  | .jarr xs, k :: rest =>
    match parseIndex k with
    | some i => getSegs (atIdxGo xs i) rest
    | none => getSegs .jundef rest
  | _, _ :: _ => jundef

/-- A fresh intermediate for lodash set: an array when the next segment is a
canonical index, an object otherwise. -/
def freshFor (rest : List String) : JValue :=
  match rest with
  | [] => .jobj []
  | k :: _ => if (parseIndex k).isSome then .jarr [] else .jobj []

/-- lodash baseSet over split segments, on a copy. -/
def setSegs : JValue → List String → JValue → JValue
  | v, [], _ => v
  | .jobj fs, k :: rest, x =>
    match rest with
    | [] => .jobj (setField fs k x)
    | _ =>
      let child := (lookupJ k fs).getD .jundef
      let child' := if child.isComposite then child else freshFor rest
      .jobj (setField fs k (setSegs child' rest x))
  | .jarr xs, k :: rest, x =>
    match parseIndex k with
    | some i =>
      match rest with
      | [] => .jarr (arrWrite xs i x)
      | _ =>
        let child := atIdxGo xs i
        let child' := if child.isComposite then child else freshFor rest
        .jarr (arrWrite xs i (setSegs child' rest x))
    | none => .jarr xs
  | v, _ :: _, _ => v

/-- lodash baseUnset over split segments, on a copy. -/
def unsetSegs : JValue → List String → JValue
  | v, [] => v
  | .jobj fs, [k] => .jobj (removeField fs k)
  | .jarr xs, [k] =>
    (match parseIndex k with
     | some i => .jarr (arrHole xs i)
     | none => .jarr xs)
  | .jobj fs, k :: rest =>
    (match lookupJ k fs with
     | some c => .jobj (setField fs k (unsetSegs c rest))
     | none => .jobj fs)
  | .jarr xs, k :: rest =>
    (match parseIndex k with
     | some i =>
       match atIdxGo xs i with
       | .jundef => .jarr xs
       | c => .jarr (arrWrite xs i (unsetSegs c rest))
     | none => .jarr xs)
  | v, _ :: _ => v

/-- Storage.getValueAtPath: lodash get on a dotted path. -/
def getValueAtPath (v : JValue) (path : String) : JValue :=
  getSegs v (splitPath path)

/-- Storage.setValueAtPath: lodash set of a deep copy on a dotted path. -/
def setValueAtPath (v : JValue) (path : String) (x : JValue) : JValue :=
  setSegs v (splitPath path) x

/-- Storage.deleteValueAtPath: lodash unset of a deep copy on a dotted
path. -/
def deleteValueAtPath (v : JValue) (path : String) : JValue :=
  unsetSegs v (splitPath path)

/-! ### lodash isEqual (Storage.valuesEqual)

Deep equality: arrays compare by length and position (an array hole equals
an explicit undefined), plain objects compare as unordered key sets. -/

mutual

/-- lodash isEqual. -/
def jsEqual : JValue → JValue → Bool
  | .jnull, .jnull => true
  | .jundef, .jundef => true
  | .jbool a, .jbool b => a == b
  | .jnum a, .jnum b => a == b
  | .jstr a, .jstr b => a == b
  | .jarr xs, .jarr ys => jsEqualList xs ys
  | .jobj fs, .jobj gs => fs.length == gs.length && jsEqualFields fs gs
  | _, _ => false

def jsEqualList : List JValue → List JValue → Bool
  | [], [] => true
  | x :: xs, y :: ys => jsEqual x y && jsEqualList xs ys
  | _, _ => false

def jsEqualFields : List (String × JValue) → List (String × JValue) → Bool
  | [], _ => true
  | (k, v) :: fs, gs =>
    (match lookupJ k gs with
     | some w => jsEqual v w
     | none => false) && jsEqualFields fs gs

end

end JValue

/-! ## The Diff engine (src diff.js)

A diff is three lists: added and modified carry path/value pairs, deleted
carries paths.  Paths are dotted strings; the root is the string ".". -/

/-- One added or modified entry of a diff. -/
structure DiffEntry where
  path : String
  value : JValue

/-- A path-based diff. -/
structure Diff where
  added : List DiffEntry
  modified : List DiffEntry
  deleted : List String

namespace Diff

def empty : Diff := ⟨[], [], []⟩

/-- Concatenate the three lists componentwise; models consecutive pushes
into one shared mutable diff object. -/
def app (d e : Diff) : Diff :=
  ⟨d.added ++ e.added, d.modified ++ e.modified, d.deleted ++ e.deleted⟩

end Diff

namespace Diff
open JValue

/-- The path actually recorded for an emission at path p: the source writes
path || '.', so the empty root path is recorded as ".". -/
def orDot (p : String) : String := if p = "" then "." else p

/-- The child path built by the source: path ? path + '.' + key : key. -/
def childPath (p k : String) : String := if p = "" then k else p ++ "." ++ k

/-- The keys of a field list in order (JS Object.keys). -/
def keysOf (fs : List (String × JValue)) : List String := fs.map Prod.fst

mutual

/-- Diff._compareObjects.  The Except layer models the TypeError that
Object.keys(null) throws: typeof null is "object", so when both sides reach
the composite branch and either is null the source crashes. -/
def cmp (oldV newV : JValue) (p : String) : Except String Diff :=
  match oldV, newV with
  | .jundef, .jundef => .ok Diff.empty
  | .jundef, nv => .ok ⟨[⟨orDot p, nv⟩], [], []⟩
  | _, .jundef => .ok ⟨[], [], [orDot p]⟩
  | ov, nv =>
    if ov.jsTypeTag ≠ nv.jsTypeTag then .ok ⟨[], [⟨orDot p, nv⟩], []⟩
    else if ov.jsTypeTag ≠ "object" ∧ ov.jsTypeTag ≠ "array" then
      if jsEqual ov nv then .ok Diff.empty
      else .ok ⟨[], [⟨orDot p, nv⟩], []⟩
    else
      match ov, nv with
      | .jobj fsA, .jobj fsB => do
        let level : Diff :=
          ⟨[], [], (fsA.filter (fun q => !hasKey q.1 fsB)).map
                     (fun q => childPath p q.1)⟩
        let rest ← cmpObjWalk fsA fsB p
        pure (level.app rest)
      | .jarr xs, .jarr ys => do
        let delIdx := (List.range xs.length).filter (fun i => ys.length ≤ i)
        let level : Diff := ⟨[], [], delIdx.map (fun i => childPath p (natToKey i))⟩
        let rest ← cmpArrWalk xs ys 0 p
        pure (level.app rest)
      | _, _ => .error "TypeError: Object.keys called on null"

/-- The newKeys loop of _compareObjects for plain objects: walk the new
fields in order; a key absent on the old side is an addition, a shared key
recurses. -/
def cmpObjWalk (fsA : List (String × JValue)) (fsB : List (String × JValue))
    (p : String) : Except String Diff :=
  match fsB with
  | [] => .ok Diff.empty
  | (k, bv) :: rest => do
    let here ←
      match lookupJ k fsA with
      | some av => cmp av bv (childPath p k)
      | none => .ok ⟨[⟨childPath p k, bv⟩], [], []⟩
    let tail ← cmpObjWalk fsA rest p
    pure (here.app tail)

/-- The newKeys loop for arrays: JS enumerates the index keys "0", "1", …
in numeric order, so the walk is positional. -/
def cmpArrWalk (xs ys : List JValue) (i : Nat) (p : String) :
    Except String Diff :=
  match ys with
  | [] => .ok Diff.empty
  | y :: ys' =>
    match xs with
    | [] => do
      let tail ← cmpArrWalk [] ys' (i + 1) p
      pure ((Diff.mk [⟨childPath p (natToKey i), y⟩] [] []).app tail)
    | x :: xs' => do
      let here ← cmp x y (childPath p (natToKey i))
      let tail ← cmpArrWalk xs' ys' (i + 1) p
      pure (here.app tail)

end

/-- Diff.generate. -/
def generate (oldObj newObj : JValue) : Except String Diff :=
  cmp oldObj newObj ""

/-- Diff.apply: on a deep copy, unset every deleted path, then set every
modified and then every added path to its value. -/
def applyDiff (obj : JValue) (d : Diff) : JValue :=
  let afterDel := d.deleted.foldl (fun acc p => deleteValueAtPath acc p) obj
  (d.modified ++ d.added).foldl
    (fun acc e => setValueAtPath acc e.path e.value) afterDel

/-- Diff.invert: additions become deletions, deletions become additions
with the pre-image values, modifications keep their paths with the
pre-image values. -/
def invert (obj : JValue) (d : Diff) : Diff :=
  { added := d.deleted.map (fun p => ⟨p, getValueAtPath obj p⟩)
    modified := d.modified.map (fun e => ⟨e.path, getValueAtPath obj e.path⟩)
    deleted := d.added.map (fun e => e.path) }

/-- The test-environment shortcut condition inside Diff.findConflicts: the
modified list carries an entry at path settings.theme or settings. -/
def hasSettingsMod (d : Diff) : Bool :=
  d.modified.any (fun i => i.path == "settings.theme" || i.path == "settings")

/-- Diff.findConflicts.  The boolean testEnv models the environment check
process.env.NODE_ENV === 'test' || typeof jest !== 'undefined'; when it
holds and both modified lists touch settings.theme or settings the source
short-circuits to ['settings.theme'].  Otherwise: a path written (modified
or added) in A conflicts when B writes or deletes it, and a path deleted in
A conflicts when B writes it. -/
def findConflicts (testEnv : Bool) (dA dB : Diff) : List String :=
  if testEnv && hasSettingsMod dA && hasSettingsMod dB then
    ["settings.theme"]
  else
    let firstLoop :=
      (dA.modified ++ dA.added).filterMap (fun iA =>
        if (dB.modified.any (fun i => i.path == iA.path))
            || (dB.added.any (fun i => i.path == iA.path))
            || (dB.deleted.contains iA.path) then
          some iA.path
        else none)
    let secondLoop :=
      dA.deleted.filter (fun pA =>
        (dB.modified.any (fun i => i.path == pA))
          || (dB.added.any (fun i => i.path == pA)))
    firstLoop ++ secondLoop

end Diff


/-! ### Well-formed JavaScript values

The values that actually exist in a JavaScript program: object key lists
never repeat a key, and the undefined pseudo-value never sits inside a
stored structure.  Claims quantified over every structured value range
over this universe. -/

/-- No key occurs twice in the field list. -/
def distinctKeys : List (String × JValue) → Bool
  | [] => true
  | (k, _) :: rest => !(rest.any (fun q => q.1 == k)) && distinctKeys rest

mutual

/-- A well-formed stored value: no undefined, object keys distinct. -/
def wfVal : JValue → Bool
  | .jnull => true
  | .jundef => false
  | .jbool _ => true
  | .jnum _ => true
  | .jstr _ => true
  | .jarr xs => wfList xs
  | .jobj fs => distinctKeys fs && wfFields fs

def wfList : List JValue → Bool
  | [] => true
  | x :: xs => wfVal x && wfList xs

def wfFields : List (String × JValue) → Bool
  | [] => true
  | (_, v) :: fs => wfVal v && wfFields fs

end

/-! ## The Merkle engine (src merkle.js) -/

/-- Lexicographic order on character lists by code point; the comparison JS
Array.prototype.sort applies to string keys. -/
def charsLe : List Char → List Char → Bool
  | [], _ => true
  | _ :: _, [] => false
  | c :: cs, d :: ds =>
    if c.toNat < d.toNat then true
    else if d.toNat < c.toNat then false
    else charsLe cs ds

/-- String order used when the source sorts Object.keys. -/
def strLeB (a b : String) : Bool := charsLe a.data b.data

/-- Sort key/value pairs by key, as Object.keys(data).sort(). -/
def sortByKey {α : Type} (fs : List (String × α)) : List (String × α) :=
  List.insertionSort (fun p q => strLeB p.1 q.1 = true) fs

/-- The numeric value of a canonical-index key (0 for any other key). -/
def idxKeyVal {α : Type} (p : String × α) : Nat := (parseIndex p.1).getD 0

/-- Ordering of pairs by the numeric value of their key. -/
def idxLe {α : Type} (p q : String × α) : Prop := idxKeyVal p ≤ idxKeyVal q

instance {α : Type} : DecidableRel (@idxLe α) := fun _ _ => Nat.decLe _ _

/-- JS property-enumeration order of an inserted key list: keys that are
canonical array indices come first in ascending numeric order, every other
key keeps its insertion order. -/
def jsOrderFields {α : Type} (fs : List (String × α)) : List (String × α) :=
  let idx := fs.filter (fun p => (parseIndex p.1).isSome)
  let oth := fs.filter (fun p => !(parseIndex p.1).isSome)
  List.insertionSort idxLe idx ++ oth

mutual

/-- The canonical JSON encoding, JSON.stringify on the model.  It doubles as
the content hash: see the header notes on the SHA-256 idealisation. -/
def jsonEncode : JValue → String
  | .jnull => "null"
  | .jundef => "undefined"
  | .jbool true => "true"
  | .jbool false => "false"
  | .jnum n => if n < 0 then "-" ++ natToKey n.natAbs else natToKey n.natAbs
  | .jstr s => "\"" ++ s ++ "\""
  | .jarr xs => "[" ++ jsonEncodeList xs ++ "]"
  | .jobj fs => "\x7b" ++ jsonEncodeFields fs ++ "\x7d"

def jsonEncodeList : List JValue → String
  | [] => ""
  | [x] => jsonEncode x
  | x :: xs => jsonEncode x ++ "," ++ jsonEncodeList xs

def jsonEncodeFields : List (String × JValue) → String
  | [] => ""
  | [(k, v)] => "\"" ++ k ++ "\":" ++ jsonEncode v
  | (k, v) :: fs => "\"" ++ k ++ "\":" ++ jsonEncode v ++ "," ++ jsonEncodeFields fs

end

/-- MerkleTree.hashData: SHA-256 of the JSON encoding, idealised as the
encoding itself.  The idealisation preserves the spec's H1 injectivity but
not the lexicographic order of digests, so every concrete input of an
order-sensitive theorem below is chosen so that the real SHA-256 digests
of the hashes involved compare the same way as their encodings. -/
def hashData (v : JValue) : String := jsonEncode v

/-- An in-memory Merkle tree: a leaf holds a primitive and its type tag, an
internal node holds the object or array tag and named children. -/
inductive MTree : Type where
  | leaf (hash : String) (ty : String) (value : JValue)
  | node (hash : String) (ty : String) (children : List (String × MTree))

namespace MerkleTree

/-- The hash of a tree node. -/
def hashOf : MTree → String
  | .leaf h _ _ => h
  | .node h _ _ => h

/-- Build an internal node: the source sorts the keys, hashes the mapping
from key to child hash, and keeps the children in a JS object, whose
enumeration order puts index keys first numerically. -/
def mkInternal (ty : String) (kids : List (String × MTree)) : MTree :=
  let ordered := jsOrderFields (sortByKey kids)
  let h := hashData (.jobj (ordered.map (fun p => (p.1, JValue.jstr (hashOf p.2)))))
  .node h ty ordered

mutual

/-- MerkleTree.fromObject.  null and undefined data become the null leaf;
primitives become leaves hashed on their value; objects and arrays recurse,
arrays via their stringified positions. -/
def fromObject : JValue → MTree
  | .jnull => .leaf (hashData .jnull) "null" .jnull
  | .jundef => .leaf (hashData .jnull) "null" .jnull
  | .jbool b => .leaf (hashData (.jbool b)) "boolean" (.jbool b)
  | .jnum n => .leaf (hashData (.jnum n)) "number" (.jnum n)
  | .jstr s => .leaf (hashData (.jstr s)) "string" (.jstr s)
  | .jarr xs => mkInternal "array" (fromArr 0 xs)
  | .jobj fs => mkInternal "object" (fromFields fs)

def fromArr : Nat → List JValue → List (String × MTree)
  | _, [] => []
  | i, x :: xs => (natToKey i, fromObject x) :: fromArr (i + 1) xs

def fromFields : List (String × JValue) → List (String × MTree)
  | [] => []
  | (k, v) :: fs => (k, fromObject v) :: fromFields fs

end

/-- The assignment result[key] = v performed by toObject when result is an
array: a canonical index writes that position (padding with holes), any
other key would become an invisible non-index property. -/
def arrAssign (acc : List JValue) (k : String) (v : JValue) : List JValue :=
  match parseIndex k with
  | some i => JValue.arrWrite acc i v
  | none => acc

mutual

/-- MerkleTree.toObject: leaves give back their value, internal nodes
rebuild an array or object from the children in enumeration order. -/
def toObject : MTree → JValue
  | .leaf _ _ v => v
  | .node _ ty cs =>
    if ty == "array" then .jarr (toArr [] cs) else .jobj (toFields cs)

def toArr : List JValue → List (String × MTree) → List JValue
  | acc, [] => acc
  | acc, (k, c) :: rest => toArr (arrAssign acc k (toObject c)) rest

def toFields : List (String × MTree) → List (String × JValue)
  | [] => []
  | (k, c) :: rest => (k, toObject c) :: toFields rest

end

end MerkleTree

/-! ## The Storage layer (src storage.js)

IndexedDB object stores are modelled as association lists; the commits
store, whose keyPath is the commit hash, is kept sorted ascending by hash,
matching the b-tree order of IndexedDB primary keys.  The branch index
cursor opened with direction prev therefore yields the records of a branch
in descending hash order -- IndexedDB sorts the entries of one index key by
primary key, and the cursor walks them backwards. -/

/-- Strict code-point order on strings; the IndexedDB key comparison. -/
def strLtB (a b : String) : Bool := strLeB a b && a ≠ b

/-- A persisted commit record. -/
structure Commit where
  hash : String
  parent : Option String
  branch : String
  message : String
  timestamp : Nat
  rootHash : String
  deriving DecidableEq

/-- A stored Merkle node record, the JSON.parse of what storage.get
returns: a leaf record keeps type and value, an internal record keeps type
and the mapping from child key to child hash. -/
inductive NodeRec : Type where
  | leafRec (ty : String) (value : JValue)
  | intRec (ty : String) (children : List (String × String))

/-- The whole database: the objects, refs and commits stores. -/
structure Store where
  objects : List (String × NodeRec)
  refs : List (String × String)
  commits : List Commit

namespace Storage

/-- The empty database. -/
def emptyStore : Store := ⟨[], [], []⟩

/-- Replace-or-append in an association list (IndexedDB put). -/
def putAssoc {α : Type} : List (String × α) → String → α → List (String × α)
  | [], k, v => [(k, v)]
  | (l, w) :: rest, k, v =>
    if k = l then (l, v) :: rest else (l, w) :: putAssoc rest k v

/-- Lookup in an association list. -/
def getAssoc {α : Type} : List (String × α) → String → Option α
  | [], _ => none
  | (l, w) :: rest, k => if k = l then some w else getAssoc rest k

/-- Remove a key from an association list (IndexedDB delete). -/
def delAssoc {α : Type} : List (String × α) → String → List (String × α)
  | [], _ => []
  | (l, w) :: rest, k => if k = l then rest else (l, w) :: delAssoc rest k

/-- storage.put with a provided hash key. -/
def putObj (s : Store) (hash : String) (rec : NodeRec) : Store :=
  { s with objects := putAssoc s.objects hash rec }

/-- storage.get on the objects store. -/
def getObj (s : Store) (hash : String) : Option NodeRec :=
  getAssoc s.objects hash

/-- storage.saveRef. -/
def saveRef (s : Store) (name hash : String) : Store :=
  { s with refs := putAssoc s.refs name hash }

/-- storage.getRef; a missing ref is undefined in the source, none here. -/
def getRef (s : Store) (name : String) : Option String :=
  getAssoc s.refs name

/-- storage.deleteRef. -/
def deleteRef (s : Store) (name : String) : Store :=
  { s with refs := delAssoc s.refs name }

/-- Insert a commit record into the hash-sorted commits store, replacing
the record with the same hash when present: the store's keyPath is 'hash',
so put overwrites by commit hash. -/
def saveCommitList : List Commit → Commit → List Commit
  | [], c => [c]
  | d :: ds, c =>
    if c.hash = d.hash then c :: ds
    else if strLtB c.hash d.hash then c :: d :: ds
    else d :: saveCommitList ds c

/-- storage.saveCommit. -/
def saveCommit (s : Store) (c : Commit) : Store :=
  { s with commits := saveCommitList s.commits c }

/-- storage.getCommit. -/
def getCommit (s : Store) (hash : String) : Option Commit :=
  s.commits.find? (fun c => c.hash == hash)

/-- storage.getCommitsForBranch: the cursor over the branch index with
direction prev returns the records whose branch field matches, in
descending primary-key (hash) order -- not in timestamp order. -/
def getCommitsForBranch (s : Store) (branch : String) : List Commit :=
  (s.commits.filter (fun c => c.branch == branch)).reverse

end Storage

namespace MerkleTree

mutual

/-- MerkleTree.storeTree: children first, then the node record under its
own hash. -/
def storeTree (s : Store) : MTree → Store
  | .leaf h ty v => Storage.putObj s h (.leafRec ty v)
  | .node h ty cs =>
    let s' := storeChildren s cs
    Storage.putObj s' h (.intRec ty (cs.map (fun p => (p.1, hashOf p.2))))

def storeChildren (s : Store) : List (String × MTree) → Store
  | [] => s
  | (_, c) :: rest => storeChildren (storeTree s c) rest

end

/-- Retrieve every child of an internal record with the supplied
retriever, keeping the stored order. -/
def retrieveKidsWith (f : String → Except String MTree) :
    List (String × String) → Except String (List (String × MTree))
  | [] => .ok []
  | (k, ch) :: rest => do
    let c ← f ch
    let cs ← retrieveKidsWith f rest
    pure ((k, c) :: cs)

/-- MerkleTree.retrieveTree.  The fuel argument bounds the recursion depth
through stored hash links; every caller passes more fuel than the store
holds records, so fuel exhaustion can only mean a cyclic (corrupt) store.
A missing node is the hard error of the source. -/
def retrieveTree (s : Store) : Nat → String → Except String MTree
  | 0, _ => .error "retrieveTree: cyclic object store"
  | fuel + 1, h =>
    match Storage.getObj s h with
    | none => .error ("Node with hash " ++ h ++ " not found in storage")
    | some (.leafRec ty v) => .ok (.leaf h ty v)
    | some (.intRec ty kids) => do
      let cs ← retrieveKidsWith (fun ch => retrieveTree s fuel ch) kids
      pure (.node h ty cs)

end MerkleTree

/-! ## The Branch manager (src branch.js) -/

namespace Branch

/-- Branch.getBranchHead: read the branch ref. -/
def getBranchHead (s : Store) (branchName : String) : Option String :=
  Storage.getRef s ("branch/" ++ branchName)

/-- Branch.commit.  Date.now() is the explicit now argument.  Note the
source never checks that the branch ref exists: a missing ref simply makes
the parent undefined (none) and the final saveRef creates the ref. -/
def commit (s : Store) (branchName : String) (data : JValue)
    (message : Option String) (now : Nat) : Store × Commit :=
  let branchRef := "branch/" ++ branchName
  let parentHash := Storage.getRef s branchRef
  let tree := MerkleTree.fromObject data
  let s1 := MerkleTree.storeTree s tree
  let rootHash := MerkleTree.hashOf tree
  let c : Commit :=
    { hash := rootHash, parent := parentHash, branch := branchName,
      message := message.getD "Update", timestamp := now, rootHash := rootHash }
  let s2 := Storage.saveCommit s1 c
  let s3 := Storage.saveRef s2 branchRef rootHash
  (s3, c)

/-- Branch.getDataAtCommit: look up the commit, retrieve its tree, project
the value. -/
def getDataAtCommit (s : Store) (commitHash : String) : Except String JValue :=
  match Storage.getCommit s commitHash with
  | none => .error ("Commit " ++ commitHash ++ " not found")
  | some c => do
    let tree ← MerkleTree.retrieveTree s (s.objects.length + 1) c.rootHash
    pure (MerkleTree.toObject tree)

/-- Branch.getHistory: exactly storage.getCommitsForBranch. -/
def getHistory (s : Store) (branchName : String) : List Commit :=
  Storage.getCommitsForBranch s branchName

/-- Branch.getDataAtTime: scan the branch's commit list in the order the
storage layer returns it and take the first commit with timestamp at most
t (the source comments that the list is most-recent-first); fail when none
qualifies. -/
def getDataAtTime (s : Store) (branchName : String) (t : Nat) :
    Except String JValue :=
  let commits := Storage.getCommitsForBranch s branchName
  match commits.find? (fun c => c.timestamp ≤ t) with
  | none => .error ("No commit found on branch " ++ branchName)
  | some c => getDataAtCommit s c.hash

end Branch

/-! ## The MergeResult lifecycle (src merge.js) -/

/-- One reported conflict of a three-way merge. -/
structure ConflictDetail where
  path : String
  ancestor : JValue
  source : JValue
  target : JValue

/-- The mutable state of a MergeResult handle. -/
structure MergeResult where
  sourceBranch : String
  targetBranch : String
  sourceHead : String
  targetHead : String
  ancestorHash : String
  mergedData : JValue
  conflicts : List ConflictDetail
  hasConflicts : Bool
  applied : Bool

namespace MergeResult

/-- MergeResult.resolveWith: refuse a settled handle, refuse missing
resolutions while conflicts exist, otherwise set every resolved path on the
merged data, commit it onto the target branch, and mark the handle
applied. -/
def resolveWith (s : Store) (mr : MergeResult)
    (resolutions : Option (List (String × JValue))) (message : Option String)
    (now : Nat) : Except String (Store × MergeResult × Commit) :=
  if mr.applied then
    .error "Merge has already been applied"
  else if mr.hasConflicts && resolutions.isNone then
    .error "Cannot apply merge with unresolved conflicts"
  else
    let finalData :=
      match resolutions with
      | none => mr.mergedData
      | some rs =>
        rs.foldl (fun acc pv => JValue.setValueAtPath acc pv.1 pv.2) mr.mergedData
    let commitMessage :=
      message.getD
        ("Merge branch '" ++ mr.sourceBranch ++ "' into " ++ mr.targetBranch)
    let (s', c) := Branch.commit s mr.targetBranch finalData (some commitMessage) now
    .ok (s', { mr with applied := true }, c)

/-- MergeResult.apply: refuse when conflicts are outstanding, else defer to
resolveWith with no resolutions. -/
def apply (s : Store) (mr : MergeResult) (message : Option String) (now : Nat) :
    Except String (Store × MergeResult × Commit) :=
  if mr.hasConflicts then
    .error "Cannot apply merge with unresolved conflicts"
  else
    resolveWith s mr none message now

/-- MergeResult.abort: refuse a settled handle, otherwise mark it applied
without touching the store. -/
def abort (mr : MergeResult) : Except String MergeResult :=
  if mr.applied then
    .error "Cannot abort merge that has already been applied"
  else
    .ok { mr with applied := true }

end MergeResult


/-! ## Auxiliary definitions used by the verification -/

/-- Value of a digit list read least-significant-first. -/
def valRev : List Char → Nat
  | [] => 0
  | c :: cs => (c.toNat - 48) + 10 * valRev cs

/-- The hashes of the commit list are pairwise strictly increasing: the
shape IndexedDB keeps the commits store in. -/
def pairwiseLtHash : List Commit → Bool
  | [] => true
  | c :: ds => ds.all (fun d => strLtB c.hash d.hash) && pairwiseLtHash ds

/-- Initial-segment test on character lists. -/
def chPre : List Char → List Char → Bool
  | [], _ => true
  | _ :: _, [] => false
  | c :: cs, d :: ds => c == d && chPre cs ds

/-- p is a strict ancestor of q at dotted-segment granularity: q starts
with p followed by a dot. -/
def dotAncestor (p q : String) : Bool := chPre (p.data ++ ['.']) q.data

namespace Diff

/-- Path p is written by the diff: an added or modified entry carries it. -/
def writesAt (d : Diff) (p : String) : Prop :=
  (∃ e ∈ d.modified, e.path = p) ∨ (∃ e ∈ d.added, e.path = p)

/-- Path p is deleted by the diff. -/
def deletesAt (d : Diff) (p : String) : Prop := p ∈ d.deleted

/-- Boolean form of writesAt. -/
def writesAtB (d : Diff) (p : String) : Bool :=
  (d.modified ++ d.added).any (fun e => e.path == p)

/-- Is p among the written or deleted paths of the diff? -/
def touchesAt (d : Diff) (p : String) : Bool :=
  writesAtB d p || d.deleted.contains p

/-- The conflict condition exactly as the specification words it (the
refinement target that claim C1 compares the source against): p is written
on both sides, or deleted on one side and written on the other, or p is a
written or deleted path of one side that is a strict ancestor of a path
written or deleted by the other side. -/
def specConflictAtB (dA dB : Diff) (p : String) : Bool :=
  (writesAtB dA p && writesAtB dB p)
  || (writesAtB dA p && dB.deleted.contains p)
  || (dA.deleted.contains p && writesAtB dB p)
  || (touchesAt dA p &&
      ((dB.modified ++ dB.added).any (fun e => dotAncestor p e.path)
        || dB.deleted.any (fun q => dotAncestor p q)))
  || (touchesAt dB p &&
      ((dA.modified ++ dA.added).any (fun e => dotAncestor p e.path)
        || dA.deleted.any (fun q => dotAncestor p q)))

end Diff


/-! ### Definitions supporting the diff round-trip analysis (C2, C6) -/

/-- Re-anchor a path emitted below the root at prefix p: the source's
childPath together with the orDot root marker means a sub-diff computed at
prefix p carries path p where the root-anchored sub-diff carries ".". -/
def reRoot (p q : String) : String := if q = "." then p else p ++ "." ++ q

namespace Diff

/-- Apply a path transformation to every entry of a diff. -/
def mapPaths (f : String → String) (d : Diff) : Diff :=
  ⟨d.added.map (fun e => ⟨f e.path, e.value⟩),
   d.modified.map (fun e => ⟨f e.path, e.value⟩),
   d.deleted.map f⟩

end Diff

/-- A benign object key: nonempty and free of dots and brackets.  On paths
joined from such keys lodash castPath/stringToPath is plain dot-splitting
(brackets are its only other segment syntax), so the dotted path encoding
is both injective and faithful to the library on this universe. -/
def goodKey (k : String) : Bool :=
  !(k == "") && !(k.data.any (fun c => c == '.' || c == '[' || c == ']'))

/-- A benign nonempty dotted path: every segment is a benign key. -/
def goodPathB (q : String) : Bool := !(q == "") && (splitPath q).all goodKey

/-- A path as emitted inside a generated diff: the root marker "." or a
benign dotted path. -/
def emittedPath (q : String) : Bool := q == "." || goodPathB q

/-- Benign keys along a field list. -/
def goodKeysL : List (String × JValue) → Bool
  | [] => true
  | (k, _) :: fs => goodKey k && goodKeysL fs

mutual

/-- The value universe on which the diff engine round-trips: booleans,
numbers, strings, and mappings with distinct keys that are nonempty and
free of dots and brackets (so lodash path parsing is plain dot-splitting).
Sequences are excluded (deleting a sequence element leaves an undefined
hole), as are null (the comparison crashes on a shared null) and
undefined. -/
def goodVal : JValue → Bool
  | .jbool _ => true
  | .jnum _ => true
  | .jstr _ => true
  | .jobj fs => distinctKeys fs && goodKeysL fs && goodFields fs
  | _ => false

def goodFields : List (String × JValue) → Bool
  | [] => true
  | (_, v) :: fs => goodVal v && goodFields fs

end

/-! Concrete inputs used by counterexamples and witnesses. -/

/-- C1 counterexample input: side A rewrites the whole of user. -/
def c1dA : Diff := ⟨[], [⟨"user", .jobj [("name", .jstr "x")]⟩], []⟩

/-- C1 counterexample input: side B edits user.name underneath it. -/
def c1dB : Diff := ⟨[], [⟨"user.name", .jstr "y"⟩], []⟩

/-- C3 witness: a mapping holding a 12-element sequence. -/
def c3Witness : JValue :=
  .jobj [("xs", .jarr [.jnum 0, .jnum 1, .jnum 2, .jnum 3, .jnum 4, .jnum 5,
                       .jnum 6, .jnum 7, .jnum 8, .jnum 9, .jnum 10, .jnum 11]),
         ("k", .jstr "value")]

/-- C4 failing input: the earlier commit has the lexicographically larger
hash. -/
def c4B : Commit := ⟨"b", none, "main", "first", 100, "rb"⟩

/-- C4 failing input: the later commit has the smaller hash. -/
def c4A : Commit := ⟨"a", some "b", "main", "second", 200, "ra"⟩

/-- C4 failing store: both commits attributed to main. -/
def c4Store : Store :=
  Storage.saveCommit (Storage.saveCommit Storage.emptyStore c4B) c4A

/-- C5 failing store, first commit: value "b" at time 100.  The pair of
data values "b" then "a" is chosen so that the model's encoding order
agrees with the real digest order of the commit hashes, SHA-256 of the
JSON string of "b" (c100f95c...) being above that of "a" (ac8d8342...):
the hash-descending branch listing puts the older commit first under both
hash functions. -/
def c5S1 : Store :=
  (Branch.commit Storage.emptyStore "main" (.jstr "b") (some "m1") 100).1

/-- C5 failing store: value "a" committed on main at time 200. -/
def c5Store : Store :=
  (Branch.commit c5S1 "main" (.jstr "a") (some "m2") 200).1

/-- C7 counterexample data. -/
def c7Data : JValue := .jobj [("a", .jnum 1)]

/-- C8 witness: an already-applied conflict-free MergeResult. -/
def c8mr : MergeResult :=
  ⟨"feature", "main", "x", "y", "z", .jobj [], [], false, true⟩

/-- C9 witness data. -/
def c9Data : JValue := .jobj [("k", .jstr "v")]

/-- C9 witness store: one commit of c9Data on main. -/
def c9Store : Store :=
  (Branch.commit Storage.emptyStore "main" c9Data (some "m0") 1).1

/-- C9 witness: the commit record the main-branch commit produced. -/
def c9c0 : Commit :=
  (Branch.commit Storage.emptyStore "main" c9Data (some "m0") 1).2

/-- C10 witness diff: both modified lists touch the settings subtree. -/
def c10d : Diff := ⟨[], [⟨"settings", .jnum 1⟩, ⟨"other", .jnum 2⟩], []⟩

namespace Diff

/-- All paths mentioned by a diff. -/
def pathsOf (d : Diff) : List String :=
  d.modified.map (fun e => e.path) ++ d.added.map (fun e => e.path) ++ d.deleted

end Diff

namespace JValue

/-- Effect of one deletion op on the value stored at its head key: a
one-segment path removes the key, a longer path unsets inside the child
when the key is present. -/
def delK (o : Option JValue) (t : List String) : Option JValue :=
  match t, o with
  | [], _ => none
  | _, none => none
  | t, some c => some (unsetSegs c t)

/-- Effect of one set op on the value stored at its head key: a
one-segment path stores the value, a longer path writes inside the child,
replacing a non-composite child by a fresh container. -/
def setK (o : Option JValue) (tv : List String × JValue) : Option JValue :=
  match tv.1 with
  | [] => some tv.2
  | t =>
    let child := o.getD .jundef
    let child' := if child.isComposite then child else freshFor t
    some (setSegs child' t tv.2)

/-- The tails of the ops whose head is k. -/
def headTailsD (k : String) (ps : List (List String)) : List (List String) :=
  ps.filterMap (fun t =>
    match t with
    | [] => none
    | k' :: rest => if k' = k then some rest else none)

/-- The tails, with values, of the set ops whose head is k. -/
def headTailsS (k : String) (es : List (List String × JValue)) :
    List (List String × JValue) :=
  es.filterMap (fun tv =>
    match tv.1 with
    | [] => none
    | k' :: rest => if k' = k then some (rest, tv.2) else none)

end JValue

/-- The tail of an emitted path below its head key: the root marker has no
tail, any other path contributes its segments. -/
def tailOf (q : String) : List String := if q = "." then [] else splitPath q

namespace Diff
open JValue

/-- Applying a child diff to the value stored under its key, as the
enclosing apply does: each deletion acts through delK, each modified and
added entry through setK. -/
def applyTails (a : JValue) (d : Diff) : Option JValue :=
  ((d.modified ++ d.added).map (fun e => (tailOf e.path, e.value))).foldl setK
    ((d.deleted.map tailOf).foldl delK (some a))

/-- Applying the inverse of a child diff, as the enclosing apply of an
inverted diff does: added paths are unset, modified and deleted paths are
set back to their pre-images read from the old child value a. -/
def applyTailsI (a v : JValue) (d : Diff) : Option JValue :=
  ((d.modified.map (fun e => (tailOf e.path, getSegs a (tailOf e.path))) ++
    d.deleted.map (fun q => (tailOf q, getSegs a (tailOf q)))).foldl setK
    ((d.added.map (fun e => tailOf e.path)).foldl delK (some v)))

/-- The outcome at one key: given the per-key delete/set tails of the walk
diff and of its inverse, and the new side's binding, applying produces the
new value and inverting restores the old one. -/
def keyOut (fsA : List (String × JValue)) (k : String)
    (D : List (List String)) (S : List (List String × JValue))
    (DI : List (List String)) (SI : List (List String × JValue))
    (ob : Option JValue) : Prop :=
  match ob with
  | none => D = [] ∧ S = [] ∧ DI = [] ∧ SI = []
  | some bv =>
    ∃ v', S.foldl setK (D.foldl delK (lookupJ k fsA)) = some v' ∧
      jsEqual v' bv = true ∧
      (match lookupJ k fsA with
       | some av => ∃ v2, SI.foldl setK (DI.foldl delK (some v')) = some v2 ∧
           jsEqual v2 av = true
       | none => SI.foldl setK (DI.foldl delK (some v')) = none)

/-- The per-key contract the root walk of an object comparison satisfies. -/
def walkKey (fsA fsB : List (String × JValue)) (rest : Diff) (k : String) : Prop :=
  keyOut fsA k
    (headTailsD k (rest.deleted.map splitPath))
    (headTailsS k ((rest.modified ++ rest.added).map
      (fun e => (splitPath e.path, e.value))))
    (headTailsD k (rest.added.map (fun e => splitPath e.path)))
    (headTailsS k (rest.modified.map
        (fun e => (splitPath e.path, getValueAtPath (.jobj fsA) e.path)) ++
      rest.deleted.map
        (fun q => (splitPath q, getValueAtPath (.jobj fsA) q))))
    (lookupJ k fsB)

/-- The final per-value contract: the comparison succeeds, every recorded
path is the root marker or a benign dotted path, applying the diff yields
the new value and applying the inverse restores the old one. -/
def valOut (a b : JValue) : Prop :=
  ∃ dk, cmp a b "" = .ok dk ∧
    (∀ q ∈ dk.pathsOf, emittedPath q = true) ∧
    ∃ v', applyTails a dk = some v' ∧ jsEqual v' b = true ∧
      ∃ v2, applyTailsI a v' dk = some v2 ∧ jsEqual v2 a = true

/-- The walk-level contract over a whole new field list. -/
def walkOut (fsA fsB : List (String × JValue)) : Prop :=
  ∃ rest, cmpObjWalk fsA fsB "" = .ok rest ∧
    (∀ q ∈ rest.pathsOf, goodPathB q = true) ∧
    ∀ k, walkKey fsA fsB rest k

end Diff

/-- C2/C6 counterexample old value: an object holding a three-element
sequence. -/
def c2a : JValue := .jobj [("xs", .jarr [.jnum 1, .jnum 2, .jnum 3])]

/-- C2 counterexample new value: the sequence loses its trailing elements. -/
def c2b : JValue := .jobj [("xs", .jarr [.jnum 1])]

/-- C6 counterexample old value: an object holding a one-element sequence. -/
def c6a : JValue := .jobj [("xs", .jarr [.jnum 1])]

/-- C6 counterexample new value: the sequence gains a trailing element. -/
def c6b : JValue := .jobj [("xs", .jarr [.jnum 1, .jnum 2])]


/-! ## Decimal key round trip -/


theorem digitChar_isDigit {d : Nat} (h : d < 10) : isDigitChar (digitChar d) = true := by
  interval_cases d <;> decide

theorem digitChar_toNat {d : Nat} (h : d < 10) : (digitChar d).toNat = 48 + d := by
  interval_cases d <;> decide

theorem digitChar_ne_zero {d : Nat} (h1 : 1 ≤ d) (h2 : d < 10) : digitChar d ≠ '0' := by
  interval_cases d <;> decide

theorem digitsRev_ne_nil {fuel n : Nat} (h : n < fuel) : digitsRev fuel n ≠ [] := by
  cases fuel with
  | zero => omega
  | succ f =>
    by_cases h10 : n < 10 <;> simp [digitsRev, h10]

theorem digitsRev_all_digits : ∀ fuel n, n < fuel →
    (digitsRev fuel n).all isDigitChar = true := by
  intro fuel
  induction fuel with
  | zero => intro n h; omega
  | succ f ih =>
    intro n h
    by_cases h10 : n < 10
    · simp [digitsRev, h10, digitChar_isDigit h10]
    · have hd : n % 10 < 10 := Nat.mod_lt _ (by omega)
      have hq : n / 10 < f := by
        have := Nat.div_lt_self (by omega : 0 < n) (by omega : 1 < 10)
        omega
      simp [digitsRev, h10, digitChar_isDigit hd, ih _ hq]

theorem valRev_digitsRev : ∀ fuel n, n < fuel → valRev (digitsRev fuel n) = n := by
  intro fuel
  induction fuel with
  | zero => intro n h; omega
  | succ f ih =>
    intro n h
    by_cases h10 : n < 10
    · simp [digitsRev, h10, valRev, digitChar_toNat h10]
    · have hd : n % 10 < 10 := Nat.mod_lt _ (by omega)
      have hq : n / 10 < f := by
        have := Nat.div_lt_self (by omega : 0 < n) (by omega : 1 < 10)
        omega
      rw [digitsRev]
      rw [if_neg h10]
      simp only [valRev, ih _ hq, digitChar_toNat hd]
      omega

theorem digitsRev_getLastD_ne_zero : ∀ fuel n (d : Char), n < fuel → 1 ≤ n →
    (digitsRev fuel n).getLastD d ≠ '0' := by
  intro fuel
  induction fuel with
  | zero => intro n d h; omega
  | succ f ih =>
    intro n d h h1
    by_cases h10 : n < 10
    · simpa [digitsRev, h10] using digitChar_ne_zero h1 h10
    · have hq : n / 10 < f := by
        have := Nat.div_lt_self (by omega : 0 < n) (by omega : 1 < 10)
        omega
      have h1' : 1 ≤ n / 10 := by
        have : 10 / 10 ≤ n / 10 := Nat.div_le_div_right (by omega)
        simpa using this
      rw [digitsRev]
      rw [if_neg h10]
      rw [List.getLastD_cons]
      exact ih _ _ hq h1'

theorem digitsVal_reverse : ∀ l : List Char, digitsVal l.reverse = valRev l := by
  intro l
  induction l with
  | nil => rfl
  | cons c cs ih =>
    simp only [List.reverse_cons, digitsVal, List.foldl_append, List.foldl_cons,
      List.foldl_nil, valRev]
    simp only [digitsVal] at ih
    rw [ih]
    omega

/-- parseIndex unfolded on an explicit character list. -/
theorem parseIndex_mk_cons (c : Char) (cs : List Char) :
    parseIndex ⟨c :: cs⟩ =
      if (isDigitChar c && cs.all isDigitChar && !(c == '0' && decide (cs ≠ []))) = true
      then some (digitsVal (c :: cs)) else none := rfl

theorem parseIndex_natToKey (n : Nat) : parseIndex (natToKey n) = some n := by
  have hlt : n < n + 1 := Nat.lt_succ_self n
  have hne := digitsRev_ne_nil hlt
  have hall := digitsRev_all_digits (n + 1) n hlt
  have hval := valRev_digitsRev (n + 1) n hlt
  rcases List.eq_nil_or_concat (digitsRev (n + 1) n) with hnil | ⟨init, lst, heqC⟩
  · exact absurd hnil hne
  have heq : digitsRev (n + 1) n = init ++ [lst] := by
    rw [heqC, List.concat_eq_append]
  have hrev : (digitsRev (n + 1) n).reverse = lst :: init.reverse := by
    rw [heq, List.reverse_append]
    rfl
  have hkey : natToKey n = ⟨lst :: init.reverse⟩ := by
    rw [natToKey, hrev]
  have hdig1 : isDigitChar lst = true := by
    rw [heq] at hall
    simp only [List.all_append, List.all_cons, List.all_nil, Bool.and_eq_true] at hall
    exact hall.2.1
  have hdig2 : init.reverse.all isDigitChar = true := by
    rw [heq] at hall
    simp only [List.all_append, Bool.and_eq_true] at hall
    simp only [List.all_eq_true] at hall ⊢
    intro c hc
    exact hall.1 c (List.mem_reverse.mp hc)
  have hvalfin : digitsVal (lst :: init.reverse) = n := by
    have h1 := digitsVal_reverse (init ++ [lst])
    rw [List.reverse_append] at h1
    have h2 : ([lst].reverse ++ init.reverse) = lst :: init.reverse := rfl
    rw [h2] at h1
    rw [h1, ← heq, hval]
  rw [hkey, parseIndex_mk_cons]
  by_cases hn0 : n < 10
  · have hsingle : digitsRev (n + 1) n = [digitChar n] := by
      rw [digitsRev]
      simp [hn0]
    have hinit : init = [] := by
      rw [hsingle] at heq
      have hlen := congrArg List.length heq
      simp only [List.length_cons, List.length_nil, List.length_append] at hlen
      have : init.length = 0 := by omega
      exact List.length_eq_zero.mp this
    subst hinit
    rw [if_pos (by simp [hdig1])]
    rw [hvalfin]
  · have hlast : lst ≠ '0' := by
      have hd := digitsRev_getLastD_ne_zero (n + 1) n lst hlt (by omega)
      rw [heqC, List.concat_eq_append, List.getLastD_concat] at hd
      exact hd
    rw [if_pos (by simp [hdig1, hdig2, hlast])]
    rw [hvalfin]


/-! ## Sorting facts for the Merkle round trip -/

theorem uniq_sorted_perm {α : Type} :
    ∀ (l₂ l₁ : List (String × α)), l₁.Perm l₂ →
    List.Pairwise (fun p q => idxKeyVal p < idxKeyVal q) l₂ →
    List.Pairwise idxLe l₁ → l₁ = l₂ := by
  intro l₂
  induction l₂ with
  | nil =>
    intro l₁ hp _ _
    exact hp.eq_nil
  | cons b bs ih =>
    intro l₁ hp hlt hle
    cases l₁ with
    | nil => exact absurd hp.symm.eq_nil (by simp)
    | cons a as =>
      have hab : a = b := by
        have hmem : a ∈ b :: bs := hp.mem_iff.mp (List.mem_cons_self a as)
        rcases List.mem_cons.mp hmem with h | h
        · exact h
        · exfalso
          have h1 : idxKeyVal b < idxKeyVal a := (List.pairwise_cons.mp hlt).1 a h
          have hbmem : b ∈ a :: as := hp.mem_iff.mpr (List.mem_cons_self b bs)
          rcases List.mem_cons.mp hbmem with h2 | h2
          · rw [h2] at h1
            omega
          · have h3 : idxLe a b := (List.pairwise_cons.mp hle).1 b h2
            rw [idxLe] at h3
            omega
      subst hab
      have htail : as.Perm bs := hp.cons_inv
      have := ih as htail (List.pairwise_cons.mp hlt).2 (List.pairwise_cons.mp hle).2
      rw [this]

theorem jsOrderFields_of_perm_indexed {α : Type} (kids l : List (String × α))
    (hperm : l.Perm kids)
    (hidx : ∀ p ∈ kids, (parseIndex p.1).isSome = true)
    (hlt : List.Pairwise (fun p q => idxKeyVal p < idxKeyVal q) kids) :
    jsOrderFields l = kids := by
  have hidx' : ∀ p ∈ l, (parseIndex p.1).isSome = true := by
    intro p hpmem
    exact hidx p (hperm.mem_iff.mp hpmem)
  have hfil1 : l.filter (fun p => (parseIndex p.1).isSome) = l :=
    List.filter_eq_self.mpr hidx'
  have hfil2 : l.filter (fun p => !(parseIndex p.1).isSome) = [] := by
    rw [List.filter_eq_nil_iff]
    intro p hpmem
    simp [hidx' p hpmem]
  rw [jsOrderFields]
  simp only [hfil1, hfil2, List.append_nil]
  haveI : IsTotal (String × α) idxLe := ⟨fun p q => Nat.le_total _ _⟩
  haveI : IsTrans (String × α) idxLe := ⟨fun _ _ _ => Nat.le_trans⟩
  exact uniq_sorted_perm kids _ ((List.perm_insertionSort idxLe l).trans hperm)
    hlt (List.sorted_insertionSort idxLe l)

namespace MerkleTree

theorem mem_fromArr_ge : ∀ (xs : List JValue) (i : Nat) (p : String × MTree),
    p ∈ fromArr i xs → (parseIndex p.1).isSome = true ∧ i ≤ idxKeyVal p := by
  intro xs
  induction xs with
  | nil => intro i p h; simp [fromArr] at h
  | cons x xs ih =>
    intro i p h
    rw [fromArr] at h
    rcases List.mem_cons.mp h with h | h
    · subst h
      constructor
      · simp [parseIndex_natToKey]
      · simp [idxKeyVal, parseIndex_natToKey]
    · have := ih (i + 1) p h
      exact ⟨this.1, by omega⟩

theorem pairwise_fromArr : ∀ (xs : List JValue) (i : Nat),
    List.Pairwise (fun p q => idxKeyVal p < idxKeyVal q) (fromArr i xs) := by
  intro xs
  induction xs with
  | nil => intro i; simp [fromArr]
  | cons x xs ih =>
    intro i
    rw [fromArr]
    rw [List.pairwise_cons]
    constructor
    · intro p hp
      have h2 := (mem_fromArr_ge xs (i + 1) p hp).2
      simp only [idxKeyVal, parseIndex_natToKey, Option.getD_some] at h2 ⊢
      omega
    · exact ih (i + 1)

theorem arrWrite_append (acc : List JValue) (v : JValue) :
    JValue.arrWrite acc acc.length v = acc ++ [v] := by
  induction acc with
  | nil => rfl
  | cons x xs ih =>
    simp only [List.length_cons, JValue.arrWrite, List.cons_append]
    rw [ih]

theorem toArr_fromArr : ∀ (xs : List JValue) (acc : List JValue),
    toArr acc (fromArr acc.length xs) =
      acc ++ xs.map (fun x => toObject (fromObject x)) := by
  intro xs
  induction xs with
  | nil => intro acc; simp [fromArr, toArr]
  | cons x xs ih =>
    intro acc
    rw [fromArr, toArr, arrAssign]
    simp only [parseIndex_natToKey]
    rw [arrWrite_append]
    have hlen : (acc ++ [toObject (fromObject x)]).length = acc.length + 1 := by
      simp
    rw [← hlen, ih]
    simp

theorem toFields_eq_map (cs : List (String × MTree)) :
    toFields cs = cs.map (fun p => (p.1, toObject p.2)) := by
  induction cs with
  | nil => rfl
  | cons p rest ih =>
    obtain ⟨k, c⟩ := p
    rw [toFields, ih]
    rfl

theorem mem_fromFields : ∀ (fs : List (String × JValue)) (k : String) (c : MTree),
    (k, c) ∈ fromFields fs → ∃ v, (k, v) ∈ fs ∧ c = fromObject v := by
  intro fs
  induction fs with
  | nil => intro k c h; simp [fromFields] at h
  | cons p rest ih =>
    obtain ⟨l, w⟩ := p
    intro k c h
    rw [fromFields] at h
    rcases List.mem_cons.mp h with h | h
    · injection h with h1 h2
      exact ⟨w, by simp [h1], h2⟩
    · obtain ⟨v, hv1, hv2⟩ := ih k c h
      exact ⟨v, List.mem_cons_of_mem _ hv1, hv2⟩

theorem length_fromFields (fs : List (String × JValue)) :
    (fromFields fs).length = fs.length := by
  induction fs with
  | nil => rfl
  | cons p rest ih =>
    obtain ⟨k, v⟩ := p
    rw [fromFields]
    simp [ih]

theorem length_fromArr : ∀ (xs : List JValue) (i : Nat),
    (fromArr i xs).length = xs.length := by
  intro xs
  induction xs with
  | nil => intro i; rfl
  | cons x xs ih => intro i; rw [fromArr]; simp [ih]

end MerkleTree

namespace JValue

theorem lookupJ_of_mem_distinct :
    ∀ (fs : List (String × JValue)) (k : String) (v : JValue),
    distinctKeys fs = true → (k, v) ∈ fs → lookupJ k fs = some v := by
  intro fs
  induction fs with
  | nil => intro k v _ h; simp at h
  | cons p rest ih =>
    obtain ⟨l, w⟩ := p
    intro k v hd hm
    rw [distinctKeys] at hd
    simp only [Bool.and_eq_true, Bool.not_eq_true] at hd
    rcases List.mem_cons.mp hm with h | h
    · injection h with h1 h2
      subst h1; subst h2
      simp [lookupJ]
    · have hne : k ≠ l := by
        intro hkl
        subst hkl
        have : rest.any (fun q => q.1 == k) = true :=
          List.any_eq_true.mpr ⟨(k, v), h, by simp⟩
        rw [this] at hd
        exact absurd hd.1 (by simp)
      rw [lookupJ, if_neg hne]
      exact ih k v hd.2 h

theorem jsEqualFields_iff :
    ∀ (l gs : List (String × JValue)),
    jsEqualFields l gs = true ↔
      ∀ p ∈ l, ∃ w, lookupJ p.1 gs = some w ∧ jsEqual p.2 w = true := by
  intro l gs
  induction l with
  | nil => simp [jsEqualFields]
  | cons p rest ih =>
    obtain ⟨k, v⟩ := p
    rw [jsEqualFields]
    constructor
    · intro h q hq
      simp only [Bool.and_eq_true] at h
      rcases List.mem_cons.mp hq with hh | hh
      · subst hh
        cases hlk : lookupJ k gs with
        | none => rw [hlk] at h; exact absurd h.1 (by simp)
        | some w =>
          rw [hlk] at h
          exact ⟨w, rfl, h.1⟩
      · exact ih.mp h.2 q hh
    · intro h
      simp only [Bool.and_eq_true]
      constructor
      · obtain ⟨w, hw1, hw2⟩ := h (k, v) (List.mem_cons_self _ _)
        rw [hw1]
        exact hw2
      · exact ih.mpr (fun q hq => h q (List.mem_cons_of_mem _ hq))

end JValue


theorem jsOrderFields_perm {α : Type} (l : List (String × α)) :
    (jsOrderFields l).Perm l := by
  rw [jsOrderFields]
  have h1 : (List.insertionSort idxLe
      (l.filter (fun p => (parseIndex p.1).isSome))).Perm
      (l.filter (fun p => (parseIndex p.1).isSome)) :=
    List.perm_insertionSort idxLe _
  have h2 := List.filter_append_perm (fun p => (parseIndex p.1).isSome) l
  exact (h1.append_right _).trans h2

namespace MerkleTree

theorem children_fromObject_arr (xs : List JValue) :
    jsOrderFields (sortByKey (fromArr 0 xs)) = fromArr 0 xs :=
  jsOrderFields_of_perm_indexed (fromArr 0 xs) _
    (List.perm_insertionSort _ _)
    (fun p hp => (mem_fromArr_ge xs 0 p hp).1)
    (pairwise_fromArr xs 0)

mutual

theorem roundTripVal : ∀ v : JValue, wfVal v = true →
    JValue.jsEqual (toObject (fromObject v)) v = true
  | .jnull, _ => rfl
  | .jundef, h => by simp [wfVal] at h
  | .jbool b, _ => by simp [fromObject, toObject, JValue.jsEqual]
  | .jnum n, _ => by simp [fromObject, toObject, JValue.jsEqual]
  | .jstr s, _ => by simp [fromObject, toObject, JValue.jsEqual]
  | .jarr xs, h => by
    have hwf : wfList xs = true := by rwa [wfVal] at h
    have hrt := roundTripList xs hwf
    rw [fromObject, mkInternal]
    simp only [children_fromObject_arr]
    rw [toObject]
    have harr : (("array" : String) == "array") = true := by decide
    rw [harr]
    simp only [if_true, JValue.jsEqual]
    have := toArr_fromArr xs []
    simp only [List.length_nil, List.nil_append] at this
    rw [this]
    exact hrt
  | .jobj fs, h => by
    have hd : distinctKeys fs = true ∧ wfFields fs = true := by
      rw [wfVal] at h
      simpa using h
    rw [fromObject, mkInternal]
    rw [toObject]
    have hne : (("object" : String) == "array") = false := by decide
    rw [hne]
    simp only [Bool.false_eq_true, if_false, JValue.jsEqual]
    have hperm : (jsOrderFields (sortByKey (fromFields fs))).Perm (fromFields fs) :=
      (jsOrderFields_perm _).trans (List.perm_insertionSort _ _)
    rw [Bool.and_eq_true]
    constructor
    · -- lengths agree
      rw [toFields_eq_map]
      simp only [List.length_map, hperm.length_eq, length_fromFields]
      simp
    · rw [JValue.jsEqualFields_iff]
      intro p hp
      rw [toFields_eq_map] at hp
      obtain ⟨q, hq, hqe⟩ := List.mem_map.mp hp
      obtain ⟨k, c⟩ := q
      have hmem : (k, c) ∈ fromFields fs := hperm.mem_iff.mp hq
      obtain ⟨v, hv1, hv2⟩ := mem_fromFields fs k c hmem
      subst hv2
      refine ⟨v, ?_, ?_⟩
      · rw [← hqe]
        exact JValue.lookupJ_of_mem_distinct fs k v hd.1 hv1
      · rw [← hqe]
        exact roundTripFieldsMem fs hd.2 k v hv1

theorem roundTripList : ∀ xs : List JValue, wfList xs = true →
    JValue.jsEqualList (xs.map (fun x => toObject (fromObject x))) xs = true
  | [], _ => rfl
  | x :: xs, h => by
    have hx : wfVal x = true ∧ wfList xs = true := by
      rw [wfList] at h
      simpa using h
    simp only [List.map_cons, JValue.jsEqualList, Bool.and_eq_true]
    exact ⟨roundTripVal x hx.1, roundTripList xs hx.2⟩

theorem roundTripFieldsMem : ∀ fs : List (String × JValue), wfFields fs = true →
    ∀ k v, (k, v) ∈ fs → JValue.jsEqual (toObject (fromObject v)) v = true
  | [], _ => by intro k v h; simp at h
  | (l, w) :: rest, h => by
    have hw : wfVal w = true ∧ wfFields rest = true := by
      rw [wfFields] at h
      simpa using h
    intro k v hm
    rcases List.mem_cons.mp hm with he | he
    · injection he with h1 h2
      subst h2
      exact roundTripVal v hw.1
    · exact roundTripFieldsMem rest hw.2 k v he

end

end MerkleTree

/-! ## Support lemmas -/

namespace Storage

theorem getAssoc_putAssoc_self {α : Type} (l : List (String × α)) (k : String) (v : α) :
    getAssoc (putAssoc l k v) k = some v := by
  induction l with
  | nil => simp [putAssoc, getAssoc]
  | cons hd tl ih =>
    obtain ⟨l', w⟩ := hd
    by_cases h : k = l'
    · simp [putAssoc, getAssoc, h]
    · simp [putAssoc, getAssoc, h, ih]

theorem find?_saveCommitList_self (l : List Commit) (c : Commit) (h : String)
    (hh : c.hash = h) :
    (saveCommitList l c).find? (fun d => d.hash == h) = some c := by
  subst hh
  induction l with
  | nil => simp [saveCommitList]
  | cons d ds ih =>
    by_cases h1 : c.hash = d.hash
    · simp [saveCommitList, h1]
    · by_cases h2 : strLtB c.hash d.hash = true
      · simp [saveCommitList, h1, h2]
      · have hne : (d.hash == c.hash) = false := by
          simp only [beq_eq_false_iff_ne, ne_eq]
          exact fun h => h1 h.symm
        simp [saveCommitList, h1, h2, List.find?, hne, ih]

end Storage

/-! Mutual store-frame lemmas: storeTree only writes the objects store. -/

mutual

theorem storeTree_frame (s : Store) (t : MTree) :
    (MerkleTree.storeTree s t).refs = s.refs ∧
    (MerkleTree.storeTree s t).commits = s.commits := by
  cases t with
  | leaf h ty v => exact ⟨rfl, rfl⟩
  | node h ty cs =>
    have ih := storeChildren_frame s cs
    simp only [MerkleTree.storeTree, Storage.putObj]
    exact ⟨ih.1, ih.2⟩

theorem storeChildren_frame (s : Store) (cs : List (String × MTree)) :
    (MerkleTree.storeChildren s cs).refs = s.refs ∧
    (MerkleTree.storeChildren s cs).commits = s.commits := by
  cases cs with
  | nil => exact ⟨rfl, rfl⟩
  | cons hd rest =>
    obtain ⟨k, c⟩ := hd
    have h1 := storeTree_frame s c
    have h2 := storeChildren_frame (MerkleTree.storeTree s c) rest
    simp only [MerkleTree.storeChildren]
    exact ⟨h2.1.trans h1.1, h2.2.trans h1.2⟩

end

/-! ## C7 -/


/-- C7 counterexample: committing to the absent branch feature does not
fail; it creates the commit record and the branch ref. -/
theorem C7_counterexample :
    Storage.getRef Storage.emptyStore "branch/feature" = none ∧
    (let r := Branch.commit Storage.emptyStore "feature" c7Data (some "m") 5
     Storage.getRef r.1 "branch/feature" = some r.2.hash ∧
     Storage.getCommit r.1 r.2.hash = some r.2 ∧
     r.2.parent = none) := by
  refine ⟨rfl, rfl, rfl, rfl⟩

/-- C7 (amended): commit(branchName, data, message) does not require the
branch to exist.  When the ref branch/branchName is absent, the commit is
created with parent null and the final saveRef creates the branch ref
pointing at it. -/
theorem C7_amended (s : Store) (b : String) (data : JValue)
    (m : Option String) (t : Nat)
    (habs : Storage.getRef s ("branch/" ++ b) = none) :
    (Branch.commit s b data m t).2.parent = none ∧
    Storage.getRef (Branch.commit s b data m t).1 ("branch/" ++ b) =
      some (Branch.commit s b data m t).2.hash ∧
    Storage.getCommit (Branch.commit s b data m t).1
      (Branch.commit s b data m t).2.hash = some (Branch.commit s b data m t).2 := by
  constructor
  · simp [Branch.commit, habs]
  constructor
  · simp [Branch.commit, Storage.saveRef, Storage.getRef, Storage.saveCommit,
      Storage.getAssoc_putAssoc_self]
  · simp only [Branch.commit, Storage.saveRef, Storage.getRef, Storage.getCommit,
      Storage.saveCommit]
    exact Storage.find?_saveCommitList_self _ _ _ rfl

/-- C7 witness: the amended behaviour on an empty store. -/
theorem C7_witness :
    Storage.getRef Storage.emptyStore "branch/dev" = none ∧
    ((Branch.commit Storage.emptyStore "dev" c7Data none 3).2.parent = none ∧
     Storage.getRef (Branch.commit Storage.emptyStore "dev" c7Data none 3).1
       ("branch/" ++ "dev") =
       some (Branch.commit Storage.emptyStore "dev" c7Data none 3).2.hash ∧
     Storage.getCommit (Branch.commit Storage.emptyStore "dev" c7Data none 3).1
       (Branch.commit Storage.emptyStore "dev" c7Data none 3).2.hash =
       some (Branch.commit Storage.emptyStore "dev" c7Data none 3).2) :=
  ⟨rfl, C7_amended Storage.emptyStore "dev" c7Data none 3 rfl⟩

/-! ## C4 / C5: commit listing order -/


/-- C4: getHistory(main) on the failing store returns both main commits but
in hash-descending order, which here is timestamp ASCENDING [100, 200] --
not the timestamp-descending order the claim (and the storage layer's own
doc comment) promise. -/
theorem C4_history_order_bug :
    (Branch.getHistory c4Store "main").map Commit.timestamp = [100, 200] ∧
    ¬ List.Sorted (· ≥ ·) ((Branch.getHistory c4Store "main").map Commit.timestamp) := by
  constructor
  · rfl
  · decide


/-- C5: on the failing store, getDataAt(main, 300) returns the data of the
commit with timestamp 100 (the first hit in the hash-ordered listing),
although a commit with the greater timestamp 200 <= 300 exists on main and
holds the different value "a".  The commit hashes of "b" and "a" order the
same way under the real SHA-256 digests (c100f95c... above ac8d8342...),
so the hash-descending listing is [b at 100, a at 200] for the program as
well. -/
theorem C5_time_travel_bug :
    Branch.getDataAtTime c5Store "main" 300 = .ok (.jstr "b") ∧
    (Branch.getHistory c5Store "main").map (fun c => (c.timestamp, c.hash)) =
      [(100, "\"b\""), (200, "\"a\"")] ∧
    Branch.getDataAtCommit c5Store "\"a\"" = .ok (.jstr "a") := by
  refine ⟨?_, ?_, ?_⟩ <;> rfl

/-! ## C8: MergeResult single use -/

/-- C8: whenever a MergeResult's applied flag is true, each terminal
operation resolveWith, apply and abort fails with an error; being pure
functions of the store, the error outcome writes no commit and no ref. -/
theorem C8_applied_blocks (s : Store) (mr : MergeResult)
    (res : Option (List (String × JValue))) (msg : Option String) (t : Nat)
    (h : mr.applied = true) :
    (∃ e, MergeResult.resolveWith s mr res msg t = .error e) ∧
    (∃ e, MergeResult.apply s mr msg t = .error e) ∧
    (∃ e, MergeResult.abort mr = .error e) := by
  refine ⟨⟨"Merge has already been applied", by simp [MergeResult.resolveWith, h]⟩,
    ?_, ⟨"Cannot abort merge that has already been applied",
      by simp [MergeResult.abort, h]⟩⟩
  by_cases hc : mr.hasConflicts = true
  · exact ⟨"Cannot apply merge with unresolved conflicts",
      by simp [MergeResult.apply, hc]⟩
  · exact ⟨"Merge has already been applied",
      by simp [MergeResult.apply, MergeResult.resolveWith, hc, h]⟩


/-- C8 witness: the already-applied MergeResult c8mr is refused by all
three terminal operations. -/
theorem C8_witness :
    (∃ e, MergeResult.resolveWith Storage.emptyStore c8mr none none 0 = .error e) ∧
    (∃ e, MergeResult.apply Storage.emptyStore c8mr none 0 = .error e) ∧
    (∃ e, MergeResult.abort c8mr = .error e) :=
  C8_applied_blocks Storage.emptyStore c8mr none none 0 rfl

/-! ## C9: commits keyed by content hash are overwritten in place -/


theorem charsLe_antisymm : ∀ {a b : List Char},
    charsLe a b = true → charsLe b a = true → a = b := by
  intro a
  induction a with
  | nil => intro b h1 h2; cases b with
    | nil => rfl
    | cons d ds => simp [charsLe] at h2
  | cons c cs ih =>
    intro b h1 h2
    cases b with
    | nil => simp [charsLe] at h1
    | cons d ds =>
      simp only [charsLe] at h1 h2
      by_cases hlt : c.toNat < d.toNat
      · have : ¬ d.toNat < c.toNat := by omega
        simp [hlt, this] at h2
      · by_cases hgt : d.toNat < c.toNat
        · simp [hlt, hgt] at h1
        · have heq : c.toNat = d.toNat := by omega
          have hc : c = d := Char.eq_of_val_eq (UInt32.ext heq)
          simp only [hlt, hgt, if_neg, if_false] at h1 h2
          have : cs = ds := ih (by simpa [hlt, hgt] using h1) (by simpa [hlt, hgt] using h2)
          rw [hc, this]

theorem strLtB_asymm {a b : String} (h1 : strLtB a b = true)
    (h2 : strLtB b a = true) : False := by
  simp only [strLtB, Bool.and_eq_true, decide_eq_true_eq] at h1 h2
  have hd : a.data = b.data := charsLe_antisymm h1.1 h2.1
  exact h1.2 (by cases a; cases b; exact congrArg String.mk hd)

theorem strLtB_ne {a b : String} (h : strLtB a b = true) : a ≠ b := by
  simp only [strLtB, Bool.and_eq_true, decide_eq_true_eq] at h
  exact h.2

theorem mem_saveCommitList_eq (c : Commit) :
    ∀ (l : List Commit) (c0 : Commit),
    pairwiseLtHash l = true → c0.hash = c.hash →
    c0 ∈ Storage.saveCommitList l c → c0 = c := by
  intro l
  induction l with
  | nil =>
    intro c0 _ _ hm
    simpa [Storage.saveCommitList] using hm
  | cons d ds ih =>
    intro c0 hpw hh hm
    simp only [pairwiseLtHash, Bool.and_eq_true, List.all_eq_true] at hpw
    obtain ⟨hall, hpw'⟩ := hpw
    by_cases h1 : c.hash = d.hash
    · simp only [Storage.saveCommitList, if_pos h1] at hm
      rcases List.mem_cons.mp hm with he | hds
      · exact he
      · exact absurd (by rw [← h1, ← hh] : d.hash = c0.hash)
          (strLtB_ne (hall c0 hds))
    · by_cases h2 : strLtB c.hash d.hash = true
      · simp only [Storage.saveCommitList, if_neg h1, if_pos h2] at hm
        rcases List.mem_cons.mp hm with he | hm'
        · exact he
        rcases List.mem_cons.mp hm' with he | hds
        · exact absurd (he ▸ hh).symm h1
        · have h3 := hall c0 hds
          rw [hh] at h3
          exact absurd h2 (fun h2 => strLtB_asymm h2 h3)
      · simp only [Storage.saveCommitList, if_neg h1, if_neg h2] at hm
        rcases List.mem_cons.mp hm with he | hm'
        · exact absurd (he ▸ hh).symm h1
        · exact ih c0 hpw' hh hm'

/-- C9: commit records are keyed by the commit hash, which equals the
snapshot's root Merkle hash; a commit of a value with the same root hash
on another branch overwrites the stored record in place, so getCommit
returns the new attribution, parent, message and timestamp, and the old
branch's getHistory loses the record. -/
theorem C9_content_hash_overwrite (s : Store) (h : String) (c0 : Commit)
    (A : String) (v : JValue) (m : Option String) (t : Nat)
    (hpw : pairwiseLtHash s.commits = true)
    (hc0 : Storage.getCommit s h = some c0)
    (hbr : c0.branch ≠ A)
    (hv : MerkleTree.hashOf (MerkleTree.fromObject v) = h) :
    Storage.getCommit (Branch.commit s A v m t).1 h = some (Branch.commit s A v m t).2 ∧
    (Branch.commit s A v m t).2.branch = A ∧
    (Branch.commit s A v m t).2.message = m.getD "Update" ∧
    (Branch.commit s A v m t).2.timestamp = t ∧
    (Branch.commit s A v m t).2.parent = Storage.getRef s ("branch/" ++ A) ∧
    c0 ∈ Branch.getHistory s c0.branch ∧
    c0 ∉ Branch.getHistory (Branch.commit s A v m t).1 c0.branch := by
  have hcommits : (Branch.commit s A v m t).1.commits =
      Storage.saveCommitList s.commits (Branch.commit s A v m t).2 := by
    simp only [Branch.commit, Storage.saveRef, Storage.saveCommit]
    rw [(storeTree_frame s (MerkleTree.fromObject v)).2]
  have hchash : (Branch.commit s A v m t).2.hash = h := hv
  have hc0mem : c0 ∈ s.commits := List.mem_of_find?_eq_some hc0
  have hc0hash : c0.hash = h := by
    have := List.find?_some hc0
    simpa [beq_iff_eq] using this
  refine ⟨?_, rfl, rfl, rfl, rfl, ?_, ?_⟩
  · show List.find? (fun c => c.hash == h) (Branch.commit s A v m t).1.commits = _
    rw [hcommits]
    exact Storage.find?_saveCommitList_self _ _ _ hchash
  · simp only [Branch.getHistory, Storage.getCommitsForBranch, List.mem_reverse,
      List.mem_filter]
    exact ⟨hc0mem, by simp⟩
  · intro hmem
    simp only [Branch.getHistory, Storage.getCommitsForBranch, List.mem_reverse,
      List.mem_filter] at hmem
    rw [hcommits] at hmem
    have := mem_saveCommitList_eq _ _ _ hpw (hc0hash.trans hchash.symm) hmem.1
    exact hbr (by rw [this]; rfl)

/-! ## C10: environment-dependent conflict detection -/


/-- C10: findConflicts is not determined by its two diff arguments alone:
under the test-environment flag, when both modified lists touch
settings.theme or settings, the source short-circuits to exactly
['settings.theme']; on the same pair of inputs the two environments return
different conflict sets. -/
theorem C10_testenv_shortcut :
    (∀ dA dB : Diff, Diff.hasSettingsMod dA = true → Diff.hasSettingsMod dB = true →
      Diff.findConflicts true dA dB = ["settings.theme"]) ∧
    Diff.findConflicts true c10d c10d ≠ Diff.findConflicts false c10d c10d := by
  constructor
  · intro dA dB hA hB
    simp [Diff.findConflicts, hA, hB]
  · decide

/-- C10 witness: the shortcut on a concrete diff, against the general
algorithm's answer on the same input. -/
theorem C10_witness :
    Diff.findConflicts true c10d c10d = ["settings.theme"] ∧
    Diff.findConflicts false c10d c10d = ["settings", "other"] :=
  ⟨C10_testenv_shortcut.1 c10d c10d rfl rfl, rfl⟩

/-! ## C1: conflict detection, amended characterization -/


/-- C1 (amended): outside a test environment, findConflicts(A, B) reports
a conflict at path p exactly when p is written (added or modified) in both
diffs -- equal written values included -- or p is deleted in one diff and
written in the other.  The specification's third clause (ancestor paths)
is not implemented by the source. -/
theorem C1_amended (dA dB : Diff) (p : String) :
    p ∈ Diff.findConflicts false dA dB ↔
      (Diff.writesAt dA p ∧ Diff.writesAt dB p) ∨
      (Diff.writesAt dA p ∧ Diff.deletesAt dB p) ∨
      (Diff.deletesAt dA p ∧ Diff.writesAt dB p) := by
  simp only [Diff.findConflicts, Bool.false_and, Bool.and_eq_true, if_neg,
    Bool.false_eq_true, not_false_eq_true, List.mem_append, List.mem_filterMap,
    List.mem_filter, Diff.writesAt, Diff.deletesAt]
  constructor
  · rintro (⟨e, he, hif⟩ | ⟨hdel, hcond⟩)
    · by_cases hc : (dB.modified.any (fun i => i.path == e.path)
          || dB.added.any (fun i => i.path == e.path)
          || dB.deleted.contains e.path) = true
      · rw [if_pos hc] at hif
        injection hif with hp
        subst hp
        rcases he with hm | ha
        · -- e written in dA.modified
          simp only [Bool.or_eq_true, List.any_eq_true, beq_iff_eq] at hc
          rcases hc with (⟨i, hi, hip⟩ | ⟨i, hi, hip⟩) | hd
          · exact Or.inl ⟨Or.inl ⟨e, hm, rfl⟩, Or.inl ⟨i, hi, hip⟩⟩
          · exact Or.inl ⟨Or.inl ⟨e, hm, rfl⟩, Or.inr ⟨i, hi, hip⟩⟩
          · exact Or.inr (Or.inl ⟨Or.inl ⟨e, hm, rfl⟩, List.mem_of_elem_eq_true hd⟩)
        · simp only [Bool.or_eq_true, List.any_eq_true, beq_iff_eq] at hc
          rcases hc with (⟨i, hi, hip⟩ | ⟨i, hi, hip⟩) | hd
          · exact Or.inl ⟨Or.inr ⟨e, ha, rfl⟩, Or.inl ⟨i, hi, hip⟩⟩
          · exact Or.inl ⟨Or.inr ⟨e, ha, rfl⟩, Or.inr ⟨i, hi, hip⟩⟩
          · exact Or.inr (Or.inl ⟨Or.inr ⟨e, ha, rfl⟩, List.mem_of_elem_eq_true hd⟩)
      · rw [if_neg hc] at hif
        exact absurd hif (by simp)
    · simp only [Bool.or_eq_true, List.any_eq_true, beq_iff_eq] at hcond
      rcases hcond with ⟨i, hi, hip⟩ | ⟨i, hi, hip⟩
      · exact Or.inr (Or.inr ⟨hdel, Or.inl ⟨i, hi, hip⟩⟩)
      · exact Or.inr (Or.inr ⟨hdel, Or.inr ⟨i, hi, hip⟩⟩)
  · intro hcase
    rcases hcase with ⟨hwA, hwB⟩ | ⟨hwA, hdB⟩ | ⟨hdA, hwB⟩
    · left
      rcases hwA with ⟨e, he, hep⟩ | ⟨e, he, hep⟩
      · refine ⟨e, Or.inl he, ?_⟩
        rw [if_pos ?_]
        · rw [hep]
        · subst hep
          rcases hwB with ⟨i, hi, hip⟩ | ⟨i, hi, hip⟩
          · simp [List.any_eq_true, beq_iff_eq]
            exact Or.inl (Or.inl ⟨i, hi, hip⟩)
          · simp [List.any_eq_true, beq_iff_eq]
            exact Or.inl (Or.inr ⟨i, hi, hip⟩)
      · refine ⟨e, Or.inr he, ?_⟩
        rw [if_pos ?_]
        · rw [hep]
        · subst hep
          rcases hwB with ⟨i, hi, hip⟩ | ⟨i, hi, hip⟩
          · simp [List.any_eq_true, beq_iff_eq]
            exact Or.inl (Or.inl ⟨i, hi, hip⟩)
          · simp [List.any_eq_true, beq_iff_eq]
            exact Or.inl (Or.inr ⟨i, hi, hip⟩)
    · left
      rcases hwA with ⟨e, he, hep⟩ | ⟨e, he, hep⟩
      · refine ⟨e, Or.inl he, ?_⟩
        rw [if_pos ?_]
        · rw [hep]
        · subst hep
          simp only [Bool.or_eq_true]
          exact Or.inr (List.elem_eq_true_of_mem hdB)
      · refine ⟨e, Or.inr he, ?_⟩
        rw [if_pos ?_]
        · rw [hep]
        · subst hep
          simp only [Bool.or_eq_true]
          exact Or.inr (List.elem_eq_true_of_mem hdB)
    · right
      refine ⟨hdA, ?_⟩
      rcases hwB with ⟨i, hi, hip⟩ | ⟨i, hi, hip⟩
      · simp [List.any_eq_true, beq_iff_eq]
        exact Or.inl ⟨i, hi, hip⟩
      · simp [List.any_eq_true, beq_iff_eq]
        exact Or.inr ⟨i, hi, hip⟩

/-! ## C1 counterexample: the ancestor clause is absent from the source -/




/-- C1 counterexample: side A rewrites user wholesale while side B edits
user.name; the specification's clause (iii) demands a conflict at user,
but the source reports no conflict at all. -/
theorem C1_counterexample :
    Diff.specConflictAtB c1dA c1dB "user" = true ∧
    Diff.findConflicts false c1dA c1dB = [] := ⟨rfl, rfl⟩


/-! ## Claim theorems for C3 and C9 wrap-ups -/

/-- C3: for every well-formed structured value v (including sequences of
length at least 10), MerkleTree.toObject (MerkleTree.fromObject v) equals
v under lodash equality, which compares mappings as unordered key sets and
sequences element by element in order. -/
theorem C3_merkle_round_trip (v : JValue) (h : wfVal v = true) :
    JValue.jsEqual (MerkleTree.toObject (MerkleTree.fromObject v)) v = true :=
  MerkleTree.roundTripVal v h

/-- C3 witness: the round trip on a mapping holding a 12-element
sequence. -/
theorem C3_witness :
    wfVal c3Witness = true ∧
    JValue.jsEqual (MerkleTree.toObject (MerkleTree.fromObject c3Witness))
      c3Witness = true :=
  ⟨rfl, C3_merkle_round_trip c3Witness rfl⟩

/-- C9 witness: committing the same value on dev overwrites the record of
the main commit in place, and main's history loses it. -/
theorem C9_witness :
    Storage.getCommit (Branch.commit c9Store "dev" c9Data (some "m1") 2).1
        (MerkleTree.hashOf (MerkleTree.fromObject c9Data)) =
      some (Branch.commit c9Store "dev" c9Data (some "m1") 2).2 ∧
    (Branch.commit c9Store "dev" c9Data (some "m1") 2).2.branch = "dev" ∧
    (Branch.commit c9Store "dev" c9Data (some "m1") 2).2.message = "m1" ∧
    (Branch.commit c9Store "dev" c9Data (some "m1") 2).2.timestamp = 2 ∧
    (Branch.commit c9Store "dev" c9Data (some "m1") 2).2.parent =
      Storage.getRef c9Store ("branch/" ++ "dev") ∧
    c9c0 ∈ Branch.getHistory c9Store c9c0.branch ∧
    c9c0 ∉ Branch.getHistory
      (Branch.commit c9Store "dev" c9Data (some "m1") 2).1 c9c0.branch :=
  C9_content_hash_overwrite c9Store _ c9c0 "dev" c9Data (some "m1") 2
    rfl rfl (by decide) rfl


/-! ## Part A: path-splitting facts for benign keys -/

theorem splitDots_ne_nil (cs : List Char) : splitDots cs ≠ [] := by
  cases cs with
  | nil => simp [splitDots]
  | cons c rest =>
    rw [splitDots]
    by_cases h : c = '.'
    · simp [h]
    · simp only [h, if_neg, if_false]
      cases splitDots rest with
      | nil => simp
      | cons g gs => simp

theorem splitDots_dotfree (cs : List Char) (h : ∀ c ∈ cs, c ≠ '.') :
    splitDots cs = [cs] := by
  induction cs with
  | nil => rfl
  | cons c rest ih =>
    have hc : c ≠ '.' := h c (List.mem_cons_self _ _)
    rw [splitDots]
    rw [if_neg hc]
    rw [ih (fun d hd => h d (List.mem_cons_of_mem _ hd))]

theorem splitDots_append (kcs qcs : List Char) (h : ∀ c ∈ kcs, c ≠ '.') :
    splitDots (kcs ++ '.' :: qcs) = kcs :: splitDots qcs := by
  induction kcs with
  | nil => simp [splitDots]
  | cons c rest ih =>
    have hc : c ≠ '.' := h c (List.mem_cons_self _ _)
    rw [List.cons_append, splitDots]
    rw [if_neg hc]
    rw [ih (fun d hd => h d (List.mem_cons_of_mem _ hd))]

theorem goodKey_ne_empty {k : String} (h : goodKey k = true) : k ≠ "" := by
  rw [goodKey] at h
  simp only [Bool.and_eq_true, Bool.not_eq_true] at h
  intro he
  rw [he] at h
  exact absurd h.1 (by simp)

theorem goodKey_dotfree {k : String} (h : goodKey k = true) :
    ∀ c ∈ k.data, c ≠ '.' := by
  rw [goodKey] at h
  simp only [Bool.and_eq_true, Bool.not_eq_true] at h
  intro c hc he
  have : k.data.any (fun c => c == '.' || c == '[' || c == ']') = true :=
    List.any_eq_true.mpr ⟨c, hc, by simp [he]⟩
  rw [this] at h
  exact absurd h.2 (by simp)

theorem goodKey_ne_dot {k : String} (h : goodKey k = true) : k ≠ "." := by
  intro he
  exact goodKey_dotfree h '.' (by rw [he]; simp) rfl

theorem mk_data (s : String) : String.mk s.data = s := by
  cases s
  rfl

theorem splitPath_goodKey {k : String} (h : goodKey k = true) :
    splitPath k = [k] := by
  rw [splitPath, if_neg (goodKey_ne_empty h)]
  rw [splitDots_dotfree k.data (goodKey_dotfree h)]
  simp [mk_data]

theorem string_append_data (a b : String) : (a ++ b).data = a.data ++ b.data := rfl

theorem dot_data : ("." : String).data = ['.'] := rfl

theorem reRoot_ne_empty {k q : String} (hk : goodKey k = true) (hq : q ≠ "") :
    reRoot k q ≠ "" := by
  rw [reRoot]
  by_cases hd : q = "."
  · rw [if_pos hd]
    exact goodKey_ne_empty hk
  · rw [if_neg hd]
    intro he
    have h2 := congrArg String.data he
    rw [string_append_data, string_append_data, dot_data] at h2
    simp at h2

theorem splitPath_reRoot {k q : String} (hk : goodKey k = true) (hq : q ≠ "")
    (hd : q ≠ ".") : splitPath (reRoot k q) = k :: splitPath q := by
  rw [reRoot, if_neg hd]
  have hdata : (k ++ "." ++ q).data = k.data ++ '.' :: q.data := by
    rw [string_append_data, string_append_data, dot_data, List.append_assoc]
    rfl
  have hne : k ++ "." ++ q ≠ "" := by
    intro he
    have := congrArg String.data he
    rw [hdata] at this
    simp at this
  rw [splitPath, if_neg hne, hdata,
    splitDots_append k.data q.data (goodKey_dotfree hk)]
  rw [splitPath, if_neg hq]
  simp [mk_data]

theorem reRoot_dot (k : String) : reRoot k "." = k := by
  rw [reRoot, if_pos rfl]

theorem goodPathB_ne_empty {q : String} (h : goodPathB q = true) : q ≠ "" := by
  rw [goodPathB] at h
  simp only [Bool.and_eq_true, Bool.not_eq_true] at h
  intro he
  rw [he] at h
  exact absurd h.1 (by simp)

theorem goodPathB_reRoot {k q : String} (hk : goodKey k = true)
    (hq : emittedPath q = true) : goodPathB (reRoot k q) = true := by
  rw [emittedPath, Bool.or_eq_true] at hq
  rcases hq with hq | hq
  · have : q = "." := by simpa using hq
    rw [this, reRoot_dot, goodPathB]
    simp [goodKey_ne_empty hk, splitPath_goodKey hk, hk]
  · have hne := goodPathB_ne_empty hq
    have hnd : q ≠ "." := by
      intro he
      rw [goodPathB, he] at hq
      simp only [Bool.and_eq_true] at hq
      have : splitPath "." = ["", ""] := rfl
      rw [this] at hq
      simp only [List.all_cons, Bool.and_eq_true] at hq
      exact goodKey_ne_empty hq.2.1 rfl
    rw [goodPathB]
    simp only [Bool.and_eq_true, Bool.not_eq_true]
    constructor
    · simp [reRoot_ne_empty hk hne]
    · rw [splitPath_reRoot hk hne hnd]
      rw [goodPathB] at hq
      simp only [Bool.and_eq_true] at hq
      simp [hk, hq.2]

theorem append_ne_dot {k q : String} (hk : goodKey k = true) :
    k ++ "." ++ q ≠ "." := by
  intro he
  have h2 := congrArg String.data he
  rw [string_append_data, string_append_data, dot_data] at h2
  have hlen := congrArg List.length h2
  simp only [List.length_append, List.length_cons, List.length_singleton] at hlen
  have hk0 : k.data.length = 0 := by omega
  have : k.data = [] := List.length_eq_zero.mp hk0
  exact goodKey_ne_empty hk (by cases k with | mk l => simp at this; simp [this])

theorem string_append_assoc (a b c : String) : a ++ b ++ c = a ++ (b ++ c) := by
  have : (a ++ b ++ c).data = (a ++ (b ++ c)).data := by
    rw [string_append_data, string_append_data, string_append_data,
      string_append_data, List.append_assoc]
  calc a ++ b ++ c = String.mk ((a ++ b ++ c).data) := (mk_data _).symm
    _ = String.mk ((a ++ (b ++ c)).data) := by rw [this]
    _ = a ++ (b ++ c) := mk_data _

theorem reRoot_comp {p k q : String} (hk : goodKey k = true) (hq : q ≠ "") :
    reRoot p (reRoot k q) = reRoot (p ++ "." ++ k) q := by
  by_cases hd : q = "."
  · rw [hd, reRoot_dot, reRoot_dot]
    rw [reRoot, if_neg (goodKey_ne_dot hk)]
  · have h1 : reRoot k q = k ++ "." ++ q := by rw [reRoot, if_neg hd]
    have h2 : reRoot (p ++ "." ++ k) q = p ++ "." ++ k ++ "." ++ q := by
      rw [reRoot, if_neg hd]
    have h3 : reRoot p (k ++ "." ++ q) = p ++ "." ++ (k ++ "." ++ q) := by
      rw [reRoot, if_neg (append_ne_dot hk)]
    rw [h1, h3, h2]
    simp only [string_append_assoc]


/-! ## Part D: structure of generated diffs over benign values -/

namespace Diff


theorem pathsOf_app (d e : Diff) (q : String) :
    q ∈ (d.app e).pathsOf ↔ q ∈ d.pathsOf ∨ q ∈ e.pathsOf := by
  simp only [pathsOf, app, List.map_append, List.mem_append]
  tauto

theorem mapPaths_app (f : String → String) (d e : Diff) :
    mapPaths f (d.app e) = (mapPaths f d).app (mapPaths f e) := by
  simp [mapPaths, app]

theorem mapPaths_mapPaths (f g : String → String) (d : Diff) :
    mapPaths f (mapPaths g d) = mapPaths (fun q => f (g q)) d := by
  simp [mapPaths, Function.comp]

theorem mem_pathsOf_added {d : Diff} {e : DiffEntry} (he : e ∈ d.added) :
    e.path ∈ d.pathsOf := by
  simp only [pathsOf, List.mem_append, List.mem_map]
  exact Or.inl (Or.inr ⟨e, he, rfl⟩)

theorem mem_pathsOf_modified {d : Diff} {e : DiffEntry} (he : e ∈ d.modified) :
    e.path ∈ d.pathsOf := by
  simp only [pathsOf, List.mem_append, List.mem_map]
  exact Or.inl (Or.inl ⟨e, he, rfl⟩)

theorem mem_pathsOf_deleted {d : Diff} {q : String} (hq : q ∈ d.deleted) :
    q ∈ d.pathsOf := by
  simp only [pathsOf, List.mem_append]
  exact Or.inr hq

theorem mapPaths_congr (f g : String → String) (d : Diff)
    (h : ∀ q ∈ d.pathsOf, f q = g q) : mapPaths f d = mapPaths g d := by
  simp only [mapPaths, Diff.mk.injEq]
  refine ⟨?_, ?_, ?_⟩
  · apply List.map_congr_left
    intro e he
    simp only [DiffEntry.mk.injEq, and_true]
    exact h e.path (mem_pathsOf_added he)
  · apply List.map_congr_left
    intro e he
    simp only [DiffEntry.mk.injEq, and_true]
    exact h e.path (mem_pathsOf_modified he)
  · apply List.map_congr_left
    intro q hq
    exact h q (mem_pathsOf_deleted hq)

theorem mapPaths_empty (f : String → String) : mapPaths f Diff.empty = Diff.empty := rfl

end Diff

namespace JValue

theorem lookupJ_goodFields {fs : List (String × JValue)} {k : String} {v : JValue}
    (hg : goodFields fs = true) (hl : lookupJ k fs = some v) : goodVal v = true := by
  induction fs with
  | nil => simp [lookupJ] at hl
  | cons p rest ih =>
    obtain ⟨l, w⟩ := p
    rw [goodFields] at hg
    simp only [Bool.and_eq_true] at hg
    rw [lookupJ] at hl
    by_cases he : k = l
    · rw [if_pos he] at hl
      injection hl with hl
      rw [← hl]
      exact hg.1
    · rw [if_neg he] at hl
      exact ih hg.2 hl

theorem goodVal_obj_parts {fs : List (String × JValue)}
    (h : goodVal (.jobj fs) = true) :
    distinctKeys fs = true ∧ goodKeysL fs = true ∧ goodFields fs = true := by
  rw [goodVal] at h
  simp only [Bool.and_eq_true] at h
  exact ⟨h.1.1, h.1.2, h.2⟩

theorem goodKeysL_mem {fs : List (String × JValue)} {p : String × JValue}
    (hg : goodKeysL fs = true) (hm : p ∈ fs) : goodKey p.1 = true := by
  induction fs with
  | nil => simp at hm
  | cons q rest ih =>
    obtain ⟨l, w⟩ := q
    rw [goodKeysL] at hg
    simp only [Bool.and_eq_true] at hg
    rcases List.mem_cons.mp hm with he | he
    · rw [he]
      exact hg.1
    · exact ih hg.2 he

theorem goodFields_mem {fs : List (String × JValue)} {p : String × JValue}
    (hg : goodFields fs = true) (hm : p ∈ fs) : goodVal p.2 = true := by
  induction fs with
  | nil => simp at hm
  | cons q rest ih =>
    obtain ⟨l, w⟩ := q
    rw [goodFields] at hg
    simp only [Bool.and_eq_true] at hg
    rcases List.mem_cons.mp hm with he | he
    · rw [he]
      exact hg.1
    · exact ih hg.2 he

end JValue

namespace Diff
open JValue

/-- The path recorded at a node: nonempty unless the prefix was empty and
the marker "." is used, which is also nonempty. -/
theorem orDot_ne_empty (p : String) : orDot p ≠ "" := by
  rw [orDot]
  by_cases h : p = ""
  · simp [h]
  · simp [h]

theorem childPath_eq_reRoot {p k : String} (hk : goodKey k = true) (hp : p ≠ "") :
    childPath p k = reRoot p k := by
  rw [childPath, if_neg hp, reRoot, if_neg (goodKey_ne_dot hk)]

theorem childPath_ne_empty {p k : String} (hk : goodKey k = true) :
    childPath p k ≠ "" := by
  rw [childPath]
  by_cases hp : p = ""
  · rw [if_pos hp]
    exact goodKey_ne_empty hk
  · rw [if_neg hp]
    intro he
    have h2 := congrArg String.data he
    rw [string_append_data, string_append_data, dot_data] at h2
    simp at h2

/-- On benign values at least one of which is not a mapping, cmp yields
either the empty diff (equal primitives) or the single whole-value
modification at the recorded root path, uniformly in the prefix. -/
theorem cmp_non2obj (a b : JValue) (ha : goodVal a = true) (hb : goodVal b = true)
    (hno : ∀ fsA fsB, ¬(a = .jobj fsA ∧ b = .jobj fsB)) :
    (∀ p, cmp a b p = .ok Diff.empty) ∨
    (∀ p, cmp a b p = .ok ⟨[], [⟨orDot p, b⟩], []⟩) := by
  cases a with
  | jnull => simp [goodVal] at ha
  | jundef => simp [goodVal] at ha
  | jarr xs => simp [goodVal] at ha
  | jbool x =>
    cases b with
    | jnull => simp [goodVal] at hb
    | jundef => simp [goodVal] at hb
    | jarr ys => simp [goodVal] at hb
    | jbool y =>
      by_cases he : x = y
      · subst he
        left
        intro p
        simp [cmp, jsTypeTag, jsEqual]
      · right
        intro p
        simp [cmp, jsTypeTag, jsEqual, he]
    | jnum y => right; intro p; simp [cmp, jsTypeTag]
    | jstr y => right; intro p; simp [cmp, jsTypeTag]
    | jobj gs => right; intro p; simp [cmp, jsTypeTag]
  | jnum x =>
    cases b with
    | jnull => simp [goodVal] at hb
    | jundef => simp [goodVal] at hb
    | jarr ys => simp [goodVal] at hb
    | jbool y => right; intro p; simp [cmp, jsTypeTag]
    | jnum y =>
      by_cases he : x = y
      · subst he
        left
        intro p
        simp [cmp, jsTypeTag, jsEqual]
      · right
        intro p
        simp [cmp, jsTypeTag, jsEqual, he]
    | jstr y => right; intro p; simp [cmp, jsTypeTag]
    | jobj gs => right; intro p; simp [cmp, jsTypeTag]
  | jstr x =>
    cases b with
    | jnull => simp [goodVal] at hb
    | jundef => simp [goodVal] at hb
    | jarr ys => simp [goodVal] at hb
    | jbool y => right; intro p; simp [cmp, jsTypeTag]
    | jnum y => right; intro p; simp [cmp, jsTypeTag]
    | jstr y =>
      by_cases he : x = y
      · subst he
        left
        intro p
        simp [cmp, jsTypeTag, jsEqual]
      · right
        intro p
        simp [cmp, jsTypeTag, jsEqual, he]
    | jobj gs => right; intro p; simp [cmp, jsTypeTag]
  | jobj fs =>
    cases b with
    | jnull => simp [goodVal] at hb
    | jundef => simp [goodVal] at hb
    | jarr ys => simp [goodVal] at hb
    | jbool y => right; intro p; simp [cmp, jsTypeTag]
    | jnum y => right; intro p; simp [cmp, jsTypeTag]
    | jstr y => right; intro p; simp [cmp, jsTypeTag]
    | jobj gs => exact absurd ⟨rfl, rfl⟩ (hno fs gs)

end Diff


namespace Diff
open JValue

theorem cmp_obj_obj (fsA fsB : List (String × JValue)) (p : String) :
    cmp (.jobj fsA) (.jobj fsB) p =
      Except.map
        (fun rest =>
          (Diff.mk [] [] ((fsA.filter (fun q => !hasKey q.1 fsB)).map
            (fun q => childPath p q.1))).app rest)
        (cmpObjWalk fsA fsB p) := by
  rw [cmp]
  cases hw : cmpObjWalk fsA fsB p <;> simp [jsTypeTag, Except.map, hw]

theorem cmpObjWalk_nil (fsA : List (String × JValue)) (p : String) :
    cmpObjWalk fsA [] p = .ok Diff.empty := rfl

theorem cmpObjWalk_cons_some (fsA : List (String × JValue)) (k : String)
    (bv av : JValue) (rest : List (String × JValue)) (p : String)
    (hlk : lookupJ k fsA = some av) :
    cmpObjWalk fsA ((k, bv) :: rest) p = (do
      let here ← cmp av bv (childPath p k)
      let tail ← cmpObjWalk fsA rest p
      pure (here.app tail)) := by
  rw [cmpObjWalk, hlk]

theorem cmpObjWalk_cons_none (fsA : List (String × JValue)) (k : String)
    (bv : JValue) (rest : List (String × JValue)) (p : String)
    (hlk : lookupJ k fsA = none) :
    cmpObjWalk fsA ((k, bv) :: rest) p = (do
      let tail ← cmpObjWalk fsA rest p
      pure ((Diff.mk [⟨childPath p k, bv⟩] [] []).app tail)) := by
  rw [cmpObjWalk, hlk]
  rfl

mutual

theorem cmp_paths_nonempty : ∀ (b a : JValue) (p : String) (d : Diff),
    goodVal a = true → goodVal b = true → cmp a b p = .ok d →
    ∀ q ∈ d.pathsOf, q ≠ ""
  | b, a, p, d, ha, hb, hok => by
    by_cases hobj : ∃ fsA, a = JValue.jobj fsA
    · obtain ⟨fsA, rfl⟩ := hobj
      by_cases hobj2 : ∃ fsB, b = JValue.jobj fsB
      · obtain ⟨fsB, rfl⟩ := hobj2
        rw [cmp_obj_obj] at hok
        cases hw : cmpObjWalk fsA fsB p with
        | error e =>
          rw [hw] at hok
          exact absurd (show (Except.error e : Except String Diff) = .ok d from hok)
            (by simp)
        | ok rest =>
          rw [hw] at hok
          have hok2 : Except.ok ((Diff.mk [] []
              ((fsA.filter (fun q => !JValue.hasKey q.1 fsB)).map
                (fun q => childPath p q.1))).app rest) = Except.ok d := hok
          injection hok2 with hok2
          subst hok2
          intro q hq
          rcases (pathsOf_app _ _ _).mp hq with hq | hq
          · simp only [pathsOf, List.map_nil, List.nil_append, List.mem_append,
              List.mem_map, List.not_mem_nil, or_false, false_or] at hq
            obtain ⟨e, he, rfl⟩ := hq
            obtain ⟨he2, _⟩ := List.mem_filter.mp he
            exact childPath_ne_empty
              (goodKeysL_mem (goodVal_obj_parts ha).2.1 he2)
          · exact cmpObjWalk_paths_nonempty fsB fsA p rest
              (goodVal_obj_parts ha).2.2 (goodVal_obj_parts hb).2.1
              (goodVal_obj_parts hb).2.2 hw q hq
      · have hno : ∀ gA gB, ¬(JValue.jobj fsA = JValue.jobj gA ∧ b = JValue.jobj gB) := by
          intro gA gB hcc
          exact hobj2 ⟨gB, hcc.2⟩
        rcases cmp_non2obj _ b ha hb hno with hsh | hsh
        · rw [hsh p] at hok
          injection hok with hok
          subst hok
          intro q hq
          simp [pathsOf, Diff.empty] at hq
        · rw [hsh p] at hok
          injection hok with hok
          subst hok
          intro q hq
          simp only [pathsOf, List.map_nil, List.map_cons, List.nil_append,
            List.append_nil, List.mem_cons, List.not_mem_nil, or_false] at hq
          rw [hq]
          exact orDot_ne_empty p
    · have hno : ∀ gA gB, ¬(a = JValue.jobj gA ∧ b = JValue.jobj gB) := by
        intro gA gB hcc
        exact hobj ⟨gA, hcc.1⟩
      rcases cmp_non2obj a b ha hb hno with hsh | hsh
      · rw [hsh p] at hok
        injection hok with hok
        subst hok
        intro q hq
        simp [pathsOf, Diff.empty] at hq
      · rw [hsh p] at hok
        injection hok with hok
        subst hok
        intro q hq
        simp only [pathsOf, List.map_nil, List.map_cons, List.nil_append,
          List.append_nil, List.mem_cons, List.not_mem_nil, or_false] at hq
        rw [hq]
        exact orDot_ne_empty p

theorem cmpObjWalk_paths_nonempty : ∀ (fsB fsA : List (String × JValue)) (p : String)
    (d : Diff), goodFields fsA = true → goodKeysL fsB = true →
    goodFields fsB = true → cmpObjWalk fsA fsB p = .ok d →
    ∀ q ∈ d.pathsOf, q ≠ ""
  | [], fsA, p, d, _, _, _, hok => by
    rw [cmpObjWalk_nil] at hok
    injection hok with hok
    subst hok
    intro q hq
    simp [pathsOf, Diff.empty] at hq
  | (k, bv) :: rest, fsA, p, d, hgA, hkB, hgB, hok => by
    have hkB2 : goodKey k = true ∧ goodKeysL rest = true := by
      rw [goodKeysL] at hkB
      simpa using hkB
    have hgB2 : goodVal bv = true ∧ goodFields rest = true := by
      rw [goodFields] at hgB
      simpa using hgB
    obtain ⟨hkk, hkB'⟩ := hkB2
    obtain ⟨hbv, hgB'⟩ := hgB2
    cases hlk : lookupJ k fsA with
    | some av =>
      rw [cmpObjWalk_cons_some fsA k bv av rest p hlk] at hok
      cases hh : cmp av bv (childPath p k) with
      | error e =>
        rw [hh] at hok
        exact absurd (show (Except.error e : Except String Diff) = .ok d from hok)
          (by simp)
      | ok here =>
        rw [hh] at hok
        cases ht : cmpObjWalk fsA rest p with
        | error e =>
          rw [ht] at hok
          exact absurd (show (Except.error e : Except String Diff) = .ok d from hok)
            (by simp)
        | ok tail =>
          rw [ht] at hok
          have hok2 : Except.ok (here.app tail) = Except.ok d := hok
          injection hok2 with hok2
          subst hok2
          intro q hq
          rcases (pathsOf_app _ _ _).mp hq with hq | hq
          · exact cmp_paths_nonempty bv av (childPath p k) here
              (lookupJ_goodFields hgA hlk) hbv hh q hq
          · exact cmpObjWalk_paths_nonempty rest fsA p tail hgA hkB' hgB' ht q hq
    | none =>
      rw [cmpObjWalk_cons_none fsA k bv rest p hlk] at hok
      cases ht : cmpObjWalk fsA rest p with
      | error e =>
        rw [ht] at hok
        exact absurd (show (Except.error e : Except String Diff) = .ok d from hok)
          (by simp)
      | ok tail =>
        rw [ht] at hok
        have hok2 : Except.ok ((Diff.mk [⟨childPath p k, bv⟩] [] []).app tail) =
            Except.ok d := hok
        injection hok2 with hok2
        subst hok2
        intro q hq
        rcases (pathsOf_app _ _ _).mp hq with hq | hq
        · simp only [pathsOf, List.map_cons, List.map_nil, List.nil_append,
            List.append_nil, List.mem_cons, List.not_mem_nil, or_false] at hq
          rw [hq]
          exact childPath_ne_empty hkk
        · exact cmpObjWalk_paths_nonempty rest fsA p tail hgA hkB' hgB' ht q hq

end

end Diff


namespace Diff
open JValue

theorem orDot_of_ne {p : String} (hp : p ≠ "") : orDot p = p := by
  rw [orDot, if_neg hp]

mutual

theorem cmp_reRoot : ∀ (b a : JValue) (p : String), goodVal a = true →
    goodVal b = true → p ≠ "" →
    cmp a b p = Except.map (mapPaths (reRoot p)) (cmp a b "")
  | b, a, p, ha, hb, hp => by
    by_cases hobj : (∃ fsA, a = JValue.jobj fsA) ∧ (∃ fsB, b = JValue.jobj fsB)
    · obtain ⟨⟨fsA, rfl⟩, ⟨fsB, rfl⟩⟩ := hobj
      rw [cmp_obj_obj, cmp_obj_obj]
      rw [cmpObjWalk_reRoot fsB fsA p (goodVal_obj_parts ha).2.2
        (goodVal_obj_parts hb).2.1 (goodVal_obj_parts hb).2.2 hp]
      cases hw : cmpObjWalk fsA fsB "" with
      | error e => rfl
      | ok rest0 =>
        show Except.ok _ = Except.ok _
        congr 1
        have hlevel : (fsA.filter (fun q => !JValue.hasKey q.1 fsB)).map
            (fun q => childPath p q.1) =
            ((fsA.filter (fun q => !JValue.hasKey q.1 fsB)).map
              (fun q => childPath "" q.1)).map (reRoot p) := by
          rw [List.map_map]
          apply List.map_congr_left
          intro q hq
          have hk : goodKey q.1 = true :=
            goodKeysL_mem (goodVal_obj_parts ha).2.1 (List.mem_filter.mp hq).1
          simp only [Function.comp_apply]
          rw [childPath_eq_reRoot hk hp, childPath]
          rw [if_pos rfl]
        show (Diff.mk [] [] _).app (mapPaths (reRoot p) rest0) =
          mapPaths (reRoot p) ((Diff.mk [] [] _).app rest0)
        rw [mapPaths_app]
        congr 1
        simp only [mapPaths]
        simp only [List.map_nil]
        rw [hlevel]
    · rw [Classical.not_and_iff_or_not_not] at hobj
      have hno : ∀ gA gB, ¬(a = JValue.jobj gA ∧ b = JValue.jobj gB) := by
        intro gA gB hcc
        rcases hobj with h | h
        · exact h ⟨gA, hcc.1⟩
        · exact h ⟨gB, hcc.2⟩
      rcases cmp_non2obj a b ha hb hno with hsh | hsh
      · rw [hsh p, hsh ""]
        rfl
      · rw [hsh p, hsh ""]
        show Except.ok _ = Except.ok _
        congr 1
        simp only [mapPaths, List.map_nil, List.map_cons]
        rw [orDot_of_ne hp]
        show Diff.mk [] [⟨p, b⟩] [] = Diff.mk [] [⟨reRoot p (orDot ""), b⟩] []
        have : orDot "" = "." := rfl
        rw [this, reRoot_dot]

theorem cmpObjWalk_reRoot : ∀ (fsB fsA : List (String × JValue)) (p : String),
    goodFields fsA = true → goodKeysL fsB = true → goodFields fsB = true →
    p ≠ "" →
    cmpObjWalk fsA fsB p = Except.map (mapPaths (reRoot p)) (cmpObjWalk fsA fsB "")
  | [], fsA, p, _, _, _, hp => by
    rw [cmpObjWalk_nil, cmpObjWalk_nil]
    rfl
  | (k, bv) :: rest, fsA, p, hgA, hkB, hgB, hp => by
    have hkB2 : goodKey k = true ∧ goodKeysL rest = true := by
      rw [goodKeysL] at hkB
      simpa using hkB
    have hgB2 : goodVal bv = true ∧ goodFields rest = true := by
      rw [goodFields] at hgB
      simpa using hgB
    obtain ⟨hkk, hkB'⟩ := hkB2
    obtain ⟨hbv, hgB'⟩ := hgB2
    have hcp : childPath "" k = k := by
      rw [childPath, if_pos rfl]
    have htail := cmpObjWalk_reRoot rest fsA p hgA hkB' hgB' hp
    cases hlk : lookupJ k fsA with
    | some av =>
      have hav : goodVal av = true := lookupJ_goodFields hgA hlk
      -- both instances of the child comparison factor through the root one
      have hchild_p := cmp_reRoot bv av (childPath p k) hav hbv
        (childPath_ne_empty hkk)
      have hchild_0 := cmp_reRoot bv av k hav hbv (goodKey_ne_empty hkk)
      rw [cmpObjWalk_cons_some fsA k bv av rest p hlk,
        cmpObjWalk_cons_some fsA k bv av rest "" hlk]
      rw [hchild_p, hcp, hchild_0, htail]
      cases hc0 : cmp av bv "" with
      | error e => rfl
      | ok d0 =>
        cases ht0 : cmpObjWalk fsA rest "" with
        | error e => rfl
        | ok tail0 =>
          show Except.ok ((mapPaths (reRoot (childPath p k)) d0).app
              (mapPaths (reRoot p) tail0)) =
            Except.ok (mapPaths (reRoot p) ((mapPaths (reRoot k) d0).app tail0))
          congr 1
          rw [mapPaths_app]
          congr 1
          rw [mapPaths_mapPaths]
          have hne : ∀ q ∈ d0.pathsOf, q ≠ "" :=
            cmp_paths_nonempty bv av "" d0 hav hbv hc0
          have hcong := mapPaths_congr (fun q => reRoot p (reRoot k q))
            (reRoot (p ++ "." ++ k)) d0
            (fun q hq => reRoot_comp hkk (hne q hq))
          rw [hcong]
          rw [childPath, if_neg hp]
    | none =>
      rw [cmpObjWalk_cons_none fsA k bv rest p hlk,
        cmpObjWalk_cons_none fsA k bv rest "" hlk]
      rw [htail]
      cases ht0 : cmpObjWalk fsA rest "" with
      | error e => rfl
      | ok tail0 =>
        show Except.ok ((Diff.mk [⟨childPath p k, bv⟩] [] []).app
            (mapPaths (reRoot p) tail0)) =
          Except.ok (mapPaths (reRoot p)
            ((Diff.mk [⟨childPath "" k, bv⟩] [] []).app tail0))
        congr 1
        rw [mapPaths_app]
        congr 1
        simp only [mapPaths, List.map_cons, List.map_nil]
        rw [hcp, ← childPath_eq_reRoot hkk hp]

end

end Diff


/-! ## Part B: per-key decomposition of lodash folds on objects -/

namespace JValue


theorem lookupJ_setField_self (fs : List (String × JValue)) (k : String) (v : JValue) :
    lookupJ k (setField fs k v) = some v := by
  induction fs with
  | nil => simp [setField, lookupJ]
  | cons p rest ih =>
    obtain ⟨l, w⟩ := p
    by_cases he : k = l
    · subst he
      simp [setField, lookupJ]
    · simp [setField, lookupJ, he, ih]

theorem lookupJ_setField_other (fs : List (String × JValue)) (k k' : String)
    (v : JValue) (hne : k ≠ k') : lookupJ k (setField fs k' v) = lookupJ k fs := by
  induction fs with
  | nil => simp [setField, lookupJ, hne]
  | cons p rest ih =>
    obtain ⟨l, w⟩ := p
    by_cases he : k' = l
    · subst he
      rw [setField, if_pos rfl, lookupJ, lookupJ]
      rw [if_neg (by exact hne), if_neg (by exact hne)]
    · rw [setField, if_neg he, lookupJ, lookupJ]
      by_cases he2 : k = l
      · rw [if_pos he2, if_pos he2]
      · rw [if_neg he2, if_neg he2]
        exact ih

theorem lookupJ_removeField_self (fs : List (String × JValue)) (k : String)
    (hd : distinctKeys fs = true) : lookupJ k (removeField fs k) = none := by
  induction fs with
  | nil => simp [removeField, lookupJ]
  | cons p rest ih =>
    obtain ⟨l, w⟩ := p
    rw [distinctKeys] at hd
    simp only [Bool.and_eq_true, Bool.not_eq_true] at hd
    by_cases he : k = l
    · subst he
      rw [removeField, if_pos rfl]
      cases hres : lookupJ k rest with
      | none => rfl
      | some v =>
        exfalso
        have hmem : ∃ q ∈ rest, q.1 = k := by
          clear ih hd
          induction rest with
          | nil => simp [lookupJ] at hres
          | cons q rr ihh =>
            obtain ⟨m, u⟩ := q
            rw [lookupJ] at hres
            by_cases hm : k = m
            · exact ⟨(m, u), List.mem_cons_self _ _, hm.symm⟩
            · rw [if_neg hm] at hres
              obtain ⟨q2, hq2, hq2e⟩ := ihh hres
              exact ⟨q2, List.mem_cons_of_mem _ hq2, hq2e⟩
        obtain ⟨q, hq, hqe⟩ := hmem
        have : rest.any (fun q => q.1 == k) = true :=
          List.any_eq_true.mpr ⟨q, hq, by simp [hqe]⟩
        rw [this] at hd
        exact absurd hd.1 (by simp)
    · rw [removeField, if_neg he, lookupJ, if_neg he]
      exact ih hd.2

theorem lookupJ_removeField_other (fs : List (String × JValue)) (k k' : String)
    (hne : k ≠ k') : lookupJ k (removeField fs k') = lookupJ k fs := by
  induction fs with
  | nil => simp [removeField, lookupJ]
  | cons p rest ih =>
    obtain ⟨l, w⟩ := p
    by_cases he : k' = l
    · subst he
      rw [removeField, if_pos rfl, lookupJ, if_neg (by exact hne)]
    · rw [removeField, if_neg he, lookupJ, lookupJ]
      by_cases he2 : k = l
      · rw [if_pos he2, if_pos he2]
      · rw [if_neg he2, if_neg he2]
        exact ih

theorem distinct_hasKey_false {fs : List (String × JValue)} {k : String}
    (h : hasKey k fs = false) : (∀ q ∈ fs, q.1 ≠ k) := by
  induction fs with
  | nil => simp
  | cons p rest ih =>
    obtain ⟨l, w⟩ := p
    rw [hasKey] at h
    simp only [Bool.or_eq_false_iff] at h
    intro q hq
    rcases List.mem_cons.mp hq with he | he
    · subst he
      simp only [beq_eq_false_iff_ne, ne_eq] at h
      exact fun hx => h.1 hx.symm
    · exact ih h.2 q he

theorem distinctKeys_setField (fs : List (String × JValue)) (k : String) (v : JValue)
    (hd : distinctKeys fs = true) : distinctKeys (setField fs k v) = true := by
  induction fs with
  | nil => simp [setField, distinctKeys]
  | cons p rest ih =>
    obtain ⟨l, w⟩ := p
    rw [distinctKeys] at hd
    simp only [Bool.and_eq_true, Bool.not_eq_true] at hd
    by_cases he : k = l
    · subst he
      rw [setField, if_pos rfl, distinctKeys]
      simp only [Bool.and_eq_true, Bool.not_eq_true]
      exact hd
    · rw [setField, if_neg he, distinctKeys]
      simp only [Bool.and_eq_true, Bool.not_eq_true]
      constructor
      · cases hany : (setField rest k v).any (fun q => q.1 == l) with
        | false => rfl
        | true =>
          exfalso
          obtain ⟨q, hq, hqe⟩ := List.any_eq_true.mp hany
          simp only [beq_iff_eq] at hqe
          have hq2 : q ∈ rest ∨ q = (k, v) := by
            clear ih hd hany
            induction rest with
            | nil =>
              simp only [setField, List.mem_singleton] at hq
              exact Or.inr hq
            | cons r rr ihh =>
              obtain ⟨m, u⟩ := r
              rw [setField] at hq
              by_cases hm : k = m
              · rw [if_pos hm] at hq
                rcases List.mem_cons.mp hq with hx | hx
                · exact Or.inr (by rw [hx, ← hm])
                · exact Or.inl (List.mem_cons_of_mem _ hx)
              · rw [if_neg hm] at hq
                rcases List.mem_cons.mp hq with hx | hx
                · exact Or.inl (by rw [hx]; exact List.mem_cons_self _ _)
                · rcases ihh hx with hy | hy
                  · exact Or.inl (List.mem_cons_of_mem _ hy)
                  · exact Or.inr hy
          rcases hq2 with hq2 | hq2
          · have : rest.any (fun q => q.1 == l) = true :=
              List.any_eq_true.mpr ⟨q, hq2, by simp [hqe]⟩
            rw [this] at hd
            exact absurd hd.1 (by simp)
          · rw [hq2] at hqe
            exact he hqe
      · exact ih hd.2

end JValue


namespace JValue

theorem distinctKeys_removeField (fs : List (String × JValue)) (k : String)
    (hd : distinctKeys fs = true) : distinctKeys (removeField fs k) = true := by
  induction fs with
  | nil => simp [removeField, distinctKeys]
  | cons p rest ih =>
    obtain ⟨l, w⟩ := p
    rw [distinctKeys] at hd
    simp only [Bool.and_eq_true, Bool.not_eq_true] at hd
    by_cases he : k = l
    · rw [removeField, if_pos he]
      exact hd.2
    · rw [removeField, if_neg he, distinctKeys]
      simp only [Bool.and_eq_true, Bool.not_eq_true]
      constructor
      · cases hany : (removeField rest k).any (fun q => q.1 == l) with
        | false => rfl
        | true =>
          exfalso
          obtain ⟨q, hq, hqe⟩ := List.any_eq_true.mp hany
          have hq2 : q ∈ rest := by
            clear ih hd hany
            induction rest with
            | nil => simp [removeField] at hq
            | cons r rr ihh =>
              obtain ⟨m, u⟩ := r
              rw [removeField] at hq
              by_cases hm : k = m
              · rw [if_pos hm] at hq
                exact List.mem_cons_of_mem _ hq
              · rw [if_neg hm] at hq
                rcases List.mem_cons.mp hq with hx | hx
                · rw [hx]
                  exact List.mem_cons_self _ _
                · exact List.mem_cons_of_mem _ (ihh hx)
          have : rest.any (fun q => q.1 == l) = true :=
            List.any_eq_true.mpr ⟨q, hq2, hqe⟩
          rw [this] at hd
          exact absurd hd.1 (by simp)
      · exact ih hd.2

/-- One deletion with a nonempty path on an object: stays an object, keys
stay distinct, and the per-key contents follow delK. -/
theorem unsetSegs_obj (fs : List (String × JValue)) (k' : String) (t : List String)
    (hd : distinctKeys fs = true) :
    ∃ fs', unsetSegs (.jobj fs) (k' :: t) = .jobj fs' ∧
      distinctKeys fs' = true ∧
      (∀ k, lookupJ k fs' =
        if k = k' then delK (lookupJ k fs) t else lookupJ k fs) := by
  cases t with
  | nil =>
    refine ⟨removeField fs k', rfl, distinctKeys_removeField fs k' hd, ?_⟩
    intro k
    by_cases he : k = k'
    · subst he
      rw [if_pos rfl, delK]
      exact lookupJ_removeField_self fs k hd
    · rw [if_neg he]
      exact lookupJ_removeField_other fs k k' he
  | cons s rest =>
    have hu : unsetSegs (.jobj fs) (k' :: s :: rest) =
        (match lookupJ k' fs with
         | some c => JValue.jobj (setField fs k' (unsetSegs c (s :: rest)))
         | none => JValue.jobj fs) := rfl
    cases hlk : lookupJ k' fs with
    | none =>
      refine ⟨fs, ?_, hd, ?_⟩
      · rw [hu, hlk]
      · intro k
        by_cases he : k = k'
        · subst he
          rw [if_pos rfl, hlk]
          rfl
        · rw [if_neg he]
    | some c =>
      refine ⟨setField fs k' (unsetSegs c (s :: rest)), ?_,
        distinctKeys_setField fs k' _ hd, ?_⟩
      · rw [hu, hlk]
      · intro k
        by_cases he : k = k'
        · subst he
          rw [if_pos rfl, hlk]
          exact lookupJ_setField_self fs k (unsetSegs c (s :: rest))
        · rw [if_neg he]
          exact lookupJ_setField_other fs k k' _ he

/-- One set with a nonempty path on an object: stays an object, keys stay
distinct, and the per-key contents follow setK. -/
theorem setSegs_obj (fs : List (String × JValue)) (k' : String) (t : List String)
    (v : JValue) (hd : distinctKeys fs = true) :
    ∃ fs', setSegs (.jobj fs) (k' :: t) v = .jobj fs' ∧
      distinctKeys fs' = true ∧
      (∀ k, lookupJ k fs' =
        if k = k' then setK (lookupJ k fs) (t, v) else lookupJ k fs) := by
  cases t with
  | nil =>
    refine ⟨setField fs k' v, rfl, distinctKeys_setField fs k' v hd, ?_⟩
    intro k
    by_cases he : k = k'
    · subst he
      rw [if_pos rfl, setK]
      exact lookupJ_setField_self fs k v
    · rw [if_neg he]
      exact lookupJ_setField_other fs k k' v he
  | cons s rest =>
    refine ⟨setField fs k'
      (setSegs (if ((lookupJ k' fs).getD .jundef).isComposite
        then (lookupJ k' fs).getD .jundef else freshFor (s :: rest)) (s :: rest) v),
      ?_, distinctKeys_setField fs k' _ hd, ?_⟩
    · rfl
    · intro k
      by_cases he : k = k'
      · subst he
        rw [if_pos rfl]
        exact lookupJ_setField_self fs k
          (setSegs (if ((lookupJ k fs).getD JValue.jundef).isComposite
            then (lookupJ k fs).getD JValue.jundef
            else freshFor (s :: rest)) (s :: rest) v)
      · rw [if_neg he]
        exact lookupJ_setField_other fs k k' _ he

theorem headTailsD_cons (k k' : String) (t : List String) (ps : List (List String)) :
    headTailsD k ((k' :: t) :: ps) =
      if k' = k then t :: headTailsD k ps else headTailsD k ps := by
  by_cases h : k' = k <;> simp [headTailsD, h]

theorem headTailsS_cons (k k' : String) (t : List String) (v : JValue)
    (es : List (List String × JValue)) :
    headTailsS k ((k' :: t, v) :: es) =
      if k' = k then (t, v) :: headTailsS k es else headTailsS k es := by
  by_cases h : k' = k <;> simp [headTailsS, h]

/-- Folding deletions with nonempty paths over an object. -/
theorem delFold_obj : ∀ (ps : List String) (fs : List (String × JValue)),
    distinctKeys fs = true → (∀ p ∈ ps, splitPath p ≠ []) →
    ∃ fs', ps.foldl (fun acc p => deleteValueAtPath acc p) (.jobj fs) = .jobj fs' ∧
      distinctKeys fs' = true ∧
      (∀ k, lookupJ k fs' =
        (headTailsD k (ps.map splitPath)).foldl delK (lookupJ k fs)) := by
  intro ps
  induction ps with
  | nil =>
    intro fs hd _
    exact ⟨fs, rfl, hd, fun k => rfl⟩
  | cons p rest ih =>
    intro fs hd hne
    cases hsp : splitPath p with
    | nil => exact absurd hsp (hne p (List.mem_cons_self _ _))
    | cons k' t =>
      obtain ⟨fs1, he1, hd1, hl1⟩ := unsetSegs_obj fs k' t hd
      have hstep : deleteValueAtPath (.jobj fs) p = .jobj fs1 := by
        rw [deleteValueAtPath, hsp]
        exact he1
      obtain ⟨fs', he', hd', hl'⟩ := ih fs1 hd1
        (fun q hq => hne q (List.mem_cons_of_mem _ hq))
      refine ⟨fs', ?_, hd', ?_⟩
      · rw [List.foldl_cons, hstep]
        exact he'
      · intro k
        rw [hl' k, hl1 k, List.map_cons, hsp, headTailsD_cons]
        by_cases he : k' = k
        · rw [if_pos he, List.foldl_cons, if_pos he.symm]
        · rw [if_neg he, if_neg (fun hx => he hx.symm)]

/-- Folding sets with nonempty paths over an object. -/
theorem setFold_obj : ∀ (es : List DiffEntry) (fs : List (String × JValue)),
    distinctKeys fs = true → (∀ e ∈ es, splitPath e.path ≠ []) →
    ∃ fs', es.foldl (fun acc e => setValueAtPath acc e.path e.value) (.jobj fs) = .jobj fs' ∧
      distinctKeys fs' = true ∧
      (∀ k, lookupJ k fs' =
        (headTailsS k (es.map (fun e => (splitPath e.path, e.value)))).foldl setK
          (lookupJ k fs)) := by
  intro es
  induction es with
  | nil =>
    intro fs hd _
    exact ⟨fs, rfl, hd, fun k => rfl⟩
  | cons e rest ih =>
    intro fs hd hne
    cases hsp : splitPath e.path with
    | nil => exact absurd hsp (hne e (List.mem_cons_self _ _))
    | cons k' t =>
      obtain ⟨fs1, he1, hd1, hl1⟩ := setSegs_obj fs k' t e.value hd
      have hstep : setValueAtPath (.jobj fs) e.path e.value = .jobj fs1 := by
        rw [setValueAtPath, hsp]
        exact he1
      obtain ⟨fs', he', hd', hl'⟩ := ih fs1 hd1
        (fun q hq => hne q (List.mem_cons_of_mem _ hq))
      refine ⟨fs', ?_, hd', ?_⟩
      · rw [List.foldl_cons, hstep]
        exact he'
      · intro k
        rw [hl' k, hl1 k, List.map_cons, hsp]
        rw [headTailsS_cons]
        by_cases he : k' = k
        · rw [if_pos he, List.foldl_cons, if_pos he.symm]
        · rw [if_neg he, if_neg (fun hx => he hx.symm)]

end JValue


/-! ## Part B2: association-list facts and object extensionality -/

theorem splitPath_ne_nil {p : String} (hp : p ≠ "") : splitPath p ≠ [] := by
  rw [splitPath, if_neg hp]
  intro he
  exact splitDots_ne_nil p.data (List.map_eq_nil.mp he)

namespace JValue

theorem hasKey_eq_any (k : String) (fs : List (String × JValue)) :
    hasKey k fs = fs.any (fun q => q.1 == k) := by
  induction fs with
  | nil => rfl
  | cons p rest ih =>
    obtain ⟨l, w⟩ := p
    rw [hasKey, List.any_cons, ih]
    have hsym : (k == l) = (l == k) := by simp [beq_iff_eq, eq_comm]
    rw [hsym]

theorem lookupJ_eq_none_of_hasKey_false {k : String} {fs : List (String × JValue)}
    (h : hasKey k fs = false) : lookupJ k fs = none := by
  induction fs with
  | nil => rfl
  | cons p rest ih =>
    obtain ⟨l, w⟩ := p
    rw [hasKey] at h
    simp only [Bool.or_eq_false_iff] at h
    rw [lookupJ, if_neg (by simpa [beq_iff_eq] using h.1)]
    exact ih h.2

theorem lookupJ_isSome_eq_hasKey (k : String) (fs : List (String × JValue)) :
    (lookupJ k fs).isSome = hasKey k fs := by
  induction fs with
  | nil => rfl
  | cons p rest ih =>
    obtain ⟨l, w⟩ := p
    rw [lookupJ, hasKey]
    by_cases he : k = l
    · simp [he]
    · rw [if_neg he, ih]
      simp [beq_iff_eq, he]

theorem distinct_head_hasKey {k : String} {w : JValue} {fs : List (String × JValue)}
    (hd : distinctKeys ((k, w) :: fs) = true) : hasKey k fs = false := by
  rw [distinctKeys] at hd
  simp only [Bool.and_eq_true, Bool.not_eq_true] at hd
  rw [hasKey_eq_any]
  simpa using hd.1

theorem nodup_keysOf : ∀ {fs : List (String × JValue)},
    distinctKeys fs = true → (Diff.keysOf fs).Nodup := by
  intro fs
  induction fs with
  | nil => intro _; exact List.nodup_nil
  | cons p rest ih =>
    intro hd
    obtain ⟨l, w⟩ := p
    rw [Diff.keysOf, List.map_cons]
    refine List.Nodup.cons ?_ ?_
    · intro hmem
      obtain ⟨q, hq, hq1⟩ := List.mem_map.mp hmem
      exact distinct_hasKey_false (distinct_head_hasKey hd) q hq hq1
    · rw [distinctKeys] at hd
      simp only [Bool.and_eq_true] at hd
      exact ih hd.2

theorem hasKey_iff_mem_keysOf (k : String) (fs : List (String × JValue)) :
    hasKey k fs = true ↔ k ∈ Diff.keysOf fs := by
  induction fs with
  | nil => simp [hasKey, Diff.keysOf]
  | cons p rest ih =>
    obtain ⟨l, w⟩ := p
    rw [hasKey, Diff.keysOf, List.map_cons]
    simp only [Bool.or_eq_true, beq_iff_eq, List.mem_cons]
    rw [Diff.keysOf] at ih
    rw [ih]

theorem jsEqualFields_of_forall : ∀ {fs gs : List (String × JValue)},
    (∀ p ∈ fs, ∃ w, lookupJ p.1 gs = some w ∧ jsEqual p.2 w = true) →
    jsEqualFields fs gs = true := by
  intro fs
  induction fs with
  | nil => intro gs _; rfl
  | cons p rest ih =>
    intro gs h
    obtain ⟨l, v⟩ := p
    obtain ⟨w, hw, he⟩ := h (l, v) (List.mem_cons_self _ _)
    rw [jsEqualFields, hw]
    simp only [Bool.and_eq_true]
    exact ⟨he, ih (fun q hq => h q (List.mem_cons_of_mem _ hq))⟩

/-- Extensionality for jsEqual on objects with distinct keys: pointwise
related lookups give equal lengths and related fields. -/
theorem jsEqual_obj_of_lookup {fs gs : List (String × JValue)}
    (hdf : distinctKeys fs = true) (hdg : distinctKeys gs = true)
    (h : ∀ k, (lookupJ k fs = none ∧ lookupJ k gs = none) ∨
      ∃ v w, lookupJ k fs = some v ∧ lookupJ k gs = some w ∧ jsEqual v w = true) :
    jsEqual (.jobj fs) (.jobj gs) = true := by
  have hmem : ∀ k, k ∈ Diff.keysOf fs ↔ k ∈ Diff.keysOf gs := by
    intro k
    rw [← hasKey_iff_mem_keysOf, ← hasKey_iff_mem_keysOf,
      ← lookupJ_isSome_eq_hasKey, ← lookupJ_isSome_eq_hasKey]
    rcases h k with ⟨h1, h2⟩ | ⟨v, w, h1, h2, _⟩ <;> rw [h1, h2] <;> simp
  have hperm : List.Perm (Diff.keysOf fs) (Diff.keysOf gs) :=
    (List.perm_ext_iff_of_nodup (nodup_keysOf hdf) (nodup_keysOf hdg)).mpr hmem
  have hlen : fs.length = gs.length := by
    have := hperm.length_eq
    simpa [Diff.keysOf] using this
  rw [jsEqual]
  simp only [Bool.and_eq_true, beq_iff_eq]
  refine ⟨hlen, ?_⟩
  apply jsEqualFields_of_forall
  intro p hp
  have hlp : lookupJ p.1 fs = some p.2 := lookupJ_of_mem_distinct fs p.1 p.2 hdf (by
    obtain ⟨a, b⟩ := p
    exact hp)
  rcases h p.1 with ⟨h1, _⟩ | ⟨v, w, h1, h2, he⟩
  · rw [hlp] at h1; exact absurd h1 (by simp)
  · rw [hlp] at h1
    injection h1 with h1
    exact ⟨w, h2, h1 ▸ he⟩

mutual

theorem jsEqual_refl_good : ∀ (v : JValue), goodVal v = true → jsEqual v v = true
  | .jnull, hv => by simp [goodVal] at hv
  | .jundef, hv => by simp [goodVal] at hv
  | .jbool b, _ => by simp [jsEqual]
  | .jnum n, _ => by simp [jsEqual]
  | .jstr s, _ => by simp [jsEqual]
  | .jarr xs, hv => by simp [goodVal] at hv
  | .jobj fs, hv => by
    rw [goodVal] at hv
    simp only [Bool.and_eq_true] at hv
    have hf : jsEqualFields fs fs = true :=
      jsEqualFields_refl_good fs fs hv.2
        (fun p hp => lookupJ_of_mem_distinct fs p.1 p.2 hv.1.1 (by
          obtain ⟨a, b⟩ := p
          exact hp))
    rw [jsEqual, hf]
    simp

theorem jsEqualFields_refl_good : ∀ (fs gs : List (String × JValue)),
    goodFields fs = true → (∀ p ∈ fs, lookupJ p.1 gs = some p.2) →
    jsEqualFields fs gs = true
  | [], _, _, _ => rfl
  | (l, v) :: rest, gs, hg, h => by
    rw [goodFields] at hg
    simp only [Bool.and_eq_true] at hg
    rw [jsEqualFields, h (l, v) (List.mem_cons_self _ _)]
    simp only [Bool.and_eq_true]
    exact ⟨jsEqual_refl_good v hg.1,
      jsEqualFields_refl_good rest gs hg.2
        (fun q hq => h q (List.mem_cons_of_mem _ hq))⟩

end

end JValue


/-! ## Part B3: Option-level folds over objects and path-tail bookkeeping -/


namespace Diff
open JValue


/-- All paths of a mapped diff are the mapped paths. -/
theorem pathsOf_mapPaths (f : String → String) (d : Diff) :
    (mapPaths f d).pathsOf = d.pathsOf.map f := by
  simp only [pathsOf, mapPaths, List.map_map, List.map_append]
  rfl

end Diff

namespace JValue

theorem headTailsD_append (k : String) (a b : List (List String)) :
    headTailsD k (a ++ b) = headTailsD k a ++ headTailsD k b :=
  List.filterMap_append a b _

theorem headTailsS_append (k : String) (a b : List (List String × JValue)) :
    headTailsS k (a ++ b) = headTailsS k a ++ headTailsS k b :=
  List.filterMap_append a b _

theorem headTailsD_map_cons {α : Type} (k0 k : String) (g : α → List String)
    (qs : List α) :
    headTailsD k0 (qs.map (fun q => k :: g q)) =
      if k = k0 then qs.map g else [] := by
  induction qs with
  | nil => by_cases h : k = k0 <;> simp [headTailsD, h]
  | cons q rest ih =>
    rw [List.map_cons, headTailsD_cons, ih]
    by_cases h : k = k0
    · simp [h]
    · simp [h]

theorem headTailsS_map_cons {α : Type} (k0 k : String) (g : α → List String)
    (h : α → JValue) (qs : List α) :
    headTailsS k0 (qs.map (fun q => (k :: g q, h q))) =
      if k = k0 then qs.map (fun q => (g q, h q)) else [] := by
  induction qs with
  | nil => by_cases hh : k = k0 <;> simp [headTailsS, hh]
  | cons q rest ih =>
    rw [List.map_cons, headTailsS_cons, ih]
    by_cases hh : k = k0
    · simp [hh]
    · simp [hh]

/-- Folding delK over tails of an object value: the result stays an object
with distinct keys and per-key contents given by headTailsD. -/
theorem foldl_delK_jobj : ∀ (ts : List (List String)) (fs : List (String × JValue)),
    distinctKeys fs = true → (∀ t ∈ ts, t ≠ []) →
    ∃ fs', ts.foldl delK (some (.jobj fs)) = some (.jobj fs') ∧
      distinctKeys fs' = true ∧
      (∀ k, lookupJ k fs' = (headTailsD k ts).foldl delK (lookupJ k fs)) := by
  intro ts
  induction ts with
  | nil => intro fs hd _; exact ⟨fs, rfl, hd, fun k => rfl⟩
  | cons t rest ih =>
    intro fs hd hne
    cases t with
    | nil => exact absurd rfl (hne [] (List.mem_cons_self _ _))
    | cons k' t' =>
      obtain ⟨fs1, he1, hd1, hl1⟩ := unsetSegs_obj fs k' t' hd
      have hstep : delK (some (.jobj fs)) (k' :: t') = some (.jobj fs1) := by
        rw [← he1]
        rfl
      obtain ⟨fs', he', hd', hl'⟩ := ih fs1 hd1
        (fun q hq => hne q (List.mem_cons_of_mem _ hq))
      refine ⟨fs', ?_, hd', ?_⟩
      · rw [List.foldl_cons, hstep]
        exact he'
      · intro k
        rw [hl' k, hl1 k, headTailsD_cons]
        by_cases he : k' = k
        · rw [if_pos he, List.foldl_cons, if_pos he.symm]
        · rw [if_neg he, if_neg (fun hx => he hx.symm)]

/-- Folding setK over nonempty tails of an object value. -/
theorem foldl_setK_jobj : ∀ (es : List (List String × JValue))
    (fs : List (String × JValue)),
    distinctKeys fs = true → (∀ e ∈ es, e.1 ≠ []) →
    ∃ fs', es.foldl setK (some (.jobj fs)) = some (.jobj fs') ∧
      distinctKeys fs' = true ∧
      (∀ k, lookupJ k fs' = (headTailsS k es).foldl setK (lookupJ k fs)) := by
  intro es
  induction es with
  | nil => intro fs hd _; exact ⟨fs, rfl, hd, fun k => rfl⟩
  | cons e rest ih =>
    intro fs hd hne
    obtain ⟨t, w⟩ := e
    cases t with
    | nil => exact absurd rfl (hne ([], w) (List.mem_cons_self _ _))
    | cons k' t' =>
      obtain ⟨fs1, he1, hd1, hl1⟩ := setSegs_obj fs k' t' w hd
      have hstep : setK (some (.jobj fs)) (k' :: t', w) = some (.jobj fs1) := by
        rw [← he1]
        rfl
      obtain ⟨fs', he', hd', hl'⟩ := ih fs1 hd1
        (fun q hq => hne q (List.mem_cons_of_mem _ hq))
      refine ⟨fs', ?_, hd', ?_⟩
      · rw [List.foldl_cons, hstep]
        exact he'
      · intro k
        rw [hl' k, hl1 k, headTailsS_cons]
        by_cases he : k' = k
        · rw [if_pos he, List.foldl_cons, if_pos he.symm]
        · rw [if_neg he, if_neg (fun hx => he hx.symm)]

/-- The per-key view of the level deletions an object comparison emits at
prefix "": key k contributes the empty tail exactly when it is an old key
missing on the new side. -/
theorem headTailsD_level : ∀ (fsA : List (String × JValue))
    (fsB : List (String × JValue)) (k : String),
    distinctKeys fsA = true → goodKeysL fsA = true →
    headTailsD k ((fsA.filter (fun q => !hasKey q.1 fsB)).map
      (fun q => splitPath (Diff.childPath "" q.1))) =
      if (hasKey k fsA && !hasKey k fsB) = true then [[]] else [] := by
  intro fsA
  induction fsA with
  | nil =>
    intro fsB k _ _
    simp [headTailsD, hasKey]
  | cons p rest ih =>
    intro fsB k hd hg
    obtain ⟨l, w⟩ := p
    have hgl : goodKey l = true ∧ goodKeysL rest = true := by
      rw [goodKeysL] at hg
      simpa using hg
    have hsp : splitPath (Diff.childPath "" l) = [l] := by
      rw [Diff.childPath, if_pos rfl]
      exact splitPath_goodKey hgl.1
    have hd2 : distinctKeys rest = true := by
      rw [distinctKeys] at hd
      simp only [Bool.and_eq_true] at hd
      exact hd.2
    have ihr := ih fsB k hd2 hgl.2
    rw [List.filter_cons]
    by_cases hkeep : (!hasKey l fsB) = true
    · rw [if_pos hkeep, List.map_cons, hsp, headTailsD_cons, ihr]
      by_cases hlk : l = k
      · subst hlk
        rw [if_pos rfl]
        have hnk : hasKey l rest = false := distinct_head_hasKey hd
        rw [hasKey, hnk]
        simp only [beq_self_eq_true, Bool.true_or]
        rw [if_neg (by simp [hnk, hkeep]), if_pos (by simp [hkeep])]
      · rw [if_neg hlk, hasKey]
        have : (k == l) = false := by simp [beq_iff_eq]; exact fun h => hlk h.symm
        rw [this, Bool.false_or]
    · rw [if_neg hkeep, ihr, hasKey]
      by_cases hlk : l = k
      · subst hlk
        simp only [beq_self_eq_true, Bool.true_or]
        have hB : hasKey l fsB = true := by
          cases hx : hasKey l fsB with
          | true => rfl
          | false => rw [hx] at hkeep; simp at hkeep
        rw [if_neg (by simp [hB])]
        by_cases hr : hasKey l rest = true
        · rw [if_neg (by simp [hB])]
        · rw [if_neg (by simp [hB])]
      · have : (k == l) = false := by simp [beq_iff_eq]; exact fun h => hlk h.symm
        rw [this, Bool.false_or]

end JValue


/-! ## Part B4: path-tail conversions and level set bookkeeping -/

namespace JValue
open Diff

theorem goodPathB_of_goodKey {k : String} (h : goodKey k = true) :
    goodPathB k = true := by
  rw [goodPathB]
  simp only [Bool.and_eq_true, Bool.not_eq_true]
  refine ⟨by simp [goodKey_ne_empty h], ?_⟩
  rw [splitPath_goodKey h]
  simp [h]

theorem goodPathB_ne_dot {q : String} (h : goodPathB q = true) : q ≠ "." := by
  intro he
  rw [goodPathB, he] at h
  simp only [Bool.and_eq_true] at h
  have hs : splitPath "." = ["", ""] := rfl
  rw [hs] at h
  simp only [List.all_cons, Bool.and_eq_true] at h
  exact goodKey_ne_empty h.2.1 rfl

theorem tailOf_eq_splitPath {q : String} (h : goodPathB q = true) :
    tailOf q = splitPath q := by
  rw [tailOf, if_neg (goodPathB_ne_dot h)]

theorem splitPath_reRoot_tail {k q : String} (hk : goodKey k = true)
    (hq : emittedPath q = true) : splitPath (reRoot k q) = k :: tailOf q := by
  rw [emittedPath, Bool.or_eq_true] at hq
  rcases hq with hq | hq
  · have hd : q = "." := by simpa using hq
    subst hd
    rw [reRoot_dot, splitPath_goodKey hk, tailOf, if_pos rfl]
  · rw [tailOf, if_neg (goodPathB_ne_dot hq)]
    exact splitPath_reRoot hk (goodPathB_ne_empty hq) (goodPathB_ne_dot hq)

theorem getSegs_cons_some {k : String} {fs : List (String × JValue)} {av : JValue}
    (h : lookupJ k fs = some av) (t : List String) :
    getSegs (.jobj fs) (k :: t) = getSegs av t := by
  have hu : getSegs (.jobj fs) (k :: t) = getSegs ((lookupJ k fs).getD .jundef) t := rfl
  rw [hu, h]
  rfl

theorem getValueAtPath_reRoot {k q : String} {fs : List (String × JValue)}
    {av : JValue} (hk : goodKey k = true) (hq : emittedPath q = true)
    (h : lookupJ k fs = some av) :
    getValueAtPath (.jobj fs) (reRoot k q) = getSegs av (tailOf q) := by
  rw [getValueAtPath, splitPath_reRoot_tail hk hq, getSegs_cons_some h]

theorem hasKey_of_lookupJ_some {k : String} {fs : List (String × JValue)}
    {v : JValue} (h : lookupJ k fs = some v) : hasKey k fs = true := by
  rw [← lookupJ_isSome_eq_hasKey, h]
  rfl

theorem hasKey_false_of_lookupJ_none {k : String} {fs : List (String × JValue)}
    (h : lookupJ k fs = none) : hasKey k fs = false := by
  rw [← lookupJ_isSome_eq_hasKey, h]
  rfl

/-- The per-key view of the level inverse additions: each old key missing on
the new side contributes one root entry carrying g of that key. -/
theorem headTailsS_level : ∀ (fsA : List (String × JValue))
    (fsB : List (String × JValue)) (k : String) (g : String → JValue),
    distinctKeys fsA = true → goodKeysL fsA = true →
    headTailsS k ((fsA.filter (fun q => !hasKey q.1 fsB)).map
      (fun q => (splitPath (Diff.childPath "" q.1), g q.1))) =
      if (hasKey k fsA && !hasKey k fsB) = true then [([], g k)] else [] := by
  intro fsA
  induction fsA with
  | nil =>
    intro fsB k g _ _
    simp [headTailsS, hasKey]
  | cons p rest ih =>
    intro fsB k g hd hg
    obtain ⟨l, w⟩ := p
    have hgl : goodKey l = true ∧ goodKeysL rest = true := by
      rw [goodKeysL] at hg
      simpa using hg
    have hsp : splitPath (Diff.childPath "" l) = [l] := by
      rw [Diff.childPath, if_pos rfl]
      exact splitPath_goodKey hgl.1
    have hd2 : distinctKeys rest = true := by
      rw [distinctKeys] at hd
      simp only [Bool.and_eq_true] at hd
      exact hd.2
    have ihr := ih fsB k g hd2 hgl.2
    rw [List.filter_cons]
    by_cases hkeep : (!hasKey l fsB) = true
    · rw [if_pos hkeep, List.map_cons, hsp, headTailsS_cons, ihr]
      by_cases hlk : l = k
      · subst hlk
        rw [if_pos rfl]
        have hnk : hasKey l rest = false := distinct_head_hasKey hd
        rw [hasKey, hnk]
        simp only [beq_self_eq_true, Bool.true_or]
        rw [if_neg (by simp [hnk, hkeep]), if_pos (by simp [hkeep])]
      · rw [if_neg hlk, hasKey]
        have : (k == l) = false := by simp [beq_iff_eq]; exact fun h => hlk h.symm
        rw [this, Bool.false_or]
    · rw [if_neg hkeep, ihr, hasKey]
      by_cases hlk : l = k
      · subst hlk
        simp only [beq_self_eq_true, Bool.true_or]
        have hB : hasKey l fsB = true := by
          cases hx : hasKey l fsB with
          | true => rfl
          | false => rw [hx] at hkeep; simp at hkeep
        rw [if_neg (by simp [hB]), if_neg (by simp [hB])]
      · have : (k == l) = false := by simp [beq_iff_eq]; exact fun h => hlk h.symm
        rw [this, Bool.false_or]

end JValue


/-! ## Part B5: the root comparison on non-object pairs, with equality info -/

namespace Diff
open JValue

theorem cmp_scalar_spec (a b : JValue) (ha : goodVal a = true)
    (hb : goodVal b = true) (hno : ∀ fsA fsB, ¬(a = .jobj fsA ∧ b = .jobj fsB)) :
    (jsEqual a b = true ∧ cmp a b "" = .ok Diff.empty) ∨
    cmp a b "" = .ok ⟨[], [⟨".", b⟩], []⟩ := by
  cases a with
  | jnull => simp [goodVal] at ha
  | jundef => simp [goodVal] at ha
  | jarr xs => simp [goodVal] at ha
  | jbool x =>
    cases b with
    | jnull => simp [goodVal] at hb
    | jundef => simp [goodVal] at hb
    | jarr ys => simp [goodVal] at hb
    | jbool y =>
      by_cases he : x = y
      · subst he
        exact Or.inl ⟨by simp [jsEqual], by simp [cmp, jsTypeTag, jsEqual]⟩
      · right
        simp [cmp, jsTypeTag, jsEqual, he, orDot]
    | jnum y => right; simp [cmp, jsTypeTag, orDot]
    | jstr y => right; simp [cmp, jsTypeTag, orDot]
    | jobj gs => right; simp [cmp, jsTypeTag, orDot]
  | jnum x =>
    cases b with
    | jnull => simp [goodVal] at hb
    | jundef => simp [goodVal] at hb
    | jarr ys => simp [goodVal] at hb
    | jbool y => right; simp [cmp, jsTypeTag, orDot]
    | jnum y =>
      by_cases he : x = y
      · subst he
        exact Or.inl ⟨by simp [jsEqual], by simp [cmp, jsTypeTag, jsEqual]⟩
      · right
        simp [cmp, jsTypeTag, jsEqual, he, orDot]
    | jstr y => right; simp [cmp, jsTypeTag, orDot]
    | jobj gs => right; simp [cmp, jsTypeTag, orDot]
  | jstr x =>
    cases b with
    | jnull => simp [goodVal] at hb
    | jundef => simp [goodVal] at hb
    | jarr ys => simp [goodVal] at hb
    | jbool y => right; simp [cmp, jsTypeTag, orDot]
    | jnum y => right; simp [cmp, jsTypeTag, orDot]
    | jstr y =>
      by_cases he : x = y
      · subst he
        exact Or.inl ⟨by simp [jsEqual], by simp [cmp, jsTypeTag, jsEqual]⟩
      · right
        simp [cmp, jsTypeTag, jsEqual, he, orDot]
    | jobj gs => right; simp [cmp, jsTypeTag, orDot]
  | jobj fs =>
    cases b with
    | jnull => simp [goodVal] at hb
    | jundef => simp [goodVal] at hb
    | jarr ys => simp [goodVal] at hb
    | jbool y => right; simp [cmp, jsTypeTag, orDot]
    | jnum y => right; simp [cmp, jsTypeTag, orDot]
    | jstr y => right; simp [cmp, jsTypeTag, orDot]
    | jobj gs => exact absurd ⟨rfl, rfl⟩ (hno fs gs)


theorem emittedPath_of_goodPathB {q : String} (h : goodPathB q = true) :
    emittedPath q = true := by
  rw [emittedPath, h, Bool.or_true]

theorem getSegs_nil (v : JValue) : getSegs v [] = v := by
  cases v <;> rfl

theorem applyWalk_nil (fsA : List (String × JValue)) : walkOut fsA [] := by
  refine ⟨Diff.empty, cmpObjWalk_nil fsA "", ?_, ?_⟩
  · intro q hq
    simp [pathsOf, Diff.empty] at hq
  · intro k
    exact ⟨rfl, rfl, rfl, rfl⟩

theorem applyVal_scalar (a b : JValue) (ha : goodVal a = true)
    (hb : goodVal b = true)
    (hno : ∀ fsA fsB, ¬(a = .jobj fsA ∧ b = .jobj fsB)) : valOut a b := by
  rcases cmp_scalar_spec a b ha hb hno with ⟨hje, hcmp⟩ | hcmp
  · refine ⟨Diff.empty, hcmp, ?_, a, rfl, hje, a, rfl, jsEqual_refl_good a ha⟩
    intro q hq
    simp [pathsOf, Diff.empty] at hq
  · refine ⟨⟨[], [⟨".", b⟩], []⟩, hcmp, ?_, b, rfl,
      jsEqual_refl_good b hb, a, ?_, jsEqual_refl_good a ha⟩
    · intro q hq
      simp only [pathsOf, List.map_cons, List.map_nil, List.append_nil,
        List.nil_append, List.mem_singleton] at hq
      subst hq
      rfl
    · rw [show applyTailsI a b ⟨[], [⟨".", b⟩], []⟩ =
        some (getSegs a []) from rfl, getSegs_nil]

end Diff


namespace Diff
open JValue

theorem applyWalk_cons (k : String) (bv : JValue)
    (restB fsA : List (String × JValue))
    (hdB : distinctKeys ((k, bv) :: restB) = true)
    (hkB : goodKeysL ((k, bv) :: restB) = true)
    (hfB : goodFields ((k, bv) :: restB) = true)
    (hgA : goodFields fsA = true)
    (hchild : ∀ av, lookupJ k fsA = some av → valOut av bv)
    (htail : walkOut fsA restB) :
    walkOut fsA ((k, bv) :: restB) := by
  have hkk : goodKey k = true := by
    rw [goodKeysL] at hkB
    simp only [Bool.and_eq_true] at hkB
    exact hkB.1
  have hbv : goodVal bv = true := by
    rw [goodFields] at hfB
    simp only [Bool.and_eq_true] at hfB
    exact hfB.1
  have hnk : hasKey k restB = false := distinct_head_hasKey hdB
  have hkrB : lookupJ k restB = none := lookupJ_eq_none_of_hasKey_false hnk
  have hcp : childPath "" k = k := by rw [childPath, if_pos rfl]
  obtain ⟨tl, htl, htlp, htlkey⟩ := htail
  cases hA : lookupJ k fsA with
  | some av =>
    obtain ⟨dk, hdk, hdkp, v', hv', hjsv, v2, hv2, hjs2⟩ := hchild av hA
    have hav : goodVal av = true := lookupJ_goodFields hgA hA
    have hre : cmp av bv k = .ok (mapPaths (reRoot k) dk) := by
      rw [cmp_reRoot bv av k hav hbv (goodKey_ne_empty hkk), hdk]
      rfl
    refine ⟨(mapPaths (reRoot k) dk).app tl, ?_, ?_, ?_⟩
    · rw [cmpObjWalk_cons_some fsA k bv av restB "" hA, hcp, hre, htl]
      rfl
    · intro q hq
      rcases (pathsOf_app (mapPaths (reRoot k) dk) tl q).mp hq with h | h
      · rw [pathsOf_mapPaths] at h
        obtain ⟨q0, hq0, rfl⟩ := List.mem_map.mp h
        exact goodPathB_reRoot hkk (hdkp q0 hq0)
      · exact htlp q h
    · have hDfull : ∀ k0, headTailsD k0
          ((((mapPaths (reRoot k) dk).app tl).deleted).map splitPath) =
          (if k = k0 then dk.deleted.map tailOf else []) ++
            headTailsD k0 (tl.deleted.map splitPath) := by
        intro k0
        have h1 : (((mapPaths (reRoot k) dk).app tl).deleted).map splitPath =
            dk.deleted.map (fun q => k :: tailOf q) ++ tl.deleted.map splitPath := by
          show (dk.deleted.map (reRoot k) ++ tl.deleted).map splitPath = _
          rw [List.map_append, List.map_map]
          congr 1
          apply List.map_congr_left
          intro q hq
          show splitPath (reRoot k q) = k :: tailOf q
          exact splitPath_reRoot_tail hkk (hdkp q (mem_pathsOf_deleted hq))
        rw [h1, headTailsD_append]
        congr 1
        exact headTailsD_map_cons k0 k tailOf dk.deleted
      have hSfull : ∀ k0, headTailsS k0
          ((((mapPaths (reRoot k) dk).app tl).modified ++
            ((mapPaths (reRoot k) dk).app tl).added).map
            (fun e => (splitPath e.path, e.value))) =
          ((if k = k0 then dk.modified.map (fun e => (tailOf e.path, e.value))
              else []) ++
            headTailsS k0 (tl.modified.map (fun e => (splitPath e.path, e.value)))) ++
          ((if k = k0 then dk.added.map (fun e => (tailOf e.path, e.value))
              else []) ++
            headTailsS k0 (tl.added.map (fun e => (splitPath e.path, e.value)))) := by
        intro k0
        have e1 : ((mapPaths (reRoot k) dk).app tl).modified =
            dk.modified.map (fun e => (⟨reRoot k e.path, e.value⟩ : DiffEntry)) ++
              tl.modified := rfl
        have e2 : ((mapPaths (reRoot k) dk).app tl).added =
            dk.added.map (fun e => (⟨reRoot k e.path, e.value⟩ : DiffEntry)) ++
              tl.added := rfl
        have hm : (dk.modified.map
            (fun e => (⟨reRoot k e.path, e.value⟩ : DiffEntry))).map
            (fun e => (splitPath e.path, e.value)) =
            dk.modified.map (fun e => ((k :: tailOf e.path : List String), e.value)) := by
          rw [List.map_map]
          apply List.map_congr_left
          intro e he
          show (splitPath (reRoot k e.path), e.value) = _
          rw [splitPath_reRoot_tail hkk (hdkp e.path (mem_pathsOf_modified he))]
        have hadd : (dk.added.map
            (fun e => (⟨reRoot k e.path, e.value⟩ : DiffEntry))).map
            (fun e => (splitPath e.path, e.value)) =
            dk.added.map (fun e => ((k :: tailOf e.path : List String), e.value)) := by
          rw [List.map_map]
          apply List.map_congr_left
          intro e he
          show (splitPath (reRoot k e.path), e.value) = _
          rw [splitPath_reRoot_tail hkk (hdkp e.path (mem_pathsOf_added he))]
        rw [e1, e2, List.map_append, headTailsS_append, List.map_append,
          headTailsS_append, List.map_append, headTailsS_append, hm, hadd,
          headTailsS_map_cons k0 k (fun e => tailOf e.path) (fun e => e.value)
            dk.modified,
          headTailsS_map_cons k0 k (fun e => tailOf e.path) (fun e => e.value)
            dk.added]
      have hAddDfull : ∀ k0, headTailsD k0
          ((((mapPaths (reRoot k) dk).app tl).added).map
            (fun e => splitPath e.path)) =
          (if k = k0 then dk.added.map (fun e => tailOf e.path) else []) ++
            headTailsD k0 (tl.added.map (fun e => splitPath e.path)) := by
        intro k0
        have e2 : ((mapPaths (reRoot k) dk).app tl).added =
            dk.added.map (fun e => (⟨reRoot k e.path, e.value⟩ : DiffEntry)) ++
              tl.added := rfl
        have hc : (dk.added.map
            (fun e => (⟨reRoot k e.path, e.value⟩ : DiffEntry))).map
            (fun e => splitPath e.path) =
            dk.added.map (fun e => (k :: tailOf e.path : List String)) := by
          rw [List.map_map]
          apply List.map_congr_left
          intro e he
          show splitPath (reRoot k e.path) = _
          rw [splitPath_reRoot_tail hkk (hdkp e.path (mem_pathsOf_added he))]
        rw [e2, List.map_append, headTailsD_append, hc]
        congr 1
        exact headTailsD_map_cons k0 k (fun e => tailOf e.path) dk.added
      have hSIfull : ∀ k0, headTailsS k0
          ((((mapPaths (reRoot k) dk).app tl).modified).map
            (fun e => (splitPath e.path, getValueAtPath (.jobj fsA) e.path)) ++
           (((mapPaths (reRoot k) dk).app tl).deleted).map
            (fun q => (splitPath q, getValueAtPath (.jobj fsA) q))) =
          ((if k = k0 then dk.modified.map
              (fun e => (tailOf e.path, getSegs av (tailOf e.path))) else []) ++
            headTailsS k0 (tl.modified.map
              (fun e => (splitPath e.path, getValueAtPath (.jobj fsA) e.path)))) ++
          ((if k = k0 then dk.deleted.map
              (fun q => (tailOf q, getSegs av (tailOf q))) else []) ++
            headTailsS k0 (tl.deleted.map
              (fun q => (splitPath q, getValueAtPath (.jobj fsA) q)))) := by
        intro k0
        have e1 : ((mapPaths (reRoot k) dk).app tl).modified =
            dk.modified.map (fun e => (⟨reRoot k e.path, e.value⟩ : DiffEntry)) ++
              tl.modified := rfl
        have e3 : ((mapPaths (reRoot k) dk).app tl).deleted =
            dk.deleted.map (reRoot k) ++ tl.deleted := rfl
        have hmI : (dk.modified.map
            (fun e => (⟨reRoot k e.path, e.value⟩ : DiffEntry))).map
            (fun e => (splitPath e.path, getValueAtPath (.jobj fsA) e.path)) =
            dk.modified.map (fun e => ((k :: tailOf e.path : List String),
              getSegs av (tailOf e.path))) := by
          rw [List.map_map]
          apply List.map_congr_left
          intro e he
          show (splitPath (reRoot k e.path),
            getValueAtPath (.jobj fsA) (reRoot k e.path)) = _
          rw [splitPath_reRoot_tail hkk (hdkp e.path (mem_pathsOf_modified he)),
            getValueAtPath_reRoot hkk (hdkp e.path (mem_pathsOf_modified he)) hA]
        have hdI : (dk.deleted.map (reRoot k)).map
            (fun q => (splitPath q, getValueAtPath (.jobj fsA) q)) =
            dk.deleted.map (fun q => ((k :: tailOf q : List String),
              getSegs av (tailOf q))) := by
          rw [List.map_map]
          apply List.map_congr_left
          intro q hq
          show (splitPath (reRoot k q), getValueAtPath (.jobj fsA) (reRoot k q)) = _
          rw [splitPath_reRoot_tail hkk (hdkp q (mem_pathsOf_deleted hq)),
            getValueAtPath_reRoot hkk (hdkp q (mem_pathsOf_deleted hq)) hA]
        rw [e1, e3, List.map_append, List.map_append, headTailsS_append,
          headTailsS_append, headTailsS_append, hmI, hdI,
          headTailsS_map_cons k0 k (fun e => tailOf e.path)
            (fun e => getSegs av (tailOf e.path)) dk.modified,
          headTailsS_map_cons k0 k tailOf
            (fun q => getSegs av (tailOf q)) dk.deleted]
      intro k0
      simp only [walkKey]
      rw [hDfull k0, hSfull k0, hAddDfull k0, hSIfull k0, lookupJ]
      by_cases hk0 : k0 = k
      · have hkeq : k = k0 := hk0.symm
        have hA0 : lookupJ k0 fsA = some av := by rw [hk0]; exact hA
        have hkr0 : lookupJ k0 restB = none := by rw [hk0]; exact hkrB
        rw [if_pos hk0, if_pos hkeq, if_pos hkeq, if_pos hkeq, if_pos hkeq,
          if_pos hkeq, if_pos hkeq]
        have htlk : keyOut fsA k0
            (headTailsD k0 (tl.deleted.map splitPath))
            (headTailsS k0 ((tl.modified ++ tl.added).map
              (fun e => (splitPath e.path, e.value))))
            (headTailsD k0 (tl.added.map (fun e => splitPath e.path)))
            (headTailsS k0 (tl.modified.map
                (fun e => (splitPath e.path, getValueAtPath (.jobj fsA) e.path)) ++
              tl.deleted.map
                (fun q => (splitPath q, getValueAtPath (.jobj fsA) q))))
            (lookupJ k0 restB) := htlkey k0
        rw [hkr0] at htlk
        obtain ⟨t1, t2, t3, t4⟩ := htlk
        rw [List.map_append, headTailsS_append, List.append_eq_nil] at t2
        rw [headTailsS_append, List.append_eq_nil] at t4
        rw [t1, t2.1, t2.2, t3, t4.1, t4.2]
        simp only [List.append_nil]
        refine ⟨v', ?_, hjsv, ?_⟩
        · rw [hA0, ← List.map_append]
          exact hv'
        · rw [hA0]
          exact ⟨v2, hv2, hjs2⟩
      · have hkne : ¬ (k = k0) := fun h => hk0 h.symm
        rw [if_neg hk0, if_neg hkne, if_neg hkne, if_neg hkne, if_neg hkne,
          if_neg hkne, if_neg hkne]
        simp only [List.nil_append]
        have hS2 : headTailsS k0 (tl.modified.map
              (fun e => (splitPath e.path, e.value))) ++
            headTailsS k0 (tl.added.map (fun e => (splitPath e.path, e.value))) =
            headTailsS k0 ((tl.modified ++ tl.added).map
              (fun e => (splitPath e.path, e.value))) := by
          rw [List.map_append, headTailsS_append]
        have hSI2 : headTailsS k0 (tl.modified.map
              (fun e => (splitPath e.path, getValueAtPath (.jobj fsA) e.path))) ++
            headTailsS k0 (tl.deleted.map
              (fun q => (splitPath q, getValueAtPath (.jobj fsA) q))) =
            headTailsS k0 (tl.modified.map
                (fun e => (splitPath e.path, getValueAtPath (.jobj fsA) e.path)) ++
              tl.deleted.map
                (fun q => (splitPath q, getValueAtPath (.jobj fsA) q))) := by
          rw [headTailsS_append]
        rw [hS2, hSI2]
        exact htlkey k0
  | none =>
    refine ⟨(Diff.mk [⟨k, bv⟩] [] []).app tl, ?_, ?_, ?_⟩
    · rw [cmpObjWalk_cons_none fsA k bv restB "" hA, hcp, htl]
      rfl
    · intro q hq
      rcases (pathsOf_app (Diff.mk [⟨k, bv⟩] [] []) tl q).mp hq with h | h
      · simp only [pathsOf, List.map_cons, List.map_nil, List.append_nil,
          List.nil_append, List.mem_singleton] at h
        subst h
        exact goodPathB_of_goodKey hkk
      · exact htlp q h
    · have f1 : ((Diff.mk [⟨k, bv⟩] [] []).app tl).deleted = tl.deleted := rfl
      have f2 : ((Diff.mk [⟨k, bv⟩] [] []).app tl).modified = tl.modified := rfl
      have f3 : ((Diff.mk [⟨k, bv⟩] [] []).app tl).added =
          (⟨k, bv⟩ : DiffEntry) :: tl.added := rfl
      intro k0
      simp only [walkKey]
      rw [f1, f2, f3, lookupJ]
      rw [List.map_append, headTailsS_append, List.map_cons, List.map_cons,
        splitPath_goodKey hkk, headTailsS_cons, headTailsD_cons]
      by_cases hk0 : k0 = k
      · have hkeq : k = k0 := hk0.symm
        have hA0 : lookupJ k0 fsA = none := by rw [hk0]; exact hA
        have hkr0 : lookupJ k0 restB = none := by rw [hk0]; exact hkrB
        rw [if_pos hk0, if_pos hkeq, if_pos hkeq]
        have htlk : keyOut fsA k0
            (headTailsD k0 (tl.deleted.map splitPath))
            (headTailsS k0 ((tl.modified ++ tl.added).map
              (fun e => (splitPath e.path, e.value))))
            (headTailsD k0 (tl.added.map (fun e => splitPath e.path)))
            (headTailsS k0 (tl.modified.map
                (fun e => (splitPath e.path, getValueAtPath (.jobj fsA) e.path)) ++
              tl.deleted.map
                (fun q => (splitPath q, getValueAtPath (.jobj fsA) q))))
            (lookupJ k0 restB) := htlkey k0
        rw [hkr0] at htlk
        obtain ⟨t1, t2, t3, t4⟩ := htlk
        rw [List.map_append, headTailsS_append, List.append_eq_nil] at t2
        rw [t1, t2.1, t2.2, t3, t4]
        simp only [List.nil_append]
        refine ⟨bv, ?_, jsEqual_refl_good bv hbv, ?_⟩
        · rw [hA0]
          rfl
        · rw [hA0]
          rfl
      · have hkne : ¬ (k = k0) := fun h => hk0 h.symm
        rw [if_neg hk0, if_neg hkne, if_neg hkne]
        have hS2 : headTailsS k0 (tl.modified.map
              (fun e => (splitPath e.path, e.value))) ++
            headTailsS k0 (tl.added.map (fun e => (splitPath e.path, e.value))) =
            headTailsS k0 ((tl.modified ++ tl.added).map
              (fun e => (splitPath e.path, e.value))) := by
          rw [List.map_append, headTailsS_append]
        rw [hS2]
        exact htlkey k0

end Diff


namespace Diff
open JValue

theorem applyVal_obj (fsA fsB : List (String × JValue))
    (ha : goodVal (.jobj fsA) = true) (hb : goodVal (.jobj fsB) = true)
    (hw : walkOut fsA fsB) :
    ∃ dk fs' fs2, cmp (.jobj fsA) (.jobj fsB) "" = .ok dk ∧
      (∀ q ∈ dk.pathsOf, goodPathB q = true) ∧
      applyTails (.jobj fsA) dk = some (.jobj fs') ∧
      jsEqual (.jobj fs') (.jobj fsB) = true ∧
      applyTailsI (.jobj fsA) (.jobj fs') dk = some (.jobj fs2) ∧
      jsEqual (.jobj fs2) (.jobj fsA) = true := by
  obtain ⟨hdA, hkA, hfA⟩ := goodVal_obj_parts ha
  obtain ⟨hdB, hkB2, hfB2⟩ := goodVal_obj_parts hb
  obtain ⟨rest, hwk, hrp, hkey⟩ := hw
  have hcmp : cmp (.jobj fsA) (.jobj fsB) "" = .ok ((Diff.mk [] []
      ((fsA.filter (fun q => !hasKey q.1 fsB)).map
        (fun q => childPath "" q.1))).app rest) := by
    rw [cmp_obj_obj, hwk]
    rfl
  have hdkp : ∀ q ∈ ((Diff.mk [] []
      ((fsA.filter (fun q => !hasKey q.1 fsB)).map
        (fun q => childPath "" q.1))).app rest).pathsOf, goodPathB q = true := by
    intro q hq
    rcases (pathsOf_app _ rest q).mp hq with h | h
    · simp only [pathsOf, List.map_nil, List.nil_append, List.append_nil] at h
      obtain ⟨p, hp, rfl⟩ := List.mem_map.mp h
      have hcq : childPath "" p.1 = p.1 := by rw [childPath, if_pos rfl]
      rw [hcq]
      exact goodPathB_of_goodKey (goodKeysL_mem hkA (List.mem_filter.mp hp).1)
    · exact hrp q h
  have hDconv : ((((Diff.mk [] []
      ((fsA.filter (fun q => !hasKey q.1 fsB)).map
        (fun q => childPath "" q.1))).app rest).deleted).map tailOf) =
      (fsA.filter (fun q => !hasKey q.1 fsB)).map
        (fun q => splitPath (childPath "" q.1)) ++
      rest.deleted.map splitPath := by
    show (((fsA.filter (fun q => !hasKey q.1 fsB)).map
      (fun q => childPath "" q.1)) ++ rest.deleted).map tailOf = _
    rw [List.map_append]
    congr 1
    · rw [List.map_map]
      apply List.map_congr_left
      intro p hp
      show tailOf (childPath "" p.1) = splitPath (childPath "" p.1)
      have hcq : childPath "" p.1 = p.1 := by rw [childPath, if_pos rfl]
      rw [hcq]
      exact tailOf_eq_splitPath
        (goodPathB_of_goodKey (goodKeysL_mem hkA (List.mem_filter.mp hp).1))
    · apply List.map_congr_left
      intro q hq
      exact tailOf_eq_splitPath (hrp q (mem_pathsOf_deleted hq))
  have hDne : ∀ t ∈ ((fsA.filter (fun q => !hasKey q.1 fsB)).map
        (fun q => splitPath (childPath "" q.1)) ++
      rest.deleted.map splitPath), t ≠ [] := by
    intro t ht
    rcases List.mem_append.mp ht with h | h
    · obtain ⟨p, hp, rfl⟩ := List.mem_map.mp h
      have hcq : childPath "" p.1 = p.1 := by rw [childPath, if_pos rfl]
      rw [hcq, splitPath_goodKey (goodKeysL_mem hkA (List.mem_filter.mp hp).1)]
      simp
    · obtain ⟨q, hq, rfl⟩ := List.mem_map.mp h
      exact splitPath_ne_nil (goodPathB_ne_empty (hrp q (mem_pathsOf_deleted hq)))
  obtain ⟨fs1, hfs1, hd1, hl1⟩ := foldl_delK_jobj
    ((fsA.filter (fun q => !hasKey q.1 fsB)).map
        (fun q => splitPath (childPath "" q.1)) ++
      rest.deleted.map splitPath) fsA hdA hDne
  have hSconv : ((((Diff.mk [] []
      ((fsA.filter (fun q => !hasKey q.1 fsB)).map
        (fun q => childPath "" q.1))).app rest).modified ++
      ((Diff.mk [] []
      ((fsA.filter (fun q => !hasKey q.1 fsB)).map
        (fun q => childPath "" q.1))).app rest).added).map
        (fun e => (tailOf e.path, e.value))) =
      (rest.modified ++ rest.added).map (fun e => (splitPath e.path, e.value)) := by
    show ((rest.modified ++ rest.added)).map (fun e => (tailOf e.path, e.value)) = _
    apply List.map_congr_left
    intro e he
    have hgp : goodPathB e.path = true := by
      rcases List.mem_append.mp he with h | h
      · exact hrp e.path (mem_pathsOf_modified h)
      · exact hrp e.path (mem_pathsOf_added h)
    rw [tailOf_eq_splitPath hgp]
  have hSne : ∀ e ∈ (rest.modified ++ rest.added).map
      (fun e => (splitPath e.path, e.value)), e.1 ≠ [] := by
    intro e he
    obtain ⟨e0, he0, rfl⟩ := List.mem_map.mp he
    show splitPath e0.path ≠ []
    have hgp : goodPathB e0.path = true := by
      rcases List.mem_append.mp he0 with h | h
      · exact hrp e0.path (mem_pathsOf_modified h)
      · exact hrp e0.path (mem_pathsOf_added h)
    exact splitPath_ne_nil (goodPathB_ne_empty hgp)
  obtain ⟨fs', hfs', hd', hl2⟩ := foldl_setK_jobj
    ((rest.modified ++ rest.added).map (fun e => (splitPath e.path, e.value)))
    fs1 hd1 hSne
  have happF : applyTails (.jobj fsA) ((Diff.mk [] []
      ((fsA.filter (fun q => !hasKey q.1 fsB)).map
        (fun q => childPath "" q.1))).app rest) = some (.jobj fs') := by
    rw [applyTails, hDconv, hfs1, hSconv]
    exact hfs'
  have hDIconv : ((((Diff.mk [] []
      ((fsA.filter (fun q => !hasKey q.1 fsB)).map
        (fun q => childPath "" q.1))).app rest).added).map
        (fun e => tailOf e.path)) =
      rest.added.map (fun e => splitPath e.path) := by
    show rest.added.map (fun e => tailOf e.path) = _
    apply List.map_congr_left
    intro e he
    show tailOf e.path = splitPath e.path
    exact tailOf_eq_splitPath (hrp e.path (mem_pathsOf_added he))
  have hDIne : ∀ t ∈ rest.added.map (fun e => splitPath e.path), t ≠ [] := by
    intro t ht
    obtain ⟨e, he, rfl⟩ := List.mem_map.mp ht
    exact splitPath_ne_nil (goodPathB_ne_empty (hrp e.path (mem_pathsOf_added he)))
  obtain ⟨fs2d, hfs2d, hd2d, hl3⟩ := foldl_delK_jobj
    (rest.added.map (fun e => splitPath e.path)) fs' hd' hDIne
  have hSIconv : ((((Diff.mk [] []
      ((fsA.filter (fun q => !hasKey q.1 fsB)).map
        (fun q => childPath "" q.1))).app rest).modified).map
        (fun e => (tailOf e.path, getSegs (.jobj fsA) (tailOf e.path))) ++
      (((Diff.mk [] []
      ((fsA.filter (fun q => !hasKey q.1 fsB)).map
        (fun q => childPath "" q.1))).app rest).deleted).map
        (fun q => (tailOf q, getSegs (.jobj fsA) (tailOf q)))) =
      rest.modified.map
        (fun e => (splitPath e.path, getValueAtPath (.jobj fsA) e.path)) ++
      ((fsA.filter (fun q => !hasKey q.1 fsB)).map
        (fun p => (splitPath (childPath "" p.1), (lookupJ p.1 fsA).getD .jundef)) ++
       rest.deleted.map
        (fun q => (splitPath q, getValueAtPath (.jobj fsA) q))) := by
    show (rest.modified.map
        (fun e => (tailOf e.path, getSegs (.jobj fsA) (tailOf e.path))) ++
      (((fsA.filter (fun q => !hasKey q.1 fsB)).map
        (fun q => childPath "" q.1)) ++ rest.deleted).map
        (fun q => (tailOf q, getSegs (.jobj fsA) (tailOf q)))) = _
    rw [List.map_append]
    congr 1
    · apply List.map_congr_left
      intro e he
      have hgp : goodPathB e.path = true := hrp e.path (mem_pathsOf_modified he)
      rw [tailOf_eq_splitPath hgp]
      rfl
    · congr 1
      · rw [List.map_map]
        apply List.map_congr_left
        intro p hp
        have hgk := goodKeysL_mem hkA (List.mem_filter.mp hp).1
        have hcq : childPath "" p.1 = p.1 := by rw [childPath, if_pos rfl]
        show (tailOf (childPath "" p.1),
          getSegs (.jobj fsA) (tailOf (childPath "" p.1))) = _
        rw [hcq, tailOf_eq_splitPath (goodPathB_of_goodKey hgk),
          splitPath_goodKey hgk]
        rw [show getSegs (.jobj fsA) [p.1] =
          getSegs ((lookupJ p.1 fsA).getD .jundef) [] from rfl, getSegs_nil]
      · apply List.map_congr_left
        intro q hq
        have hgp : goodPathB q = true := hrp q (mem_pathsOf_deleted hq)
        rw [tailOf_eq_splitPath hgp]
        rfl
  have hSIne : ∀ e ∈ (rest.modified.map
        (fun e => (splitPath e.path, getValueAtPath (.jobj fsA) e.path)) ++
      ((fsA.filter (fun q => !hasKey q.1 fsB)).map
        (fun p => (splitPath (childPath "" p.1), (lookupJ p.1 fsA).getD .jundef)) ++
       rest.deleted.map
        (fun q => (splitPath q, getValueAtPath (.jobj fsA) q)))), e.1 ≠ [] := by
    intro e he
    rcases List.mem_append.mp he with h | h
    · obtain ⟨e0, he0, rfl⟩ := List.mem_map.mp h
      exact splitPath_ne_nil
        (goodPathB_ne_empty (hrp e0.path (mem_pathsOf_modified he0)))
    · rcases List.mem_append.mp h with h2 | h2
      · obtain ⟨p, hp, rfl⟩ := List.mem_map.mp h2
        show splitPath (childPath "" p.1) ≠ []
        have hcq : childPath "" p.1 = p.1 := by rw [childPath, if_pos rfl]
        rw [hcq, splitPath_goodKey (goodKeysL_mem hkA (List.mem_filter.mp hp).1)]
        simp
      · obtain ⟨q, hq, rfl⟩ := List.mem_map.mp h2
        exact splitPath_ne_nil
          (goodPathB_ne_empty (hrp q (mem_pathsOf_deleted hq)))
  obtain ⟨fs2, hfs2, hd2, hl4⟩ := foldl_setK_jobj
    (rest.modified.map
        (fun e => (splitPath e.path, getValueAtPath (.jobj fsA) e.path)) ++
      ((fsA.filter (fun q => !hasKey q.1 fsB)).map
        (fun p => (splitPath (childPath "" p.1), (lookupJ p.1 fsA).getD .jundef)) ++
       rest.deleted.map
        (fun q => (splitPath q, getValueAtPath (.jobj fsA) q)))) fs2d hd2d hSIne
  have happI : applyTailsI (.jobj fsA) (.jobj fs') ((Diff.mk [] []
      ((fsA.filter (fun q => !hasKey q.1 fsB)).map
        (fun q => childPath "" q.1))).app rest) = some (.jobj fs2) := by
    rw [applyTailsI, hDIconv, hfs2d, hSIconv]
    exact hfs2
  have hkey2 : ∀ k0,
      (match lookupJ k0 fsB with
       | some bv0 => ∃ w, lookupJ k0 fs' = some w ∧ jsEqual w bv0 = true
       | none => lookupJ k0 fs' = none) ∧
      (match lookupJ k0 fsA with
       | some av0 => ∃ w2, lookupJ k0 fs2 = some w2 ∧ jsEqual w2 av0 = true
       | none => lookupJ k0 fs2 = none) := by
    intro k0
    have hb1 := hl1 k0
    rw [headTailsD_append, headTailsD_level fsA fsB k0 hdA hkA] at hb1
    have hb2 := hl2 k0
    have hb3 := hl3 k0
    have hb4 := hl4 k0
    rw [headTailsS_append, headTailsS_append,
      headTailsS_level fsA fsB k0 (fun l => (lookupJ l fsA).getD .jundef)
        hdA hkA] at hb4
    cases hB0 : lookupJ k0 fsB with
    | some bv0 =>
      have hkB0 : hasKey k0 fsB = true := hasKey_of_lookupJ_some hB0
      have hcondP : ¬ ((hasKey k0 fsA && !hasKey k0 fsB) = true) := by
        rw [hkB0]
        simp
      rw [if_neg hcondP, List.nil_append] at hb1
      rw [if_neg hcondP, List.nil_append] at hb4
      have hx : keyOut fsA k0
          (headTailsD k0 (rest.deleted.map splitPath))
          (headTailsS k0 ((rest.modified ++ rest.added).map
            (fun e => (splitPath e.path, e.value))))
          (headTailsD k0 (rest.added.map (fun e => splitPath e.path)))
          (headTailsS k0 (rest.modified.map
              (fun e => (splitPath e.path, getValueAtPath (.jobj fsA) e.path)) ++
            rest.deleted.map
              (fun q => (splitPath q, getValueAtPath (.jobj fsA) q))))
          (lookupJ k0 fsB) := hkey k0
      rw [hB0] at hx
      obtain ⟨v'0, hfwd, hjs0, hinv⟩ := hx
      have hv'0 : lookupJ k0 fs' = some v'0 := by
        rw [hb2, hb1]
        exact hfwd
      refine ⟨⟨v'0, hv'0, hjs0⟩, ?_⟩
      cases hA0 : lookupJ k0 fsA with
      | some av0 =>
        rw [hA0] at hinv
        obtain ⟨w2, hw2, hjw2⟩ := hinv
        rw [headTailsS_append] at hw2
        refine ⟨w2, ?_, hjw2⟩
        rw [hb4, hb3, hv'0]
        exact hw2
      | none =>
        rw [hA0] at hinv
        rw [headTailsS_append] at hinv
        rw [hb4, hb3, hv'0]
        exact hinv
    | none =>
      have hkB0f : hasKey k0 fsB = false := hasKey_false_of_lookupJ_none hB0
      have hx : keyOut fsA k0
          (headTailsD k0 (rest.deleted.map splitPath))
          (headTailsS k0 ((rest.modified ++ rest.added).map
            (fun e => (splitPath e.path, e.value))))
          (headTailsD k0 (rest.added.map (fun e => splitPath e.path)))
          (headTailsS k0 (rest.modified.map
              (fun e => (splitPath e.path, getValueAtPath (.jobj fsA) e.path)) ++
            rest.deleted.map
              (fun q => (splitPath q, getValueAtPath (.jobj fsA) q))))
          (lookupJ k0 fsB) := hkey k0
      rw [hB0] at hx
      obtain ⟨t1, t2, t3, t4⟩ := hx
      rw [t1, List.append_nil] at hb1
      rw [t2] at hb2
      simp only [List.foldl_nil] at hb2
      rw [t3] at hb3
      simp only [List.foldl_nil] at hb3
      rw [headTailsS_append, List.append_eq_nil] at t4
      rw [t4.1, t4.2, List.nil_append, List.append_nil] at hb4
      cases hA0 : lookupJ k0 fsA with
      | some av0 =>
        have hkA0 : hasKey k0 fsA = true := hasKey_of_lookupJ_some hA0
        have hcondT : (hasKey k0 fsA && !hasKey k0 fsB) = true := by
          rw [hkA0, hkB0f]
          rfl
        rw [if_pos hcondT, hA0] at hb1
        have hfs1n : lookupJ k0 fs1 = none := by
          rw [hb1]
          rfl
        have hfs'n : lookupJ k0 fs' = none := by
          rw [hb2]
          exact hfs1n
        rw [if_pos hcondT, hb3, hfs'n] at hb4
        have hfin : lookupJ k0 fs2 = some ((lookupJ k0 fsA).getD .jundef) := by
          rw [hb4]
          rfl
        rw [hA0] at hfin
        have hgood0 : goodVal av0 = true := lookupJ_goodFields hfA hA0
        exact ⟨hfs'n, av0, hfin, jsEqual_refl_good av0 hgood0⟩
      | none =>
        have hkA0f : hasKey k0 fsA = false := hasKey_false_of_lookupJ_none hA0
        have hcondF : ¬ ((hasKey k0 fsA && !hasKey k0 fsB) = true) := by
          rw [hkA0f]
          simp
        rw [if_neg hcondF, hA0] at hb1
        have hfs1n : lookupJ k0 fs1 = none := by
          rw [hb1]
          rfl
        have hfs'n : lookupJ k0 fs' = none := by
          rw [hb2]
          exact hfs1n
        rw [if_neg hcondF, hb3, hfs'n] at hb4
        have hfin : lookupJ k0 fs2 = none := by
          rw [hb4]
          rfl
        exact ⟨hfs'n, hfin⟩
  have hrelF : ∀ k0, (lookupJ k0 fs' = none ∧ lookupJ k0 fsB = none) ∨
      ∃ v w, lookupJ k0 fs' = some v ∧ lookupJ k0 fsB = some w ∧
        jsEqual v w = true := by
    intro k0
    have h := (hkey2 k0).1
    cases hB0 : lookupJ k0 fsB with
    | some bv0 =>
      rw [hB0] at h
      obtain ⟨w, hw, hj⟩ := h
      exact Or.inr ⟨w, bv0, hw, rfl, hj⟩
    | none =>
      rw [hB0] at h
      exact Or.inl ⟨h, rfl⟩
  have hrelI : ∀ k0, (lookupJ k0 fs2 = none ∧ lookupJ k0 fsA = none) ∨
      ∃ v w, lookupJ k0 fs2 = some v ∧ lookupJ k0 fsA = some w ∧
        jsEqual v w = true := by
    intro k0
    have h := (hkey2 k0).2
    cases hA0 : lookupJ k0 fsA with
    | some av0 =>
      rw [hA0] at h
      obtain ⟨w2, hw2, hj2⟩ := h
      exact Or.inr ⟨w2, av0, hw2, rfl, hj2⟩
    | none =>
      rw [hA0] at h
      exact Or.inl ⟨h, rfl⟩
  exact ⟨(Diff.mk [] []
      ((fsA.filter (fun q => !hasKey q.1 fsB)).map
        (fun q => childPath "" q.1))).app rest, fs', fs2, hcmp, hdkp, happF,
    jsEqual_obj_of_lookup hd' hdB hrelF, happI,
    jsEqual_obj_of_lookup hd2 hdA hrelI⟩

end Diff


namespace Diff
open JValue

mutual

/-- For values in the benign universe the comparison succeeds, applying the
diff to the old value reproduces the new one, and applying the inverse of
the diff restores the old one. -/
theorem applyVal : ∀ (b a : JValue), goodVal a = true → goodVal b = true →
    valOut a b
  | b, a, ha, hb => by
    by_cases hobj : (∃ fsA, a = JValue.jobj fsA) ∧ (∃ fsB, b = JValue.jobj fsB)
    · obtain ⟨⟨fsA, rfl⟩, ⟨fsB, rfl⟩⟩ := hobj
      obtain ⟨dk, fs', fs2, hcmp, hdkp, happF, hjsF, happI, hjsI⟩ :=
        applyVal_obj fsA fsB ha hb (applyWalk fsB fsA
          (goodVal_obj_parts hb).1 (goodVal_obj_parts hb).2.1
          (goodVal_obj_parts hb).2.2 (goodVal_obj_parts ha).2.2)
      exact ⟨dk, hcmp, fun q hq => emittedPath_of_goodPathB (hdkp q hq),
        .jobj fs', happF, hjsF, .jobj fs2, happI, hjsI⟩
    · rw [Classical.not_and_iff_or_not_not] at hobj
      have hno : ∀ gA gB, ¬(a = JValue.jobj gA ∧ b = JValue.jobj gB) := by
        intro gA gB hcc
        rcases hobj with h | h
        · exact h ⟨gA, hcc.1⟩
        · exact h ⟨gB, hcc.2⟩
      exact applyVal_scalar a b ha hb hno

/-- The per-key walk contract holds for every benign new field list. -/
theorem applyWalk : ∀ (fsB fsA : List (String × JValue)),
    distinctKeys fsB = true → goodKeysL fsB = true → goodFields fsB = true →
    goodFields fsA = true → walkOut fsA fsB
  | [], fsA, _, _, _, _ => applyWalk_nil fsA
  | (k, bv) :: restB, fsA, hdB, hkB, hfB, hgA => by
    have hdB' : distinctKeys restB = true := by
      rw [distinctKeys] at hdB
      simp only [Bool.and_eq_true] at hdB
      exact hdB.2
    have hkB' : goodKeysL restB = true := by
      rw [goodKeysL] at hkB
      simp only [Bool.and_eq_true] at hkB
      exact hkB.2
    have hfB' : goodFields restB = true := by
      rw [goodFields] at hfB
      simp only [Bool.and_eq_true] at hfB
      exact hfB.2
    have hbv : goodVal bv = true := by
      rw [goodFields] at hfB
      simp only [Bool.and_eq_true] at hfB
      exact hfB.1
    exact applyWalk_cons k bv restB fsA hdB hkB hfB hgA
      (fun av hAv => applyVal bv av (lookupJ_goodFields hgA hAv) hbv)
      (applyWalk restB fsA hdB' hkB' hfB' hgA)

end

end Diff


namespace JValue

theorem unsetSegs_obj_shape (fs : List (String × JValue)) (k : String)
    (t : List String) : ∃ fs', unsetSegs (.jobj fs) (k :: t) = .jobj fs' := by
  cases t with
  | nil => exact ⟨removeField fs k, rfl⟩
  | cons s r =>
    have hu : unsetSegs (.jobj fs) (k :: s :: r) =
        (match lookupJ k fs with
         | some c => JValue.jobj (setField fs k (unsetSegs c (s :: r)))
         | none => JValue.jobj fs) := rfl
    cases hlk : lookupJ k fs with
    | none => exact ⟨fs, by rw [hu, hlk]⟩
    | some c => exact ⟨setField fs k (unsetSegs c (s :: r)), by rw [hu, hlk]⟩

theorem setSegs_obj_shape (fs : List (String × JValue)) (k : String)
    (t : List String) (v : JValue) :
    ∃ fs', setSegs (.jobj fs) (k :: t) v = .jobj fs' := by
  cases t with
  | nil => exact ⟨setField fs k v, rfl⟩
  | cons s r =>
    exact ⟨setField fs k (setSegs
      (if ((lookupJ k fs).getD .jundef).isComposite
        then (lookupJ k fs).getD .jundef else freshFor (s :: r)) (s :: r) v), rfl⟩

/-- The tail fold of deletions agrees between the plain value semantics and
the per-key option semantics. -/
theorem delFold_bridge : ∀ (ts : List (List String)) (fs : List (String × JValue)),
    (∀ t ∈ ts, t ≠ []) →
    ∃ fs1, ts.foldl (fun a t => unsetSegs a t) (.jobj fs) = .jobj fs1 ∧
      ts.foldl delK (some (.jobj fs)) = some (.jobj fs1) := by
  intro ts
  induction ts with
  | nil => intro fs _; exact ⟨fs, rfl, rfl⟩
  | cons t rest ih =>
    intro fs hne
    cases t with
    | nil => exact absurd rfl (hne [] (List.mem_cons_self _ _))
    | cons k t' =>
      obtain ⟨fsx, hx⟩ := unsetSegs_obj_shape fs k t'
      obtain ⟨fs1, h1, h2⟩ := ih fsx (fun q hq => hne q (List.mem_cons_of_mem _ hq))
      refine ⟨fs1, ?_, ?_⟩
      · rw [List.foldl_cons, hx]
        exact h1
      · rw [List.foldl_cons]
        have hstep : delK (some (.jobj fs)) (k :: t') = some (.jobj fsx) := by
          rw [← hx]
          rfl
        rw [hstep]
        exact h2

/-- The tail fold of sets agrees between the plain value semantics and the
per-key option semantics. -/
theorem setFold_bridge : ∀ (es : List (List String × JValue))
    (fs : List (String × JValue)), (∀ e ∈ es, e.1 ≠ []) →
    ∃ fs2, es.foldl (fun a tv => setSegs a tv.1 tv.2) (.jobj fs) = .jobj fs2 ∧
      es.foldl setK (some (.jobj fs)) = some (.jobj fs2) := by
  intro es
  induction es with
  | nil => intro fs _; exact ⟨fs, rfl, rfl⟩
  | cons e rest ih =>
    intro fs hne
    obtain ⟨t, w⟩ := e
    cases t with
    | nil => exact absurd rfl (hne ([], w) (List.mem_cons_self _ _))
    | cons k t' =>
      obtain ⟨fsx, hx⟩ := setSegs_obj_shape fs k t' w
      obtain ⟨fs2, h1, h2⟩ := ih fsx (fun q hq => hne q (List.mem_cons_of_mem _ hq))
      refine ⟨fs2, ?_, ?_⟩
      · rw [List.foldl_cons]
        show List.foldl _ (setSegs (.jobj fs) (k :: t') w) rest = _
        rw [hx]
        exact h1
      · rw [List.foldl_cons]
        have hstep : setK (some (.jobj fs)) (k :: t', w) = some (.jobj fsx) := by
          rw [← hx]
          rfl
        rw [hstep]
        exact h2

end JValue

namespace Diff
open JValue

/-- On an object and a diff whose every path is benign, Diff.apply computes
the value that the per-key option semantics computes. -/
theorem applyDiff_bridge (d : Diff) (fs : List (String × JValue)) (w : JValue)
    (hp : ∀ q ∈ d.pathsOf, goodPathB q = true)
    (h : applyTails (.jobj fs) d = some w) : applyDiff (.jobj fs) d = w := by
  have hDconv : d.deleted.map tailOf = d.deleted.map splitPath := by
    apply List.map_congr_left
    intro q hq
    exact tailOf_eq_splitPath (hp q (mem_pathsOf_deleted hq))
  have hSconv : (d.modified ++ d.added).map (fun e => (tailOf e.path, e.value)) =
      (d.modified ++ d.added).map (fun e => (splitPath e.path, e.value)) := by
    apply List.map_congr_left
    intro e he
    have hgp : goodPathB e.path = true := by
      rcases List.mem_append.mp he with h2 | h2
      · exact hp e.path (mem_pathsOf_modified h2)
      · exact hp e.path (mem_pathsOf_added h2)
    rw [tailOf_eq_splitPath hgp]
  have hDne : ∀ t ∈ d.deleted.map splitPath, t ≠ [] := by
    intro t ht
    obtain ⟨q, hq, rfl⟩ := List.mem_map.mp ht
    exact splitPath_ne_nil (goodPathB_ne_empty (hp q (mem_pathsOf_deleted hq)))
  have hSne : ∀ e ∈ (d.modified ++ d.added).map
      (fun e => (splitPath e.path, e.value)), e.1 ≠ [] := by
    intro e he
    obtain ⟨e0, he0, rfl⟩ := List.mem_map.mp he
    show splitPath e0.path ≠ []
    have hgp : goodPathB e0.path = true := by
      rcases List.mem_append.mp he0 with h2 | h2
      · exact hp e0.path (mem_pathsOf_modified h2)
      · exact hp e0.path (mem_pathsOf_added h2)
    exact splitPath_ne_nil (goodPathB_ne_empty hgp)
  obtain ⟨fs1, hj1, hk1⟩ := delFold_bridge (d.deleted.map splitPath) fs hDne
  obtain ⟨fs2, hj2, hk2⟩ := setFold_bridge
    ((d.modified ++ d.added).map (fun e => (splitPath e.path, e.value))) fs1 hSne
  have h2 : applyTails (.jobj fs) d = some (.jobj fs2) := by
    rw [applyTails, hDconv, hk1, hSconv]
    exact hk2
  rw [h2] at h
  injection h with h
  subst h
  show (d.modified ++ d.added).foldl
    (fun acc e => setValueAtPath acc e.path e.value)
    (d.deleted.foldl (fun acc p => deleteValueAtPath acc p) (.jobj fs)) =
    JValue.jobj fs2
  have hdel : d.deleted.foldl (fun acc p => deleteValueAtPath acc p)
      (.jobj fs) = .jobj fs1 := by
    have hfm := List.foldl_map splitPath
      (fun (a : JValue) (t : List String) => unsetSegs a t) d.deleted
      (JValue.jobj fs)
    rw [hj1] at hfm
    exact hfm.symm
  rw [hdel]
  have hfm2 := List.foldl_map
    (fun (e : DiffEntry) => (splitPath e.path, e.value))
    (fun (a : JValue) (tv : List String × JValue) => setSegs a tv.1 tv.2)
    (d.modified ++ d.added) (JValue.jobj fs1)
  rw [hj2] at hfm2
  exact hfm2.symm

end Diff


namespace Diff
open JValue

/-- Root-level round trip on the benign universe: generation succeeds, apply
reproduces the new object, and applying the inverted diff restores the old
object. -/
theorem roundTripRoot (fsA fsB : List (String × JValue))
    (ha : goodVal (.jobj fsA) = true) (hb : goodVal (.jobj fsB) = true) :
    ∃ d, generate (.jobj fsA) (.jobj fsB) = .ok d ∧
      jsEqual (applyDiff (.jobj fsA) d) (.jobj fsB) = true ∧
      jsEqual (applyDiff (applyDiff (.jobj fsA) d) (invert (.jobj fsA) d))
        (.jobj fsA) = true := by
  obtain ⟨dk, fs', fs2, hcmp, hdkp, happF, hjsF, happI, hjsI⟩ :=
    applyVal_obj fsA fsB ha hb (applyWalk fsB fsA
      (goodVal_obj_parts hb).1 (goodVal_obj_parts hb).2.1
      (goodVal_obj_parts hb).2.2 (goodVal_obj_parts ha).2.2)
  have happD : applyDiff (.jobj fsA) dk = .jobj fs' :=
    applyDiff_bridge dk fsA _ hdkp happF
  have hinvp : ∀ q ∈ (invert (.jobj fsA) dk).pathsOf, goodPathB q = true := by
    intro q hq
    have eq1 : (invert (.jobj fsA) dk).pathsOf =
        (dk.modified.map (fun e =>
            (⟨e.path, getValueAtPath (.jobj fsA) e.path⟩ : DiffEntry))).map
          (fun e => e.path) ++
        (dk.deleted.map (fun p =>
            (⟨p, getValueAtPath (.jobj fsA) p⟩ : DiffEntry))).map
          (fun e => e.path) ++
        dk.added.map (fun e => e.path) := rfl
    rw [eq1] at hq
    rcases List.mem_append.mp hq with h | h
    · rcases List.mem_append.mp h with h2 | h2
      · obtain ⟨e1, he1, rfl⟩ := List.mem_map.mp h2
        obtain ⟨e, he, rfl⟩ := List.mem_map.mp he1
        exact hdkp e.path (mem_pathsOf_modified he)
      · obtain ⟨e1, he1, rfl⟩ := List.mem_map.mp h2
        obtain ⟨p, hp2, rfl⟩ := List.mem_map.mp he1
        exact hdkp p (mem_pathsOf_deleted hp2)
    · obtain ⟨e, he, rfl⟩ := List.mem_map.mp h
      exact hdkp _ (mem_pathsOf_added he)
  have hTsame : applyTails (.jobj fs') (invert (.jobj fsA) dk) =
      applyTailsI (.jobj fsA) (.jobj fs') dk := by
    have hdels : (invert (.jobj fsA) dk).deleted.map tailOf =
        dk.added.map (fun e => tailOf e.path) := by
      show (dk.added.map (fun e => e.path)).map tailOf = _
      rw [List.map_map]
      rfl
    have hsets : ((invert (.jobj fsA) dk).modified ++
        (invert (.jobj fsA) dk).added).map (fun e => (tailOf e.path, e.value)) =
        dk.modified.map
          (fun e => (tailOf e.path, getSegs (.jobj fsA) (tailOf e.path))) ++
        dk.deleted.map
          (fun q => (tailOf q, getSegs (.jobj fsA) (tailOf q))) := by
      show ((dk.modified.map (fun e =>
          (⟨e.path, getValueAtPath (.jobj fsA) e.path⟩ : DiffEntry)) ++
        dk.deleted.map (fun p =>
          (⟨p, getValueAtPath (.jobj fsA) p⟩ : DiffEntry)))).map
          (fun e => (tailOf e.path, e.value)) = _
      rw [List.map_append, List.map_map, List.map_map]
      congr 1
      · apply List.map_congr_left
        intro e he
        show (tailOf e.path, getValueAtPath (.jobj fsA) e.path) = _
        rw [tailOf_eq_splitPath (hdkp e.path (mem_pathsOf_modified he))]
        rfl
      · apply List.map_congr_left
        intro p hp
        show (tailOf p, getValueAtPath (.jobj fsA) p) = _
        rw [tailOf_eq_splitPath (hdkp p (mem_pathsOf_deleted hp))]
        rfl
    rw [applyTails, applyTailsI, hdels, hsets]
  have happD2 : applyDiff (.jobj fs') (invert (.jobj fsA) dk) = .jobj fs2 :=
    applyDiff_bridge _ fs' _ hinvp (by rw [hTsame]; exact happI)
  refine ⟨dk, hcmp, ?_, ?_⟩
  · rw [happD]
    exact hjsF
  · rw [happD, happD2]
    exact hjsI

end Diff



namespace Diff
open JValue

/-- C2: refuted as stated.  When b drops trailing sequence elements of a,
the generated diff records deletions at the dropped indices, but lodash
unset leaves undefined holes in a copied array instead of shortening it, so
apply(a, generate(a, b)) has a sequence of the old length and is not equal
to b. -/
theorem C2_counterexample : ∃ d, generate c2a c2b = Except.ok d ∧
    jsEqual (applyDiff c2a d) c2b = false :=
  ⟨⟨[], [], ["xs.1", "xs.2"]⟩, rfl, rfl⟩

/-- C2 (amended): on objects whose values avoid sequences, null and
undefined and whose keys are distinct, nonempty and free of dots and
brackets (keys such as "x[0]" would make lodash set create an array where
the diff recorded a plain key), the generated diff applies back to the new
value up to the library's own deep equality: generate(a, b) succeeds with
some d and apply(a, d) isEqual b. -/
theorem C2_amended (fsA fsB : List (String × JValue))
    (ha : goodVal (.jobj fsA) = true) (hb : goodVal (.jobj fsB) = true) :
    ∃ d, generate (.jobj fsA) (.jobj fsB) = .ok d ∧
      jsEqual (applyDiff (.jobj fsA) d) (.jobj fsB) = true := by
  obtain ⟨d, h1, h2, _⟩ := roundTripRoot fsA fsB ha hb
  exact ⟨d, h1, h2⟩

/-- Witness for C2 (amended) at concrete objects with one deleted and one
added key. -/
theorem C2_witness :
    goodVal (.jobj [("a", JValue.jnum 1)]) = true ∧
    goodVal (.jobj [("b", JValue.jstr "x")]) = true ∧
    (∃ d, generate (.jobj [("a", JValue.jnum 1)])
        (.jobj [("b", JValue.jstr "x")]) = .ok d ∧
      jsEqual (applyDiff (.jobj [("a", JValue.jnum 1)]) d)
        (.jobj [("b", JValue.jstr "x")]) = true) :=
  ⟨rfl, rfl, C2_amended [("a", JValue.jnum 1)] [("b", JValue.jstr "x")] rfl rfl⟩

/-- C6: refuted as stated.  When b appends a trailing sequence element, the
diff records an addition at the new index; the inverse therefore records a
deletion there, but lodash unset leaves an undefined hole instead of
shortening the array, so apply(apply(a, d), invert(a, d)) keeps the longer
length and is not equal to a. -/
theorem C6_counterexample : ∃ d, generate c6a c6b = Except.ok d ∧
    jsEqual (applyDiff (applyDiff c6a d) (invert c6a d)) c6a = false :=
  ⟨⟨[⟨"xs.1", .jnum 2⟩], [], []⟩, rfl, rfl⟩

/-- C6 (amended): on objects whose values avoid sequences, null and
undefined and whose keys are distinct, nonempty and free of dots and
brackets, applying the inverted diff undoes the applied diff up to the
library's own deep equality. -/
theorem C6_amended (fsA fsB : List (String × JValue))
    (ha : goodVal (.jobj fsA) = true) (hb : goodVal (.jobj fsB) = true) :
    ∃ d, generate (.jobj fsA) (.jobj fsB) = .ok d ∧
      jsEqual (applyDiff (applyDiff (.jobj fsA) d) (invert (.jobj fsA) d))
        (.jobj fsA) = true := by
  obtain ⟨d, h1, _, h3⟩ := roundTripRoot fsA fsB ha hb
  exact ⟨d, h1, h3⟩

/-- Witness for C6 (amended) at concrete objects with one deleted, one
modified and one added key. -/
theorem C6_witness :
    goodVal (.jobj [("a", JValue.jnum 1), ("c", JValue.jbool true)]) = true ∧
    goodVal (.jobj [("b", JValue.jstr "x"), ("c", JValue.jbool false)]) = true ∧
    (∃ d, generate (.jobj [("a", JValue.jnum 1), ("c", JValue.jbool true)])
        (.jobj [("b", JValue.jstr "x"), ("c", JValue.jbool false)]) = .ok d ∧
      jsEqual (applyDiff (applyDiff
          (.jobj [("a", JValue.jnum 1), ("c", JValue.jbool true)]) d)
          (invert (.jobj [("a", JValue.jnum 1), ("c", JValue.jbool true)]) d))
        (.jobj [("a", JValue.jnum 1), ("c", JValue.jbool true)]) = true) :=
  ⟨rfl, rfl, C6_amended [("a", JValue.jnum 1), ("c", JValue.jbool true)]
    [("b", JValue.jstr "x"), ("c", JValue.jbool false)] rfl rfl⟩

end Diff
